import Mathlib

/-!
# Seed scanners of the Hyperspace wallet

A shallow embedding of `modules/wallet/fastscan.go` and
`modules/wallet/slowscan.go`, followed by theorems about the embedded code.

Conventions.

* Go maps are `Finmap`s: finite, extensional (two maps are equal when they
  hold the same entries), with `lookup`, `insert` (overwrites), `erase`
  and a size.
* `uint64` values are natural numbers; every `uint64` operation of the
  source is followed by an explicit reduction modulo `2 ^ 64`.
* `types.Currency` is a natural number (arbitrary precision, non-negative).
* A `panic` is the result `none`.
* A slice is a list; the one place where the source can ask, from its own
  arithmetic, for a slice longer than a slice can be (the growth of the key
  window at the end of `seedScanner.ProcessHeaderConsensusChange`) is a panic.
* The logger and the consensus-set handle do not influence any value and
  are left out of the state.
-/

namespace Hyperspace

/-! ## Machine integers -/

/-- Number of values of a Go `uint64`. -/
def uint64Size : Nat := 2 ^ 64

/-- Wrapping `uint64` addition. -/
def u64add (a b : Nat) : Nat := (a + b) % uint64Size

/-- Wrapping `uint64` subtraction. -/
def u64sub (a b : Nat) : Nat := (a % uint64Size + (uint64Size - b % uint64Size)) % uint64Size

/-! ## Types of the `types` and `modules` packages used by the scanners -/

/-- Address: `types.UnlockHash`. -/
abbrev UnlockHash := Nat

/-- Identifier of an output: `types.SiacoinOutputID`. -/
abbrev SiacoinOutputID := Nat

/-- Identifier of a block: `types.BlockID`. -/
abbrev BlockID := Nat

/-- Amount: `types.Currency`. -/
abbrev Currency := Nat

/-- Height of a block: `types.BlockHeight`. -/
abbrev BlockHeight := Nat

/-- Cursor into the chain history: `modules.ConsensusChangeID`. -/
abbrev ConsensusChangeID := Nat

/-- Direction of a diff: `modules.DiffDirection`, a two-valued type in Go
(`DiffApply = true`, `DiffRevert = false`). -/
inductive DiffDirection where
  | DiffApply
  | DiffRevert
deriving DecidableEq, Repr

open DiffDirection

/-- An output: `types.SiacoinOutput`. -/
structure SiacoinOutput where
  Value : Currency
  UnlockHash : UnlockHash
deriving DecidableEq, Repr

/-- A diff of the output set: `modules.SiacoinOutputDiff`. -/
structure SiacoinOutputDiff where
  Direction : DiffDirection
  ID : SiacoinOutputID
  SiacoinOutput : SiacoinOutput
deriving DecidableEq, Repr

/-- Block header, reduced to what the scanners read of it: its `ID()`. -/
structure BlockHeader where
  ID : BlockID

/-- Modelled from the spec: the per-block filter (`types.GCSFilter`) is not
among the sources; it is the external `matchesFilter(blockID,
candidateAddresses) → bool`, an arbitrary boolean test of the block id and the
candidate address list. -/
structure GCSFilter where
  MatchUnlockHash : BlockID → List UnlockHash → Bool

/-- Header delivered by the feed: `modules.ProcessedBlockHeader`. -/
structure ProcessedBlockHeader where
  BlockHeader : BlockHeader
  Height : BlockHeight
  GCSFilter : GCSFilter

/-- One batch of the feed: `modules.HeaderConsensusChange`, with the fields
the scanners read. -/
structure HeaderConsensusChange where
  ID : ConsensusChangeID
  AppliedBlockHeaders : List ProcessedBlockHeader
  RevertedBlockHeaders : List ProcessedBlockHeader
  MaturedSiacoinOutputDiffs : List SiacoinOutputDiff

/-- The callback `getSiacoinOutputDiff`; `none` is a returned error. -/
abbrev DiffFetcher := BlockID → DiffDirection → Option (List SiacoinOutputDiff)

/-- Modelled from the spec: `modules.Seed` and the key derivation are not among
the sources. A seed is the secret from which a sequence of addresses is
deterministically derivable; it is represented by that sequence, `addr i`
being the address of the key at derivation position `i`. -/
structure Seed where
  addr : Nat → UnlockHash

/-- Modelled from the spec: the package-level `generateKeys(seed, start, n)`
(the spec's `deriveKeys(seed, startIndex, count)`) is not among the sources.
It returns, in order, the addresses of the keys at the `n` positions
`start, start + 1, ...`, positions being `uint64` values. -/
def generateKeys (seed : Seed) (start n : Nat) : List UnlockHash :=
  (List.range n).map (fun i => seed.addr (u64add start i))

/-- Build profile: `build.Release`. -/
inductive Release where
  | dev
  | standard
  | testing
deriving DecidableEq, Repr

/-- Cap on the number of keys: `maxScanKeys`. -/
def maxScanKeys : Release → Nat
  | .dev => 1000000
  | .standard => 100000000
  | .testing => 100000

/-- Size of the legacy key batch: `numInitialKeys`. -/
def numInitialKeys : Release → Nat
  | .dev => 10000
  | .standard => 10000000
  | .testing => 10000

/-- Largest length of a Go slice: the largest `int`. The package-level
`generateKeys(seed, start, n)` returns a slice of `n` keys, and making a slice
of a greater length panics (`makeslice: len out of range`). -/
def maxSliceLen : Nat := 2 ^ 63 - 1

/-! ## The fast scanner (`fastscan.go`) -/

/-- An output found in the chain: `scannedOutput`. -/
structure scannedOutput where
  id : SiacoinOutputID
  value : Currency
  seedIndex : Nat
deriving DecidableEq, Repr

/-- Key map: `map[types.UnlockHash]uint64`. -/
abbrev KeyMap := Finmap (fun _ : UnlockHash => Nat)

/-- Ledger: `map[types.SiacoinOutputID]scannedOutput`. -/
abbrev Ledger := Finmap (fun _ : SiacoinOutputID => scannedOutput)

/-- State of the fast scanner: `seedScanner`. -/
structure seedScanner where
  dustThreshold : Currency
  keys : KeyMap
  keysArray : List UnlockHash
  minimumIndex : Nat
  maximumInternalIndex : Nat
  maximumExternalIndex : Nat
  seed : Seed
  addressGapLimit : Nat
  siacoinOutputs : Ledger

namespace seedScanner

/-- Getter `getMaximumExternalIndex`. -/
def getMaximumExternalIndex (s : seedScanner) : Nat := s.maximumExternalIndex

/-- Getter `getMaximumInternalIndex`. -/
def getMaximumInternalIndex (s : seedScanner) : Nat := s.maximumInternalIndex

/-- Setter `setDustThreshold`. -/
def setDustThreshold (s : seedScanner) (d : Currency) : seedScanner :=
  { s with dustThreshold := d }

/-- Getter `getSiacoinOutputs`. -/
def getSiacoinOutputs (s : seedScanner) : Ledger := s.siacoinOutputs

/-- Size of the key map: `numKeys`, that is `uint64(len(s.keys))`. -/
def numKeys (s : seedScanner) : Nat := s.keys.keys.card

/-- Body of the `range` loop of `generateKeys`: `i` is the loop index of the
first address of the list, `initialProgress` the value read before the loop. -/
def generateKeysLoop (initialProgress : Nat) : Nat → List UnlockHash → seedScanner → seedScanner
  | _, [], s => s
  | i, k :: ks, s =>
    generateKeysLoop initialProgress (i + 1) ks
      { s with
        keys := s.keys.insert k (u64add (u64add initialProgress s.minimumIndex) i)
        keysArray := s.keysArray ++ [k] }

/-- Method `generateKeys(n)`, for a count `n` that a key slice can hold: it
has no result value, and every key it is asked for is derived. Its one caller
that computes the count from the fields of the scanner, the end of
`ProcessHeaderConsensusChange`, can ask for more keys than a slice holds: that
call, with its panic, is `growWindow`. -/
def generateKeys (s : seedScanner) (n : Nat) : seedScanner :=
  let initialProgress := s.numKeys
  let s1 := generateKeysLoop initialProgress 0
    (Hyperspace.generateKeys s.seed (u64add initialProgress s.minimumIndex) n) s
  { s1 with maximumInternalIndex := u64add s1.maximumInternalIndex n }

/-- One of the two header loops of `ProcessHeaderConsensusChange`: for each
header whose filter matches `keysArray`, fetch the block's diffs in direction
`dir` and append them to `acc`; a fetch error panics. -/
def fetchMatched (keysArray : List UnlockHash) (getSiacoinOutputDiff : DiffFetcher)
    (dir : DiffDirection) : List ProcessedBlockHeader → List SiacoinOutputDiff →
    Option (List SiacoinOutputDiff)
  | [], acc => some acc
  | pbh :: rest, acc =>
    let blockID := pbh.BlockHeader.ID
    if pbh.GCSFilter.MatchUnlockHash blockID keysArray then
      match getSiacoinOutputDiff blockID dir with
      | none => none
      | some blockSiacoinOutputDiffs =>
        fetchMatched keysArray getSiacoinOutputDiff dir rest (acc ++ blockSiacoinOutputDiffs)
    else
      fetchMatched keysArray getSiacoinOutputDiff dir rest acc

/-- The slice `siacoinOutputDiffs` built by the first part of
`ProcessHeaderConsensusChange`: the matured diffs, then the diffs of the
matched applied headers, then those of the matched reverted headers. -/
def collectDiffs (s : seedScanner) (hcc : HeaderConsensusChange)
    (getSiacoinOutputDiff : DiffFetcher) : Option (List SiacoinOutputDiff) :=
  match fetchMatched s.keysArray getSiacoinOutputDiff DiffApply hcc.AppliedBlockHeaders
      hcc.MaturedSiacoinOutputDiffs with
  | none => none
  | some applied =>
    fetchMatched s.keysArray getSiacoinOutputDiff DiffRevert hcc.RevertedBlockHeaders applied

/-- Body of the loop "apply the aggregated output diffs". -/
def applyDiff (s : seedScanner) (diff : SiacoinOutputDiff) : seedScanner :=
  if diff.Direction = DiffApply then
    match s.keys.lookup diff.SiacoinOutput.UnlockHash with
    | some index =>
      if diff.SiacoinOutput.Value > s.dustThreshold then
        { s with
          siacoinOutputs := s.siacoinOutputs.insert diff.ID
            { id := diff.ID, value := diff.SiacoinOutput.Value, seedIndex := index } }
      else s
    | none => s
  else if diff.Direction = DiffRevert then
    match s.keys.lookup diff.SiacoinOutput.UnlockHash with
    | some _ => { s with siacoinOutputs := s.siacoinOutputs.erase diff.ID }
    | none => s
  else s

/-- Body of the second loop over the diffs: the usage update. -/
def markUsed (s : seedScanner) (diff : SiacoinOutputDiff) : seedScanner :=
  match s.keys.lookup diff.SiacoinOutput.UnlockHash with
  | some index =>
    if index > s.maximumExternalIndex then { s with maximumExternalIndex := index } else s
  | none => s

/-- The value `toGrow` of the end of `ProcessHeaderConsensusChange`: the
`uint64` difference `addressGapLimit - gap`, `gap` being the `uint64`
difference `maximumInternalIndex - maximumExternalIndex`. It wraps around when
`gap` exceeds `addressGapLimit`. -/
def toGrow (s : seedScanner) : Nat :=
  u64sub s.addressGapLimit (u64sub s.maximumInternalIndex s.maximumExternalIndex)

/-- The end of `ProcessHeaderConsensusChange`: the gap computation and the
growth of the key window. With `gap > 0` the method calls
`generateKeys(uint64(toGrow))`; when `toGrow` exceeds the length a slice can
have, the key slice cannot be made and the call panics (`none`), the scanner
being left as it was. -/
def growWindow (s : seedScanner) : Option seedScanner :=
  let gap := u64sub s.maximumInternalIndex s.maximumExternalIndex
  if gap > 0 then
    let toGrow := u64sub s.addressGapLimit gap
    if toGrow ≤ maxSliceLen then some (s.generateKeys toGrow) else none
  else some s

/-- Method `ProcessHeaderConsensusChange`; `none` when it panics: on a fetch
error, or in the growth of the key window. -/
def ProcessHeaderConsensusChange (s : seedScanner) (hcc : HeaderConsensusChange)
    (getSiacoinOutputDiff : DiffFetcher) : Option seedScanner :=
  match s.collectDiffs hcc getSiacoinOutputDiff with
  | none => none
  | some siacoinOutputDiffs =>
    let s1 := siacoinOutputDiffs.foldl applyDiff s
    let s2 := siacoinOutputDiffs.foldl markUsed s1
    growWindow s2

end seedScanner

/-- Constructor `newFastSeedScanner`; the dust threshold starts at the zero
value of `types.Currency`. -/
def newFastSeedScanner (seed : Seed) (addressGapLimit : Nat) : seedScanner :=
  { dustThreshold := 0
    keys := ∅
    keysArray := []
    minimumIndex := 0
    maximumInternalIndex := 0
    maximumExternalIndex := 0
    seed := seed
    addressGapLimit := addressGapLimit
    siacoinOutputs := ∅ }

/-! ## The legacy scanner (`slowscan.go`) -/

/-- State of a Go channel that is only made and closed: the `cancel` field.
Closing a nil channel or a closed channel panics. -/
inductive Chan where
  | nilChan
  | opened
  | closed
deriving DecidableEq, Repr

/-- State of the legacy scanner: `slowSeedScanner`; a nil `gapScanner` is
`none`. -/
structure slowSeedScanner where
  dustThreshold : Currency
  keys : KeyMap
  keysArray : List UnlockHash
  maximumExternalIndex : Nat
  seed : Seed
  addressGapLimit : Nat
  siacoinOutputs : Ledger
  gapScanner : Option seedScanner
  lastConsensusChange : ConsensusChangeID
  cancel : Chan

/-- Height test `isAirdrop`. -/
def isAirdrop (h : BlockHeight) : Bool := decide (h ≤ 7)

namespace slowSeedScanner

/-- Getter `getMaximumExternalIndex`. -/
def getMaximumExternalIndex (s : slowSeedScanner) : Nat := s.maximumExternalIndex

/-- Getter `getSiacoinOutputs`. -/
def getSiacoinOutputs (s : slowSeedScanner) : Ledger := s.siacoinOutputs

/-- Size of the key map: `numKeys`. -/
def numKeys (s : slowSeedScanner) : Nat := s.keys.keys.card

/-- Body of the `range` loop of the legacy `generateKeys`. -/
def generateKeysLoop (initialProgress : Nat) :
    Nat → List UnlockHash → slowSeedScanner → slowSeedScanner
  | _, [], s => s
  | i, k :: ks, s =>
    generateKeysLoop initialProgress (i + 1) ks
      { s with
        keys := s.keys.insert k (u64add initialProgress i)
        keysArray := s.keysArray ++ [k] }

/-- Method `generateKeys(n)` of the legacy scanner. -/
def generateKeys (s : slowSeedScanner) (n : Nat) : slowSeedScanner :=
  let initialProgress := s.numKeys
  generateKeysLoop initialProgress 0 (Hyperspace.generateKeys s.seed initialProgress n) s

/-- Body of the loop of `adjustMinimumIndex`. -/
def adjustStep (s : slowSeedScanner) (diff : SiacoinOutputDiff) : slowSeedScanner :=
  match s.keys.lookup diff.SiacoinOutput.UnlockHash with
  | some index =>
    if index > s.maximumExternalIndex then { s with maximumExternalIndex := index } else s
  | none => s

/-- Method `adjustMinimumIndex`. -/
def adjustMinimumIndex (s : slowSeedScanner) (siacoinOutputDiffs : List SiacoinOutputDiff) :
    slowSeedScanner :=
  siacoinOutputDiffs.foldl adjustStep s

/-- Outcome of the loop over the applied headers. -/
inductive AppliedOutcome where
  | panicked
  | cancelled (s : slowSeedScanner)
  | finished (s : slowSeedScanner) (siacoinOutputDiffs : List SiacoinOutputDiff)

/-- Loop over the applied headers: a header above the airdrop height closes
`cancel` and returns from the method; a matched header is fetched, its diffs
go through `adjustMinimumIndex` and are appended. -/
def appliedLoop (getSiacoinOutputDiff : DiffFetcher) :
    List ProcessedBlockHeader → slowSeedScanner → List SiacoinOutputDiff → AppliedOutcome
  | [], s, acc => .finished s acc
  | pbh :: rest, s, acc =>
    if !isAirdrop pbh.Height then
      match s.cancel with
      | .opened => .cancelled { s with cancel := .closed }
      | _ => .panicked
    else
      let blockID := pbh.BlockHeader.ID
      if pbh.GCSFilter.MatchUnlockHash blockID s.keysArray then
        match getSiacoinOutputDiff blockID DiffApply with
        | none => .panicked
        | some blockSiacoinOutputDiffs =>
          appliedLoop getSiacoinOutputDiff rest (s.adjustMinimumIndex blockSiacoinOutputDiffs)
            (acc ++ blockSiacoinOutputDiffs)
      else
        appliedLoop getSiacoinOutputDiff rest s acc

/-- Loop over the reverted headers; `none` is a panic. -/
def revertedLoop (getSiacoinOutputDiff : DiffFetcher) :
    List ProcessedBlockHeader → slowSeedScanner → List SiacoinOutputDiff →
    Option (slowSeedScanner × List SiacoinOutputDiff)
  | [], s, acc => some (s, acc)
  | pbh :: rest, s, acc =>
    let blockID := pbh.BlockHeader.ID
    if pbh.GCSFilter.MatchUnlockHash blockID s.keysArray then
      match getSiacoinOutputDiff blockID DiffRevert with
      | none => none
      | some blockSiacoinOutputDiffs =>
        revertedLoop getSiacoinOutputDiff rest (s.adjustMinimumIndex blockSiacoinOutputDiffs)
          (acc ++ blockSiacoinOutputDiffs)
    else
      revertedLoop getSiacoinOutputDiff rest s acc

/-- Body of the loop "apply the aggregated output diffs" of the legacy
scanner. -/
def applyDiff (s : slowSeedScanner) (diff : SiacoinOutputDiff) : slowSeedScanner :=
  if diff.Direction = DiffApply then
    match s.keys.lookup diff.SiacoinOutput.UnlockHash with
    | some index =>
      if diff.SiacoinOutput.Value > s.dustThreshold then
        { s with
          siacoinOutputs := s.siacoinOutputs.insert diff.ID
            { id := diff.ID, value := diff.SiacoinOutput.Value, seedIndex := index } }
      else s
    | none => s
  else if diff.Direction = DiffRevert then
    match s.keys.lookup diff.SiacoinOutput.UnlockHash with
    | some _ => { s with siacoinOutputs := s.siacoinOutputs.erase diff.ID }
    | none => s
  else s

/-- Method `ProcessHeaderConsensusChange` of the legacy scanner; `none` is a
panic. -/
def ProcessHeaderConsensusChange (s : slowSeedScanner) (hcc : HeaderConsensusChange)
    (getSiacoinOutputDiff : DiffFetcher) : Option slowSeedScanner :=
  match appliedLoop getSiacoinOutputDiff hcc.AppliedBlockHeaders s
      hcc.MaturedSiacoinOutputDiffs with
  | .panicked => none
  | .cancelled s1 => some s1
  | .finished s1 applied =>
    match revertedLoop getSiacoinOutputDiff hcc.RevertedBlockHeaders s1 applied with
    | none => none
    | some (s2, siacoinOutputDiffs) =>
      let s3 := siacoinOutputDiffs.foldl applyDiff s2
      some { s3 with lastConsensusChange := hcc.ID }

end slowSeedScanner

/-- Constructor `newSlowSeedScanner`: the fields it does not name hold their
zero values (nil `gapScanner`, nil `cancel`). -/
def newSlowSeedScanner (seed : Seed) (addressGapLimit : Nat) : slowSeedScanner :=
  { dustThreshold := 0
    keys := ∅
    keysArray := []
    maximumExternalIndex := 0
    seed := seed
    addressGapLimit := addressGapLimit
    siacoinOutputs := ∅
    gapScanner := none
    lastConsensusChange := 0
    cancel := .nilChan }

/-! ## The ledger rule of the specification -/

/-- The rule of the specification's diff processor, written from its words:
an `Apply` diff whose address is tracked with index `i` and whose value is
strictly above the dust threshold sets the entry of its output id; a `Revert`
diff whose address is tracked erases the entry; any other diff leaves the
ledger as it is. -/
def ledgerRule (keys : KeyMap) (dustThreshold : Currency) (ledger : Ledger)
    (diff : SiacoinOutputDiff) : Ledger :=
  match diff.Direction, keys.lookup diff.SiacoinOutput.UnlockHash with
  | DiffApply, some i =>
    if dustThreshold < diff.SiacoinOutput.Value then
      ledger.insert diff.ID { id := diff.ID, value := diff.SiacoinOutput.Value, seedIndex := i }
    else ledger
  | DiffRevert, some _ => ledger.erase diff.ID
  | _, _ => ledger

/-- Inversion of a diff's direction. -/
def invertDiff (diff : SiacoinOutputDiff) : SiacoinOutputDiff :=
  { diff with
    Direction := match diff.Direction with
      | DiffApply => DiffRevert
      | DiffRevert => DiffApply }

/-! ## Concrete data used to instantiate the theorems -/

/-- A collision-free seed: the address at position `i` is `1000 + i`. -/
def sampleSeed : Seed := { addr := fun i => 1000 + i }

/-- A filter that reports a match for every block. -/
def matchAll : GCSFilter := { MatchUnlockHash := fun _ _ => true }

/-- A header with the given id and height whose filter always matches. -/
def sampleHeader (id : BlockID) (height : BlockHeight) : ProcessedBlockHeader :=
  { BlockHeader := { ID := id }, Height := height, GCSFilter := matchAll }

/-- An `Apply` diff. -/
def applyOf (id : SiacoinOutputID) (value : Currency) (a : UnlockHash) : SiacoinOutputDiff :=
  { Direction := DiffApply, ID := id, SiacoinOutput := { Value := value, UnlockHash := a } }

/-- A `Revert` diff. -/
def revertOf (id : SiacoinOutputID) (value : Currency) (a : UnlockHash) : SiacoinOutputDiff :=
  { Direction := DiffRevert, ID := id, SiacoinOutput := { Value := value, UnlockHash := a } }

/-- A fetch callback that returns the same diffs for every block. -/
def fetchConst (ds : List SiacoinOutputDiff) : DiffFetcher := fun _ _ => some ds

/-- A batch without headers that carries the given matured diffs. -/
def maturedOnly (ds : List SiacoinOutputDiff) : HeaderConsensusChange :=
  { ID := 1, AppliedBlockHeaders := [], RevertedBlockHeaders := [],
    MaturedSiacoinOutputDiffs := ds }

/-- A batch with one applied header (id `1`, height `1`, matching filter). -/
def oneApplied : HeaderConsensusChange :=
  { ID := 1, AppliedBlockHeaders := [sampleHeader 1 1], RevertedBlockHeaders := [],
    MaturedSiacoinOutputDiffs := [] }

/-- A fast scanner with gap limit `3` after its warm-up: it tracks the
addresses `1000, 1001, 1002` at the indices `0, 1, 2`. -/
def warmScanner : seedScanner := (newFastSeedScanner sampleSeed 3).generateKeys 3

/-- The warm scanner holding output `7` (value `100`, address of index `1`)
in its ledger. -/
def holdingScanner : seedScanner :=
  { warmScanner with
    siacoinOutputs := Finmap.singleton 7 { id := 7, value := 100, seedIndex := 1 } }

/-- The two loops of `ProcessHeaderConsensusChange` over the combined diff
sequence `diffs`: the ledger update, then the usage update. -/
def usageUpdated (s : seedScanner) (diffs : List SiacoinOutputDiff) : seedScanner :=
  diffs.foldl seedScanner.markUsed (diffs.foldl seedScanner.applyDiff s)

/-- The state in which `ProcessHeaderConsensusChange` leaves `s` when the
combined diff sequence is `diffs` and the call returns. -/
def growWindowed (s : seedScanner) (diffs : List SiacoinOutputDiff) : seedScanner :=
  if 0 < u64sub (usageUpdated s diffs).maximumInternalIndex
      (usageUpdated s diffs).maximumExternalIndex then
    (usageUpdated s diffs).generateKeys (usageUpdated s diffs).toGrow
  else usageUpdated s diffs

/-! ## States reached by the scanners, and the lock-step of `keys` and `keysArray` -/

/-- States of a fast scanner reached from `newFastSeedScanner seed g`, or from
that scanner seeded as `slowSeedScanner.scan` seeds its embedded scanner
(`minimumIndex`, `maximumInternalIndex` and `maximumExternalIndex` set to `X`,
the ledger handed over), by any sequence of `generateKeys` calls and of
batches processed to the end. -/
inductive seedScanner.Reachable (seed : Seed) (g : Nat) : seedScanner → Prop where
  | new : seedScanner.Reachable seed g (newFastSeedScanner seed g)
  | seeded (X : Nat) (L : Ledger) :
      seedScanner.Reachable seed g
        { newFastSeedScanner seed g with
          minimumIndex := X
          maximumInternalIndex := X
          maximumExternalIndex := X
          siacoinOutputs := L }
  | generateKeys {s : seedScanner} (n : Nat) :
      seedScanner.Reachable seed g s → seedScanner.Reachable seed g (s.generateKeys n)
  | batch {s s' : seedScanner} (hcc : HeaderConsensusChange) (fetch : DiffFetcher) :
      seedScanner.Reachable seed g s →
      s.ProcessHeaderConsensusChange hcc fetch = some s' → seedScanner.Reachable seed g s'

/-- States of a legacy scanner reached from `newSlowSeedScanner seed g` by any
sequence of `generateKeys` calls, of batches processed to the end (cut short
or not), and of the assignment `s.cancel = make(chan struct{})` of `scan`. -/
inductive slowSeedScanner.Reachable (seed : Seed) (g : Nat) : slowSeedScanner → Prop where
  | new : slowSeedScanner.Reachable seed g (newSlowSeedScanner seed g)
  | generateKeys {s : slowSeedScanner} (n : Nat) :
      slowSeedScanner.Reachable seed g s → slowSeedScanner.Reachable seed g (s.generateKeys n)
  | makeCancel {s : slowSeedScanner} :
      slowSeedScanner.Reachable seed g s →
      slowSeedScanner.Reachable seed g { s with cancel := .opened }
  | batch {s s' : slowSeedScanner} (hcc : HeaderConsensusChange) (fetch : DiffFetcher) :
      slowSeedScanner.Reachable seed g s →
      s.ProcessHeaderConsensusChange hcc fetch = some s' → slowSeedScanner.Reachable seed g s'

/-- The key map written by the loop of either `generateKeys` method: the
address at place `j` of the list is stored with the `uint64` index
`base + (i + j)`, `i` being the loop index of the head of the list. -/
def extendKeys (base : Nat) : Nat → List UnlockHash → KeyMap → KeyMap
  | _, [], m => m
  | i, k :: ks, m => extendKeys base (i + 1) ks (m.insert k (u64add base i))

/-- Lock-step of a key map and an address list for the seed `seed` and the
offset `minimumIndex`: the address at place `j` of the list is the one derived
at position `minimumIndex + j`, the map sends it to `minimumIndex + j`, and
the map has no other key. -/
def KeysInLockstep (seed : Seed) (minimumIndex : Nat) (keys : KeyMap)
    (keysArray : List UnlockHash) : Prop :=
  (∀ j a, keysArray[j]? = some a → a = seed.addr (minimumIndex + j)) ∧
  (∀ j a, keysArray[j]? = some a → keys.lookup a = some (minimumIndex + j)) ∧
  (∀ a, a ∈ keys → a ∈ keysArray)

/-- The derivation has no collision below position `N`. -/
def Seed.CollisionFreeBelow (seed : Seed) (N : Nat) : Prop :=
  ∀ i j, i < N → j < N → seed.addr i = seed.addr j → i = j

/-- The fast scanner as `scan` leaves it after the warm-up: built by
`newFastSeedScanner`, dust threshold `d`, then `generateKeys(addressGapLimit)`. -/
def warmedUp (seed : Seed) (g : Nat) (d : Currency) : seedScanner :=
  ((newFastSeedScanner seed g).setDustThreshold d).generateKeys g

/-- A batch holding one applied header and nothing else. -/
def singleApplied (B : ProcessedBlockHeader) : HeaderConsensusChange :=
  { ID := 1, AppliedBlockHeaders := [B], RevertedBlockHeaders := [],
    MaturedSiacoinOutputDiffs := [] }

/-- The legacy scanner after deriving three keys, with its `cancel` channel
made: it tracks the addresses `1000, 1001, 1002` at the indices `0, 1, 2`. -/
def warmSlowScanner : slowSeedScanner :=
  { (newSlowSeedScanner sampleSeed 3).generateKeys 3 with cancel := .opened }

/-- A batch of the legacy era followed by the cutoff: an applied header of
height `7` and an applied header of height `8`, both with a matching filter. -/
def cutoffBatch : HeaderConsensusChange :=
  { ID := 1, AppliedBlockHeaders := [sampleHeader 1 7, sampleHeader 2 8],
    RevertedBlockHeaders := [], MaturedSiacoinOutputDiffs := [] }

/-! ## The setter and getter of the legacy scanner that go through `gapScanner` -/

/-- Setter `setDustThreshold` of the legacy scanner: it writes
`s.dustThreshold` and then `s.gapScanner.dustThreshold`; with a nil
`gapScanner` the second assignment dereferences a nil pointer and panics. -/
def slowSeedScanner.setDustThreshold (s : slowSeedScanner) (d : Currency) :
    Option slowSeedScanner :=
  match s.gapScanner with
  | none => none
  | some gs => some { s with dustThreshold := d, gapScanner := some { gs with dustThreshold := d } }

/-- Getter `getMaximumInternalIndex` of the legacy scanner: it reads
`s.gapScanner.maximumInternalIndex` and panics on a nil `gapScanner`. -/
def slowSeedScanner.getMaximumInternalIndex (s : slowSeedScanner) : Option Nat :=
  match s.gapScanner with
  | none => none
  | some gs => some gs.maximumInternalIndex

/-! ## The consensus set and the two `scan` methods -/

/-- The start cursor `modules.ConsensusChangeBeginning`, the zero value of
`modules.ConsensusChangeID`. -/
def ConsensusChangeBeginning : ConsensusChangeID := 0

/-- Error values of a subscription; the `nil` error is `none`.
`ErrStopped` is `siasync.ErrStopped`, the stopped indication; `failure` is any
other error. -/
inductive SubscribeError where
  | ErrStopped
  | failure
deriving DecidableEq, Repr

/-- Modelled from the spec: the consensus set (`modules.ConsensusSet`) is not
among the sources. It is the external change feed: `changesAfter c` is the
ordered list of batches that follow the cursor `c` through the current chain
tip, `getSiacoinOutputDiff` is the callback handed to the subscriber with each
batch, and `failsAfter c` tells whether a subscription started at `c` reports
a failure, and after how many delivered batches. -/
structure ConsensusSet where
  changesAfter : ConsensusChangeID → List HeaderConsensusChange
  getSiacoinOutputDiff : DiffFetcher
  failsAfter : ConsensusChangeID → Option Nat

/-- Modelled from the spec: the blocking call `HeaderConsensusSetSubscribe`
with a fast scanner as subscriber. It delivers one batch at a time to
`ProcessHeaderConsensusChange`; it returns the failure when the feed fails,
the stopped indication when the cancel signal is observed (`cancel = some k`:
the signal is observed once `k` batches have been delivered), and `nil` when
the batches are exhausted. `k` counts the batches delivered so far; `none` is
a panic of the subscriber. -/
def ConsensusSet.deliverFast (cs : ConsensusSet) (failsAfter cancel : Option Nat) :
    Nat → List HeaderConsensusChange → seedScanner →
    Option (seedScanner × Option SubscribeError)
  | k, [], s =>
    if failsAfter = some k then some (s, some .failure)
    else if cancel = some k then some (s, some .ErrStopped)
    else some (s, none)
  | k, hcc :: rest, s =>
    if failsAfter = some k then some (s, some .failure)
    else if cancel = some k then some (s, some .ErrStopped)
    else
      match s.ProcessHeaderConsensusChange hcc cs.getSiacoinOutputDiff with
      | none => none
      | some s' => cs.deliverFast failsAfter cancel (k + 1) rest s'

/-- Modelled from the spec: the blocking call `HeaderConsensusSetSubscribe`
with the legacy scanner as subscriber and the scanner's own `cancel` channel
as cancel signal: the feed observes the channel before each delivery and
returns the stopped indication once it is closed. -/
def ConsensusSet.deliverSlow (cs : ConsensusSet) (failsAfter : Option Nat) :
    Nat → List HeaderConsensusChange → slowSeedScanner →
    Option (slowSeedScanner × Option SubscribeError)
  | k, [], s =>
    if failsAfter = some k then some (s, some .failure)
    else if s.cancel = .closed then some (s, some .ErrStopped)
    else some (s, none)
  | k, hcc :: rest, s =>
    if failsAfter = some k then some (s, some .failure)
    else if s.cancel = .closed then some (s, some .ErrStopped)
    else
      match s.ProcessHeaderConsensusChange hcc cs.getSiacoinOutputDiff with
      | none => none
      | some s' => cs.deliverSlow failsAfter (k + 1) rest s'

/-- The call `cs.HeaderConsensusSetSubscribe(s, start, cancel)` for a fast
scanner `s`. -/
def ConsensusSet.subscribeFast (cs : ConsensusSet) (s : seedScanner)
    (start : ConsensusChangeID) (cancel : Option Nat) :
    Option (seedScanner × Option SubscribeError) :=
  cs.deliverFast (cs.failsAfter start) cancel 0 (cs.changesAfter start) s

/-- The call `cs.HeaderConsensusSetSubscribe(s, start, s.cancel)` for the
legacy scanner `s`. -/
def ConsensusSet.subscribeSlow (cs : ConsensusSet) (s : slowSeedScanner)
    (start : ConsensusChangeID) : Option (slowSeedScanner × Option SubscribeError) :=
  cs.deliverSlow (cs.failsAfter start) 0 (cs.changesAfter start) s

/-- The scanner that makes a call to the consensus set. -/
inductive Subscriber where
  | slowScanner
  | fastScanner
deriving DecidableEq, Repr

/-- A call made by `scan` to the consensus set. -/
inductive CsCall where
  | HeaderConsensusSetSubscribe (who : Subscriber) (start : ConsensusChangeID)
  | HeaderUnsubscribe (who : Subscriber)
deriving DecidableEq, Repr

/-- Result of `seedScanner.scan`: the scanner, the returned error and the
calls made to the consensus set, in order. -/
structure FastScanOutcome where
  scanner : seedScanner
  err : Option SubscribeError
  calls : List CsCall

/-- Method `scan` of the fast scanner; `cancel` models the channel argument
(see `ConsensusSet.deliverFast`); `none` is a panic. -/
def seedScanner.scan (s : seedScanner) (cs : ConsensusSet) (cancel : Option Nat) :
    Option FastScanOutcome :=
  let numKeys := s.addressGapLimit
  let s1 := s.generateKeys numKeys
  match cs.subscribeFast s1 ConsensusChangeBeginning cancel with
  | none => none
  | some (s2, some err) =>
    some { scanner := s2, err := some err,
           calls := [.HeaderConsensusSetSubscribe .fastScanner ConsensusChangeBeginning] }
  | some (s2, none) =>
    some { scanner := s2, err := none,
           calls := [.HeaderConsensusSetSubscribe .fastScanner ConsensusChangeBeginning,
                     .HeaderUnsubscribe .fastScanner] }

/-- Result of `slowSeedScanner.scan`. -/
structure SlowScanOutcome where
  scanner : slowSeedScanner
  err : Option SubscribeError
  calls : List CsCall

/-- The start of `slowSeedScanner.scan` (lines 185 to 188): a new embedded
fast scanner, the legacy key batch, a new `cancel` channel. -/
def slowSeedScanner.prepare (s : slowSeedScanner) (release : Release) : slowSeedScanner :=
  let s1 := { s with gapScanner := some (newFastSeedScanner s.seed s.addressGapLimit) }
  let s2 := s1.generateKeys (numInitialKeys release)
  { s2 with cancel := .opened }

/-- The handoff of `slowSeedScanner.scan` (lines 196 to 200): the embedded
scanner is seeded with the legacy `maximumExternalIndex` and ledger and warms
up; `none` when `gapScanner` is nil. -/
def slowSeedScanner.handoff (s : slowSeedScanner) : Option seedScanner :=
  match s.gapScanner with
  | none => none
  | some gs =>
    some (seedScanner.generateKeys
      { gs with
        minimumIndex := s.maximumExternalIndex
        maximumInternalIndex := s.maximumExternalIndex
        maximumExternalIndex := s.maximumExternalIndex
        siacoinOutputs := s.siacoinOutputs }
      s.addressGapLimit)

/-- The end of `slowSeedScanner.scan` (lines 202 to 214), from the result of
the second subscription: on an error `scan` returns it; otherwise it
unsubscribes the embedded scanner and copies its `maximumExternalIndex`.
After the handoff the ledger map is one Go map held by both scanners, so what
the embedded scanner has written is read through `s.siacoinOutputs` too.
`none` is a panic. -/
def slowSeedScanner.finishScan (s1 : slowSeedScanner) :
    Option (seedScanner × Option SubscribeError) → Option SlowScanOutcome
  | none => none
  | some (gs', some err2) =>
    some { scanner := { s1 with gapScanner := some gs',
                                siacoinOutputs := gs'.siacoinOutputs },
           err := some err2,
           calls := [.HeaderConsensusSetSubscribe .slowScanner ConsensusChangeBeginning,
                     .HeaderUnsubscribe .slowScanner,
                     .HeaderConsensusSetSubscribe .fastScanner s1.lastConsensusChange] }
  | some (gs', none) =>
    some { scanner := { s1 with gapScanner := some gs',
                                siacoinOutputs := gs'.siacoinOutputs,
                                maximumExternalIndex := gs'.maximumExternalIndex },
           err := none,
           calls := [.HeaderConsensusSetSubscribe .slowScanner ConsensusChangeBeginning,
                     .HeaderUnsubscribe .slowScanner,
                     .HeaderConsensusSetSubscribe .fastScanner s1.lastConsensusChange,
                     .HeaderUnsubscribe .fastScanner] }

/-- Method `scan` of the legacy scanner. `cancel` models the channel argument,
which is handed to the second subscription only. `none` is a panic. -/
def slowSeedScanner.scan (s : slowSeedScanner) (cs : ConsensusSet) (release : Release)
    (cancel : Option Nat) : Option SlowScanOutcome :=
  let s0 := s.prepare release
  match cs.subscribeSlow s0 ConsensusChangeBeginning with
  | none => none
  | some (s1, err) =>
    if err ≠ some .ErrStopped then
      some { scanner := s1, err := err,
             calls := [.HeaderConsensusSetSubscribe .slowScanner ConsensusChangeBeginning] }
    else
      match s1.handoff with
      | none => none
      | some gs => s1.finishScan (cs.subscribeFast gs s1.lastConsensusChange cancel)

/-- A fetch callback that fails for every block. -/
def fetchFails : DiffFetcher := fun _ _ => none

/-- The legacy scanner after deriving three keys, before `scan` has made its
`cancel` channel (the channel is nil). -/
def unpreparedSlowScanner : slowSeedScanner := (newSlowSeedScanner sampleSeed 3).generateKeys 3

/-- A consensus set whose feed from the beginning is one batch with a single
applied header, of height 8, and which never fails. -/
def cutoffChain : ConsensusSet :=
  { changesAfter := fun _ => [singleApplied (sampleHeader 2 8)]
    getSiacoinOutputDiff := fetchConst [applyOf 7 100 1001]
    failsAfter := fun _ => none }

/-- A consensus set with no batch at all, which never fails. -/
def emptyChain : ConsensusSet :=
  { changesAfter := fun _ => []
    getSiacoinOutputDiff := fetchConst []
    failsAfter := fun _ => none }

/-! ## The filter gating of the specification -/

/-- The headers of a list whose filter reports a match against the address
list. -/
def matchedHeaders (keysArray : List UnlockHash) (hs : List ProcessedBlockHeader) :
    List ProcessedBlockHeader :=
  hs.filter (fun pbh => pbh.GCSFilter.MatchUnlockHash pbh.BlockHeader.ID keysArray)

/-- The full diffs of every header of a list, fetched in the direction `dir`
and put one after the other; no result when a fetch fails. -/
def fetchAll (fetch : DiffFetcher) (dir : DiffDirection) :
    List ProcessedBlockHeader → Option (List SiacoinOutputDiff)
  | [] => some []
  | pbh :: rest =>
    match fetch pbh.BlockHeader.ID dir with
    | none => none
    | some ds => (fetchAll fetch dir rest).map (fun more => ds ++ more)

/-- The combined diff sequence of a batch, written from the specification's
words: the matured diffs, taken unconditionally, then the full diffs of the
applied headers whose filter matches, fetched in the `Apply` direction, then
those of the reverted headers whose filter matches, fetched in the `Revert`
direction; a header without a match is not fetched. -/
def combinedDiffs (keysArray : List UnlockHash) (hcc : HeaderConsensusChange)
    (fetch : DiffFetcher) : Option (List SiacoinOutputDiff) :=
  match fetchAll fetch DiffApply (matchedHeaders keysArray hcc.AppliedBlockHeaders),
      fetchAll fetch DiffRevert (matchedHeaders keysArray hcc.RevertedBlockHeaders) with
  | some applied, some reverted => some (hcc.MaturedSiacoinOutputDiffs ++ applied ++ reverted)
  | _, _ => none

/-- A filter that reports no match for any block. -/
def matchNone : GCSFilter := { MatchUnlockHash := fun _ _ => false }

/-- A batch with one applied header whose filter matches (id 1) and one whose
filter does not (id 2), and a matured diff. -/
def gatedBatch : HeaderConsensusChange :=
  { ID := 1
    AppliedBlockHeaders :=
      [sampleHeader 1 1, { BlockHeader := { ID := 2 }, Height := 2, GCSFilter := matchNone }]
    RevertedBlockHeaders := []
    MaturedSiacoinOutputDiffs := [applyOf 9 50 1000] }

/-- A callback that returns one diff for block 1 and fails for every other
block. -/
def fetchOnlyBlock1 : DiffFetcher :=
  fun b _ => if b = 1 then some [applyOf 7 100 1001] else none

/-! ## The ledger invariant of the specification -/

/-- The ledger invariant, written from the specification's words: every entry
stored under an output id `k` has the id field `k`, a value strictly above the
dust threshold, and the seed index of some tracked address. -/
def LedgerInvariant (dustThreshold : Currency) (keys : KeyMap) (ledger : Ledger) : Prop :=
  ∀ k e, ledger.lookup k = some e →
    e.id = k ∧ dustThreshold < e.value ∧ ∃ a, keys.lookup a = some e.seedIndex

/-- A fast-scanner state whose key map holds the address 1001 with the index
99, and whose ledger holds output 7 with that seed index. -/
def strayScanner : seedScanner :=
  { newFastSeedScanner sampleSeed 3 with
    keys := Finmap.singleton 1001 99
    keysArray := [1001]
    maximumInternalIndex := 1
    siacoinOutputs := Finmap.singleton 7 { id := 7, value := 100, seedIndex := 99 } }

/-- A fast-scanner state with gap limit 3 whose internal index is further
ahead of the external index than the gap limit: `maximumInternalIndex = 5`,
`maximumExternalIndex = 0`, no key. -/
def overgrownScanner : seedScanner :=
  { newFastSeedScanner sampleSeed 3 with maximumInternalIndex := 5 }

/-! ## The states of a fast scanner during `scan` -/

/-- States of a fast scanner with gap limit `g` during a scan that starts at
the index `X` with the ledger `L` (`X = 0` and an empty ledger for
`newFastSeedScanner`; the legacy `maximumExternalIndex` and ledger for the
scanner seeded by `slowSeedScanner.scan`): the state after the warm-up
`generateKeys(g)`, then after any finite sequence of completed
`ProcessHeaderConsensusChange` calls and of `setDustThreshold` calls, as long
as `maximumInternalIndex` stays below `2 ^ 64`, that is as long as the index
`maximumExternalIndex + g` to which a batch moves it is below `2 ^ 64`. -/
inductive seedScanner.Scanning (seed : Seed) (g X : Nat) (L : Ledger) : seedScanner → Prop where
  | warm (d : Currency) : X + g < uint64Size →
      seedScanner.Scanning seed g X L
        (seedScanner.generateKeys
          { newFastSeedScanner seed g with
            dustThreshold := d
            minimumIndex := X
            maximumInternalIndex := X
            maximumExternalIndex := X
            siacoinOutputs := L } g)
  | setDust {s : seedScanner} (d : Currency) :
      seedScanner.Scanning seed g X L s →
      seedScanner.Scanning seed g X L (s.setDustThreshold d)
  | batch {s s' : seedScanner} (hcc : HeaderConsensusChange) (fetch : DiffFetcher) :
      seedScanner.Scanning seed g X L s →
      s.ProcessHeaderConsensusChange hcc fetch = some s' →
      s'.maximumExternalIndex + g < uint64Size →
      seedScanner.Scanning seed g X L s'

/-- The facts carried along a scan: the gap limit is `g`, every index stored
in `keys` is below `maximumInternalIndex`, which is below `2 ^ 64`, is
`maximumExternalIndex + g`, and is at least `minimumIndex` plus the number of
keys. -/
def seedScanner.WindowInvariant (g : Nat) (s : seedScanner) : Prop :=
  s.addressGapLimit = g ∧
  (∀ a i, s.keys.lookup a = some i → i < s.maximumInternalIndex) ∧
  s.maximumInternalIndex < uint64Size ∧
  s.maximumInternalIndex = s.maximumExternalIndex + g ∧
  s.minimumIndex + s.numKeys ≤ s.maximumInternalIndex

/-- A batch of the legacy era: bookmark `4`, one applied header of height `1`
with a matching filter. -/
def airdropBatch : HeaderConsensusChange :=
  { ID := 4, AppliedBlockHeaders := [sampleHeader 1 1], RevertedBlockHeaders := [],
    MaturedSiacoinOutputDiffs := [] }

/-- A consensus set whose feed is a batch of the legacy era, in which output
`7` of value `100` pays the address of index `2`, followed by a batch with an
applied header of height `8`; it never fails. -/
def handoffChain : ConsensusSet :=
  { changesAfter := fun _ => [airdropBatch, singleApplied (sampleHeader 2 8)]
    getSiacoinOutputDiff := fetchConst [applyOf 7 100 1002]
    failsAfter := fun _ => none }

/-- A consensus set whose feed is the one batch of the legacy era of
`handoffChain`, and whose subscription reports a failure once that batch has
been delivered. -/
def failingChain : ConsensusSet :=
  { changesAfter := fun _ => [airdropBatch]
    getSiacoinOutputDiff := fetchConst [applyOf 7 100 1002]
    failsAfter := fun _ => some 1 }

/-- A consensus set whose feed is the one batch of the legacy era of
`handoffChain` and then ends; it never fails. -/
def endingChain : ConsensusSet :=
  { changesAfter := fun _ => [airdropBatch]
    getSiacoinOutputDiff := fetchConst [applyOf 7 100 1002]
    failsAfter := fun _ => none }

/-! ## Frame lemmas of the fast scanner -/

namespace seedScanner

@[simp] theorem generateKeysLoop_dustThreshold (p : Nat) (ks : List UnlockHash) :
    ∀ (i : Nat) (s : seedScanner), (generateKeysLoop p i ks s).dustThreshold = s.dustThreshold := by
  induction ks with
  | nil => intro i s; rfl
  | cons k ks ih => intro i s; simp [generateKeysLoop, ih]

@[simp] theorem generateKeysLoop_minimumIndex (p : Nat) (ks : List UnlockHash) :
    ∀ (i : Nat) (s : seedScanner), (generateKeysLoop p i ks s).minimumIndex = s.minimumIndex := by
  induction ks with
  | nil => intro i s; rfl
  | cons k ks ih => intro i s; simp [generateKeysLoop, ih]

@[simp] theorem generateKeysLoop_maximumInternalIndex (p : Nat) (ks : List UnlockHash) :
    ∀ (i : Nat) (s : seedScanner),
      (generateKeysLoop p i ks s).maximumInternalIndex = s.maximumInternalIndex := by
  induction ks with
  | nil => intro i s; rfl
  | cons k ks ih => intro i s; simp [generateKeysLoop, ih]

@[simp] theorem generateKeysLoop_maximumExternalIndex (p : Nat) (ks : List UnlockHash) :
    ∀ (i : Nat) (s : seedScanner),
      (generateKeysLoop p i ks s).maximumExternalIndex = s.maximumExternalIndex := by
  induction ks with
  | nil => intro i s; rfl
  | cons k ks ih => intro i s; simp [generateKeysLoop, ih]

@[simp] theorem generateKeysLoop_seed (p : Nat) (ks : List UnlockHash) :
    ∀ (i : Nat) (s : seedScanner), (generateKeysLoop p i ks s).seed = s.seed := by
  induction ks with
  | nil => intro i s; rfl
  | cons k ks ih => intro i s; simp [generateKeysLoop, ih]

@[simp] theorem generateKeysLoop_addressGapLimit (p : Nat) (ks : List UnlockHash) :
    ∀ (i : Nat) (s : seedScanner),
      (generateKeysLoop p i ks s).addressGapLimit = s.addressGapLimit := by
  induction ks with
  | nil => intro i s; rfl
  | cons k ks ih => intro i s; simp [generateKeysLoop, ih]

@[simp] theorem generateKeysLoop_siacoinOutputs (p : Nat) (ks : List UnlockHash) :
    ∀ (i : Nat) (s : seedScanner),
      (generateKeysLoop p i ks s).siacoinOutputs = s.siacoinOutputs := by
  induction ks with
  | nil => intro i s; rfl
  | cons k ks ih => intro i s; simp [generateKeysLoop, ih]

@[simp] theorem generateKeysLoop_keysArray (p : Nat) (ks : List UnlockHash) :
    ∀ (i : Nat) (s : seedScanner),
      (generateKeysLoop p i ks s).keysArray = s.keysArray ++ ks := by
  induction ks with
  | nil => intro i s; simp [generateKeysLoop]
  | cons k ks ih => intro i s; simp [generateKeysLoop, ih]

@[simp] theorem generateKeys_dustThreshold (s : seedScanner) (n : Nat) :
    (s.generateKeys n).dustThreshold = s.dustThreshold := by
  simp [generateKeys]

@[simp] theorem generateKeys_minimumIndex (s : seedScanner) (n : Nat) :
    (s.generateKeys n).minimumIndex = s.minimumIndex := by
  simp [generateKeys]

@[simp] theorem generateKeys_maximumInternalIndex (s : seedScanner) (n : Nat) :
    (s.generateKeys n).maximumInternalIndex = u64add s.maximumInternalIndex n := by
  simp [generateKeys]

@[simp] theorem generateKeys_maximumExternalIndex (s : seedScanner) (n : Nat) :
    (s.generateKeys n).maximumExternalIndex = s.maximumExternalIndex := by
  simp [generateKeys]

@[simp] theorem generateKeys_seed (s : seedScanner) (n : Nat) :
    (s.generateKeys n).seed = s.seed := by
  simp [generateKeys]

@[simp] theorem generateKeys_addressGapLimit (s : seedScanner) (n : Nat) :
    (s.generateKeys n).addressGapLimit = s.addressGapLimit := by
  simp [generateKeys]

@[simp] theorem generateKeys_siacoinOutputs (s : seedScanner) (n : Nat) :
    (s.generateKeys n).siacoinOutputs = s.siacoinOutputs := by
  simp [generateKeys]

theorem generateKeys_keysArray (s : seedScanner) (n : Nat) :
    (s.generateKeys n).keysArray =
      s.keysArray ++ Hyperspace.generateKeys s.seed (u64add s.numKeys s.minimumIndex) n := by
  simp [generateKeys]

end seedScanner

namespace seedScanner

/-! ### The two loops over the diffs -/

theorem applyDiff_keys (s : seedScanner) (d : SiacoinOutputDiff) :
    (s.applyDiff d).keys = s.keys := by
  unfold applyDiff
  repeat' split
  all_goals rfl

theorem applyDiff_dustThreshold (s : seedScanner) (d : SiacoinOutputDiff) :
    (s.applyDiff d).dustThreshold = s.dustThreshold := by
  unfold applyDiff
  repeat' split
  all_goals rfl

theorem applyDiff_siacoinOutputs (s : seedScanner) (d : SiacoinOutputDiff) :
    (s.applyDiff d).siacoinOutputs = ledgerRule s.keys s.dustThreshold s.siacoinOutputs d := by
  unfold applyDiff ledgerRule
  cases hdir : d.Direction <;> cases hk : s.keys.lookup d.SiacoinOutput.UnlockHash <;>
    simp [hdir, hk]
  split_ifs <;> rfl

theorem foldl_applyDiff_keys (ds : List SiacoinOutputDiff) :
    ∀ s : seedScanner, (ds.foldl applyDiff s).keys = s.keys := by
  induction ds with
  | nil => intro s; rfl
  | cons d ds ih => intro s; rw [List.foldl_cons, ih, applyDiff_keys]

theorem foldl_applyDiff_dustThreshold (ds : List SiacoinOutputDiff) :
    ∀ s : seedScanner, (ds.foldl applyDiff s).dustThreshold = s.dustThreshold := by
  induction ds with
  | nil => intro s; rfl
  | cons d ds ih => intro s; rw [List.foldl_cons, ih, applyDiff_dustThreshold]

theorem foldl_applyDiff_siacoinOutputs (ds : List SiacoinOutputDiff) :
    ∀ s : seedScanner, (ds.foldl applyDiff s).siacoinOutputs =
      ds.foldl (ledgerRule s.keys s.dustThreshold) s.siacoinOutputs := by
  induction ds with
  | nil => intro s; rfl
  | cons d ds ih =>
    intro s
    rw [List.foldl_cons, ih, applyDiff_keys, applyDiff_dustThreshold, applyDiff_siacoinOutputs,
      List.foldl_cons]

theorem applyDiff_frame (s : seedScanner) (d : SiacoinOutputDiff) :
    (s.applyDiff d).keysArray = s.keysArray ∧
    (s.applyDiff d).minimumIndex = s.minimumIndex ∧
    (s.applyDiff d).maximumInternalIndex = s.maximumInternalIndex ∧
    (s.applyDiff d).maximumExternalIndex = s.maximumExternalIndex ∧
    (s.applyDiff d).seed = s.seed ∧
    (s.applyDiff d).addressGapLimit = s.addressGapLimit := by
  unfold applyDiff
  repeat' split
  all_goals simp

theorem foldl_applyDiff_frame (ds : List SiacoinOutputDiff) :
    ∀ s : seedScanner,
      (ds.foldl applyDiff s).keysArray = s.keysArray ∧
      (ds.foldl applyDiff s).minimumIndex = s.minimumIndex ∧
      (ds.foldl applyDiff s).maximumInternalIndex = s.maximumInternalIndex ∧
      (ds.foldl applyDiff s).maximumExternalIndex = s.maximumExternalIndex ∧
      (ds.foldl applyDiff s).seed = s.seed ∧
      (ds.foldl applyDiff s).addressGapLimit = s.addressGapLimit := by
  induction ds with
  | nil => intro s; simp
  | cons d ds ih =>
    intro s
    obtain ⟨h1, h2, h3, h4, h5, h6⟩ := ih (s.applyDiff d)
    obtain ⟨g1, g2, g3, g4, g5, g6⟩ := applyDiff_frame s d
    rw [List.foldl_cons]
    exact ⟨h1.trans g1, h2.trans g2, h3.trans g3, h4.trans g4, h5.trans g5, h6.trans g6⟩

theorem markUsed_frame (s : seedScanner) (d : SiacoinOutputDiff) :
    (s.markUsed d).keys = s.keys ∧
    (s.markUsed d).dustThreshold = s.dustThreshold ∧
    (s.markUsed d).siacoinOutputs = s.siacoinOutputs ∧
    (s.markUsed d).keysArray = s.keysArray ∧
    (s.markUsed d).minimumIndex = s.minimumIndex ∧
    (s.markUsed d).maximumInternalIndex = s.maximumInternalIndex ∧
    (s.markUsed d).seed = s.seed ∧
    (s.markUsed d).addressGapLimit = s.addressGapLimit := by
  unfold markUsed
  split <;> (try split_ifs) <;> simp

theorem foldl_markUsed_frame (ds : List SiacoinOutputDiff) :
    ∀ s : seedScanner,
      (ds.foldl markUsed s).keys = s.keys ∧
      (ds.foldl markUsed s).dustThreshold = s.dustThreshold ∧
      (ds.foldl markUsed s).siacoinOutputs = s.siacoinOutputs ∧
      (ds.foldl markUsed s).keysArray = s.keysArray ∧
      (ds.foldl markUsed s).minimumIndex = s.minimumIndex ∧
      (ds.foldl markUsed s).maximumInternalIndex = s.maximumInternalIndex ∧
      (ds.foldl markUsed s).seed = s.seed ∧
      (ds.foldl markUsed s).addressGapLimit = s.addressGapLimit := by
  induction ds with
  | nil => intro s; simp
  | cons d ds ih =>
    intro s
    obtain ⟨h1, h2, h3, h4, h5, h6, h7, h8⟩ := ih (s.markUsed d)
    obtain ⟨g1, g2, g3, g4, g5, g6, g7, g8⟩ := markUsed_frame s d
    rw [List.foldl_cons]
    exact ⟨h1.trans g1, h2.trans g2, h3.trans g3, h4.trans g4, h5.trans g5, h6.trans g6,
      h7.trans g7, h8.trans g8⟩

theorem markUsed_of_none (s : seedScanner) (d : SiacoinOutputDiff)
    (h : s.keys.lookup d.SiacoinOutput.UnlockHash = none) :
    (s.markUsed d).maximumExternalIndex = s.maximumExternalIndex := by
  simp [markUsed, h]

theorem markUsed_of_some (s : seedScanner) (d : SiacoinOutputDiff) (j : Nat)
    (h : s.keys.lookup d.SiacoinOutput.UnlockHash = some j) :
    (s.markUsed d).maximumExternalIndex = max s.maximumExternalIndex j := by
  simp only [markUsed, h]
  rw [Nat.max_def]
  split_ifs <;> first | rfl | omega

/-- The usage loop computes the maximum of the previous value and the key
indices of the tracked addresses of the diffs. -/
theorem foldl_markUsed_maximumExternalIndex (ds : List SiacoinOutputDiff) :
    ∀ s : seedScanner,
      s.maximumExternalIndex ≤ (ds.foldl markUsed s).maximumExternalIndex ∧
      (∀ d ∈ ds, ∀ i, s.keys.lookup d.SiacoinOutput.UnlockHash = some i →
        i ≤ (ds.foldl markUsed s).maximumExternalIndex) ∧
      ((ds.foldl markUsed s).maximumExternalIndex = s.maximumExternalIndex ∨
        ∃ d ∈ ds, s.keys.lookup d.SiacoinOutput.UnlockHash =
          some (ds.foldl markUsed s).maximumExternalIndex) := by
  induction ds with
  | nil => intro s; simp
  | cons d ds ih =>
    intro s
    obtain ⟨h1, h2, h3⟩ := ih (s.markUsed d)
    have hk : (s.markUsed d).keys = s.keys := (markUsed_frame s d).1
    rw [hk] at h2 h3
    rw [List.foldl_cons]
    cases hl : s.keys.lookup d.SiacoinOutput.UnlockHash with
    | none =>
      have hm := markUsed_of_none s d hl
      rw [hm] at h1 h3
      refine ⟨h1, ?_, ?_⟩
      · intro e he i hi
        rcases List.mem_cons.mp he with heq | he
        · rw [heq, hl] at hi; cases hi
        · exact h2 e he i hi
      · rcases h3 with h3 | ⟨e, he, h3⟩
        · exact Or.inl h3
        · exact Or.inr ⟨e, List.mem_cons_of_mem _ he, h3⟩
    | some j =>
      have hm := markUsed_of_some s d j hl
      have hb1 : s.maximumExternalIndex ≤ (s.markUsed d).maximumExternalIndex := by
        rw [hm]; exact Nat.le_max_left _ _
      have hb2 : j ≤ (s.markUsed d).maximumExternalIndex := by
        rw [hm]; exact Nat.le_max_right _ _
      refine ⟨Nat.le_trans hb1 h1, ?_, ?_⟩
      · intro e he i hi
        rcases List.mem_cons.mp he with heq | he
        · rw [heq, hl] at hi
          cases hi
          exact Nat.le_trans hb2 h1
        · exact h2 e he i hi
      · rcases h3 with h3 | ⟨e, he, h3⟩
        · rcases Nat.le_total s.maximumExternalIndex j with hle | hle
          · right
            refine ⟨d, List.mem_cons_self _ _, ?_⟩
            rw [hl, h3, hm, Nat.max_eq_right hle]
          · left
            rw [h3, hm, Nat.max_eq_left hle]
        · exact Or.inr ⟨e, List.mem_cons_of_mem _ he, h3⟩

theorem generateKeysLoop_mem_keys (p : Nat) (a : UnlockHash) (ks : List UnlockHash) :
    ∀ (i : Nat) (s : seedScanner), a ∈ s.keys → a ∈ (generateKeysLoop p i ks s).keys := by
  induction ks with
  | nil => intro i s h; exact h
  | cons k ks ih =>
    intro i s h
    simp only [generateKeysLoop]
    exact ih _ _ (Finmap.mem_insert.mpr (Or.inr h))

theorem generateKeys_mem_keys (s : seedScanner) (n : Nat) (a : UnlockHash) (h : a ∈ s.keys) :
    a ∈ (s.generateKeys n).keys := by
  simp only [generateKeys]
  exact generateKeysLoop_mem_keys _ a _ _ s h

/-- The growth step returns exactly when `gap = 0` or `toGrow` fits a slice. -/
theorem growWindow_eq_none_iff (s : seedScanner) :
    s.growWindow = none ↔
      0 < u64sub s.maximumInternalIndex s.maximumExternalIndex ∧ maxSliceLen < s.toGrow := by
  unfold growWindow toGrow
  simp only [gt_iff_lt]
  split_ifs with h1 h2
  · simp only [reduceCtorEq, false_iff, not_and, not_lt]
    exact fun _ => h2
  · simp only [true_iff]
    exact ⟨h1, Nat.lt_of_not_le h2⟩
  · simp only [reduceCtorEq, false_iff, not_and]
    exact fun h => absurd h h1

/-- The state the growth step returns, when it returns. -/
theorem growWindow_eq_some (s s' : seedScanner) (h : s.growWindow = some s') :
    s' = if 0 < u64sub s.maximumInternalIndex s.maximumExternalIndex then
      s.generateKeys s.toGrow else s := by
  unfold growWindow toGrow at *
  simp only [gt_iff_lt] at h
  split_ifs at h ⊢ with h1 h2
  · exact (Option.some.inj h).symm
  · exact (Option.some.inj h).symm

/-- The growth step returns when `gap = 0` or `toGrow` fits a slice. -/
theorem growWindow_of_fits (s : seedScanner)
    (h : u64sub s.maximumInternalIndex s.maximumExternalIndex = 0 ∨ s.toGrow ≤ maxSliceLen) :
    s.growWindow = some (if 0 < u64sub s.maximumInternalIndex s.maximumExternalIndex then
      s.generateKeys s.toGrow else s) := by
  cases hg : s.growWindow with
  | none =>
    obtain ⟨h1, h2⟩ := (growWindow_eq_none_iff s).mp hg
    rcases h with h | h
    · omega
    · omega
  | some s' => rw [growWindow_eq_some s s' hg]

/-- What the two loops leave as they found it. -/
theorem usageUpdated_frame (s : seedScanner) (diffs : List SiacoinOutputDiff) :
    (usageUpdated s diffs).keys = s.keys ∧
    (usageUpdated s diffs).dustThreshold = s.dustThreshold ∧
    (usageUpdated s diffs).keysArray = s.keysArray ∧
    (usageUpdated s diffs).minimumIndex = s.minimumIndex ∧
    (usageUpdated s diffs).maximumInternalIndex = s.maximumInternalIndex ∧
    (usageUpdated s diffs).seed = s.seed ∧
    (usageUpdated s diffs).addressGapLimit = s.addressGapLimit := by
  unfold usageUpdated
  obtain ⟨f1, f2, _, f4, f5, f6, f7, f8⟩ := foldl_markUsed_frame diffs (diffs.foldl applyDiff s)
  obtain ⟨e1, e2, e3, _, e5, e6⟩ := foldl_applyDiff_frame diffs s
  exact ⟨f1.trans (foldl_applyDiff_keys diffs s), f2.trans (foldl_applyDiff_dustThreshold diffs s),
    f4.trans e1, f5.trans e2, f6.trans e3, f7.trans e5, f8.trans e6⟩

/-- A batch whose fetches all succeed ends in the growth step. -/
theorem ProcessHeaderConsensusChange_of_collectDiffs (s : seedScanner)
    (hcc : HeaderConsensusChange) (getSiacoinOutputDiff : DiffFetcher)
    (diffs : List SiacoinOutputDiff)
    (h : s.collectDiffs hcc getSiacoinOutputDiff = some diffs) :
    s.ProcessHeaderConsensusChange hcc getSiacoinOutputDiff =
      (usageUpdated s diffs).growWindow := by
  unfold ProcessHeaderConsensusChange usageUpdated
  rw [h]

/-- The state a call returns, when it returns. -/
theorem ProcessHeaderConsensusChange_eq_some (s s' : seedScanner)
    (hcc : HeaderConsensusChange) (getSiacoinOutputDiff : DiffFetcher)
    (diffs : List SiacoinOutputDiff)
    (h : s.collectDiffs hcc getSiacoinOutputDiff = some diffs)
    (hp : s.ProcessHeaderConsensusChange hcc getSiacoinOutputDiff = some s') :
    s' = growWindowed s diffs := by
  rw [ProcessHeaderConsensusChange_of_collectDiffs s hcc _ diffs h] at hp
  unfold growWindowed
  exact growWindow_eq_some _ _ hp

/-- A batch whose fetches all succeed is processed to the end when the growth
step has `gap = 0` or a `toGrow` that fits a slice. -/
theorem ProcessHeaderConsensusChange_eq_of_collectDiffs (s : seedScanner)
    (hcc : HeaderConsensusChange) (getSiacoinOutputDiff : DiffFetcher)
    (diffs : List SiacoinOutputDiff)
    (h : s.collectDiffs hcc getSiacoinOutputDiff = some diffs)
    (hfit : u64sub (usageUpdated s diffs).maximumInternalIndex
        (usageUpdated s diffs).maximumExternalIndex = 0 ∨
      (usageUpdated s diffs).toGrow ≤ maxSliceLen) :
    s.ProcessHeaderConsensusChange hcc getSiacoinOutputDiff = some (growWindowed s diffs) := by
  rw [ProcessHeaderConsensusChange_of_collectDiffs s hcc _ diffs h]
  unfold growWindowed
  exact growWindow_of_fits _ hfit

/-- The ledger after the two loops and the growth of the window. -/
theorem growWindowed_siacoinOutputs (s : seedScanner) (diffs : List SiacoinOutputDiff) :
    (growWindowed s diffs).siacoinOutputs =
      diffs.foldl (ledgerRule s.keys s.dustThreshold) s.siacoinOutputs := by
  have h : (usageUpdated s diffs).siacoinOutputs =
      diffs.foldl (ledgerRule s.keys s.dustThreshold) s.siacoinOutputs := by
    unfold usageUpdated
    rw [(foldl_markUsed_frame diffs _).2.2.1, foldl_applyDiff_siacoinOutputs]
  unfold growWindowed
  split_ifs
  · rw [generateKeys_siacoinOutputs, h]
  · exact h

theorem growWindowed_maximumExternalIndex (s : seedScanner) (diffs : List SiacoinOutputDiff) :
    (growWindowed s diffs).maximumExternalIndex =
      (diffs.foldl markUsed (diffs.foldl applyDiff s)).maximumExternalIndex := by
  unfold growWindowed
  split_ifs
  · rw [generateKeys_maximumExternalIndex]; rfl
  · rfl

theorem growWindowed_mem_keys (s : seedScanner) (diffs : List SiacoinOutputDiff)
    (a : UnlockHash) (h : a ∈ s.keys) : a ∈ (growWindowed s diffs).keys := by
  have h2 : a ∈ (usageUpdated s diffs).keys := by
    rw [(usageUpdated_frame s diffs).1]
    exact h
  unfold growWindowed
  split_ifs
  · exact generateKeys_mem_keys _ _ a h2
  · exact h2

theorem growWindowed_dustThreshold (s : seedScanner) (diffs : List SiacoinOutputDiff) :
    (growWindowed s diffs).dustThreshold = s.dustThreshold := by
  unfold growWindowed
  split_ifs
  · rw [generateKeys_dustThreshold, (usageUpdated_frame s diffs).2.1]
  · exact (usageUpdated_frame s diffs).2.1

end seedScanner

/-! ## Theorems about the scanners -/

/-- C1: for every state and every batch that completes (`diffs` being the
combined diff sequence the call has collected, `s'` the state it returns), the
ledger of the result is the left fold of the specification's ledger rule over
the combined diff sequence, started at the ledger before the call and using
the key map and the dust threshold of the start of the call. -/
theorem fast_ledger_is_fold_of_rule (s s' : seedScanner) (hcc : HeaderConsensusChange)
    (getSiacoinOutputDiff : DiffFetcher) (diffs : List SiacoinOutputDiff)
    (h : s.collectDiffs hcc getSiacoinOutputDiff = some diffs)
    (hp : s.ProcessHeaderConsensusChange hcc getSiacoinOutputDiff = some s') :
    s'.siacoinOutputs =
      diffs.foldl (ledgerRule s.keys s.dustThreshold) s.siacoinOutputs := by
  rw [seedScanner.ProcessHeaderConsensusChange_eq_some s s' hcc _ diffs h hp]
  exact seedScanner.growWindowed_siacoinOutputs s diffs

/-- C4: for every state and every batch that completes (`diffs` being the
combined diff sequence, `s'` the state the call returns), `maximumExternalIndex`
after `ProcessHeaderConsensusChange` is the maximum of its previous value and
the key indices of the tracked addresses named by the diffs of the combined
sequence, whatever their direction and value: it is at least the previous
value, at least every such index, and equal to the previous value or to one
such index. In particular a batch of revert diffs to one tracked address of
index `i` leaves it at the maximum of the previous value and `i`. -/
theorem fast_maximumExternalIndex_is_max (s s' : seedScanner) (hcc : HeaderConsensusChange)
    (getSiacoinOutputDiff : DiffFetcher) (diffs : List SiacoinOutputDiff)
    (h : s.collectDiffs hcc getSiacoinOutputDiff = some diffs)
    (hp : s.ProcessHeaderConsensusChange hcc getSiacoinOutputDiff = some s') :
    s.maximumExternalIndex ≤ s'.maximumExternalIndex ∧
      (∀ d ∈ diffs, ∀ i, s.keys.lookup d.SiacoinOutput.UnlockHash = some i →
        i ≤ s'.maximumExternalIndex) ∧
      (s'.maximumExternalIndex = s.maximumExternalIndex ∨
        ∃ d ∈ diffs, s.keys.lookup d.SiacoinOutput.UnlockHash = some s'.maximumExternalIndex) ∧
      (∀ a i, s.keys.lookup a = some i → diffs ≠ [] →
        (∀ d ∈ diffs, d.Direction = DiffRevert ∧ d.SiacoinOutput.UnlockHash = a) →
        s'.maximumExternalIndex = max s.maximumExternalIndex i) := by
  rw [seedScanner.ProcessHeaderConsensusChange_eq_some s s' hcc _ diffs h hp]
  rw [seedScanner.growWindowed_maximumExternalIndex]
  obtain ⟨h1, h2, h3⟩ :=
    seedScanner.foldl_markUsed_maximumExternalIndex diffs (diffs.foldl seedScanner.applyDiff s)
  rw [seedScanner.foldl_applyDiff_keys] at h2 h3
  rw [(seedScanner.foldl_applyDiff_frame diffs s).2.2.2.1] at h1 h3
  refine ⟨h1, h2, h3, ?_⟩
  intro a i ha hne hall
  obtain ⟨d0, hd0⟩ := List.exists_mem_of_ne_nil diffs hne
  have hi := h2 d0 hd0 i (by rw [(hall d0 hd0).2]; exact ha)
  rcases h3 with h3 | ⟨e, he, h3⟩
  · rw [h3] at hi ⊢
    exact (Nat.max_eq_left hi).symm
  · rw [(hall e he).2, ha] at h3
    have h4 : i = _ := Option.some.inj h3
    rw [← h4] at h1 ⊢
    exact (Nat.max_eq_right h1).symm

/-- Instance of `fast_ledger_is_fold_of_rule`: a warm scanner receives one
applied block with an output of value 100 for the address of index 1. -/
theorem fast_ledger_is_fold_of_rule_witness :
    warmScanner.collectDiffs oneApplied (fetchConst [applyOf 7 100 1001]) =
        some [applyOf 7 100 1001] ∧
      ∃ s', warmScanner.ProcessHeaderConsensusChange oneApplied
          (fetchConst [applyOf 7 100 1001]) = some s' ∧
        s'.siacoinOutputs =
          [applyOf 7 100 1001].foldl (ledgerRule warmScanner.keys warmScanner.dustThreshold)
            warmScanner.siacoinOutputs :=
  ⟨by decide, growWindowed warmScanner [applyOf 7 100 1001], rfl,
    fast_ledger_is_fold_of_rule warmScanner _ oneApplied (fetchConst [applyOf 7 100 1001]) _
      (by decide) rfl⟩

/-- Instance of `fast_maximumExternalIndex_is_max`: a batch that only reverts
an output of the address of index 2 raises `maximumExternalIndex` to 2. -/
theorem fast_maximumExternalIndex_is_max_witness :
    warmScanner.collectDiffs (maturedOnly [revertOf 7 100 1002]) (fetchConst []) =
        some [revertOf 7 100 1002] ∧
      ∃ s', warmScanner.ProcessHeaderConsensusChange (maturedOnly [revertOf 7 100 1002])
          (fetchConst []) = some s' ∧ s'.maximumExternalIndex = 2 := by
  have h1 : warmScanner.ProcessHeaderConsensusChange (maturedOnly [revertOf 7 100 1002])
      (fetchConst []) = some (growWindowed warmScanner [revertOf 7 100 1002]) := rfl
  refine ⟨by decide, _, h1, ?_⟩
  obtain ⟨_, _, _, h5⟩ := fast_maximumExternalIndex_is_max warmScanner _
    (maturedOnly [revertOf 7 100 1002]) (fetchConst []) [revertOf 7 100 1002] (by decide) h1
  have h := h5 1002 2 (by decide) (by decide) (by decide)
  rw [h]
  decide

/-! ### The ledger rule, output id by output id -/

theorem ledgerRule_lookup_of_ne (K : KeyMap) (dust : Currency) (L : Ledger)
    (d : SiacoinOutputDiff) (x : SiacoinOutputID) (h : d.ID ≠ x) :
    (ledgerRule K dust L d).lookup x = L.lookup x := by
  unfold ledgerRule
  split
  · split_ifs
    · exact Finmap.lookup_insert_of_ne _ (Ne.symm h)
    · rfl
  · exact Finmap.lookup_erase_ne (Ne.symm h)
  · rfl

theorem foldl_ledgerRule_lookup_of_not_named (K : KeyMap) (dust : Currency)
    (x : SiacoinOutputID) (ds : List SiacoinOutputDiff) :
    ∀ L : Ledger, (∀ d ∈ ds, d.ID ≠ x) →
      (ds.foldl (ledgerRule K dust) L).lookup x = L.lookup x := by
  induction ds with
  | nil => intro L _; rfl
  | cons d ds ih =>
    intro L h
    rw [List.foldl_cons, ih _ (fun e he => h e (List.mem_cons_of_mem _ he)),
      ledgerRule_lookup_of_ne K dust L d x (h d (List.mem_cons_self _ _))]

theorem ledgerRule_revert_tracked (K : KeyMap) (dust : Currency) (L : Ledger)
    (d : SiacoinOutputDiff) (hd : d.Direction = DiffRevert)
    (hk : d.SiacoinOutput.UnlockHash ∈ K) :
    ledgerRule K dust L d = L.erase d.ID := by
  obtain ⟨i, hi⟩ := Finmap.mem_iff.mp hk
  simp [ledgerRule, hd, hi]

theorem ledgerRule_revert_none (K : KeyMap) (dust : Currency) (L : Ledger)
    (d : SiacoinOutputDiff) (x : SiacoinOutputID) (hd : d.Direction = DiffRevert)
    (hx : L.lookup x = none) :
    (ledgerRule K dust L d).lookup x = none := by
  unfold ledgerRule
  rw [hd]
  split
  · simp at *
  · by_cases hxe : x = d.ID
    · rw [hxe]; exact Finmap.lookup_erase _ _
    · rw [Finmap.lookup_erase_ne hxe]; exact hx
  · exact hx

/-- A run of revert diffs never creates an entry, and it removes the entry of
an output id named by one of its diffs with a tracked address. -/
theorem foldl_ledgerRule_reverts (K : KeyMap) (dust : Currency) (x : SiacoinOutputID)
    (ds : List SiacoinOutputDiff) :
    ∀ L : Ledger, (∀ d ∈ ds, d.Direction = DiffRevert) →
      (L.lookup x = none ∨ ∃ d ∈ ds, d.ID = x ∧ d.SiacoinOutput.UnlockHash ∈ K) →
      (ds.foldl (ledgerRule K dust) L).lookup x = none := by
  induction ds with
  | nil =>
    intro L _ h
    rcases h with h | ⟨d, hd, _⟩
    · exact h
    · cases hd
  | cons d ds ih =>
    intro L hall h
    have hd : d.Direction = DiffRevert := hall d (List.mem_cons_self _ _)
    have hrest : ∀ e ∈ ds, e.Direction = DiffRevert :=
      fun e he => hall e (List.mem_cons_of_mem _ he)
    rw [List.foldl_cons]
    rcases h with h | ⟨e, he, hex, hek⟩
    · exact ih _ hrest (Or.inl (ledgerRule_revert_none K dust L d x hd h))
    · rcases List.mem_cons.mp he with heq | he
      · refine ih _ hrest (Or.inl ?_)
        rw [← heq, ledgerRule_revert_tracked K dust L e (heq ▸ hd) hek, hex]
        exact Finmap.lookup_erase _ _
      · exact ih _ hrest (Or.inr ⟨e, he, hex, hek⟩)

/-- A run of the rule changes the entry of an output id only through a diff
that names the id and a tracked address. -/
theorem foldl_ledgerRule_changed (K : KeyMap) (dust : Currency) (x : SiacoinOutputID)
    (ds : List SiacoinOutputDiff) :
    ∀ L : Ledger, (ds.foldl (ledgerRule K dust) L).lookup x = L.lookup x ∨
      ∃ d ∈ ds, d.ID = x ∧ d.SiacoinOutput.UnlockHash ∈ K := by
  induction ds with
  | nil => intro L; exact Or.inl rfl
  | cons d ds ih =>
    intro L
    rw [List.foldl_cons]
    rcases ih (ledgerRule K dust L d) with h | ⟨e, he, hex, hek⟩
    · by_cases hx : d.ID = x
      · by_cases hk : d.SiacoinOutput.UnlockHash ∈ K
        · exact Or.inr ⟨d, List.mem_cons_self _ _, hx, hk⟩
        · left
          rw [h]
          have hn : K.lookup d.SiacoinOutput.UnlockHash = none := Finmap.lookup_eq_none.mpr hk
          unfold ledgerRule
          rw [hn]
          cases d.Direction <;> rfl
      · left
        rw [h, ledgerRule_lookup_of_ne K dust L d x hx]
    · exact Or.inr ⟨e, List.mem_cons_of_mem _ he, hex, hek⟩

theorem invertDiff_ID (d : SiacoinOutputDiff) : (invertDiff d).ID = d.ID := rfl

theorem invertDiff_SiacoinOutput (d : SiacoinOutputDiff) :
    (invertDiff d).SiacoinOutput = d.SiacoinOutput := rfl

theorem invertDiff_of_apply (d : SiacoinOutputDiff) (h : d.Direction = DiffApply) :
    (invertDiff d).Direction = DiffRevert := by
  simp [invertDiff, h]

/-- C2, counterexample: a scanner that tracks address 1001 and already holds
output 7 processes the batch made of one `Apply` diff for output 7 and then
the same batch with the direction inverted. Both calls return; the ledger held
output 7 before the first call and does not hold it after the second. -/
theorem apply_then_invert_loses_known_output :
    holdingScanner.siacoinOutputs.lookup 7 = some { id := 7, value := 100, seedIndex := 1 } ∧
    ((holdingScanner.ProcessHeaderConsensusChange (maturedOnly [applyOf 7 100 1001])
        (fetchConst [])).bind (fun s1 =>
      s1.ProcessHeaderConsensusChange (maturedOnly [invertDiff (applyOf 7 100 1001)])
        (fetchConst []))).map (fun s2 => s2.siacoinOutputs.lookup 7) = some none ∧
    ((holdingScanner.ProcessHeaderConsensusChange (maturedOnly [applyOf 7 100 1001])
        (fetchConst [])).bind (fun s1 =>
      s1.ProcessHeaderConsensusChange (maturedOnly [invertDiff (applyOf 7 100 1001)])
        (fetchConst []))).map (fun s2 => decide (s2.siacoinOutputs = holdingScanner.siacoinOutputs))
      = some false := by
  refine ⟨by decide, by decide, by decide⟩

/-- C2, amended: for a batch all of whose diffs are `Apply` diffs and none of
whose output ids is in the ledger `L` before the call, processing the batch
and then the batch with every direction inverted, both calls completing,
leaves a scanner whose ledger is exactly `L`. -/
theorem apply_then_invert_restores_fresh_applies (s s1 s2 : seedScanner)
    (hcc hcc2 : HeaderConsensusChange) (fetch fetch2 : DiffFetcher)
    (diffs : List SiacoinOutputDiff)
    (h1 : s.collectDiffs hcc fetch = some diffs)
    (hs1 : s.ProcessHeaderConsensusChange hcc fetch = some s1)
    (h2 : s1.collectDiffs hcc2 fetch2 = some (diffs.map invertDiff))
    (hs2 : s1.ProcessHeaderConsensusChange hcc2 fetch2 = some s2)
    (happly : ∀ d ∈ diffs, d.Direction = DiffApply)
    (hfresh : ∀ d ∈ diffs, s.siacoinOutputs.lookup d.ID = none) :
    s2.siacoinOutputs = s.siacoinOutputs := by
  rw [seedScanner.ProcessHeaderConsensusChange_eq_some s1 s2 hcc2 fetch2 _ h2 hs2]
  have hl2 := seedScanner.growWindowed_siacoinOutputs s1 (diffs.map invertDiff)
  have hs1 := seedScanner.ProcessHeaderConsensusChange_eq_some s s1 hcc fetch diffs h1 hs1
  have hl1 : s1.siacoinOutputs =
      diffs.foldl (ledgerRule s.keys s.dustThreshold) s.siacoinOutputs := by
    rw [hs1, seedScanner.growWindowed_siacoinOutputs]
  have hmono : ∀ a, a ∈ s.keys → a ∈ s1.keys := by
    intro a ha
    rw [hs1]
    exact seedScanner.growWindowed_mem_keys s diffs a ha
  have hrev : ∀ d ∈ diffs.map invertDiff, d.Direction = DiffRevert := by
    intro d hd
    obtain ⟨e, he, rfl⟩ := List.mem_map.mp hd
    exact invertDiff_of_apply e (happly e he)
  apply Finmap.ext_lookup
  intro x
  rw [hl2]
  by_cases hx : ∃ d ∈ diffs, d.ID = x
  · obtain ⟨d, hd, hdx⟩ := hx
    have hLx : s.siacoinOutputs.lookup x = none := hdx ▸ hfresh d hd
    rw [hLx]
    apply foldl_ledgerRule_reverts _ _ _ _ _ hrev
    rcases foldl_ledgerRule_changed s.keys s.dustThreshold x diffs s.siacoinOutputs with
      h | ⟨e, he, hex, hek⟩
    · left
      rw [hl1, h, hLx]
    · right
      exact ⟨invertDiff e, List.mem_map.mpr ⟨e, he, rfl⟩, hex, hmono _ hek⟩
  · have hnot : ∀ d ∈ diffs, d.ID ≠ x := fun d hd hdx => hx ⟨d, hd, hdx⟩
    rw [foldl_ledgerRule_lookup_of_not_named, hl1, foldl_ledgerRule_lookup_of_not_named _ _ _ _ _ hnot]
    intro d hd
    obtain ⟨e, he, rfl⟩ := List.mem_map.mp hd
    exact hnot e he

/-- Instance of `apply_then_invert_restores_fresh_applies`: the warm scanner
with an empty ledger sees output 7 applied and then reverted. -/
theorem apply_then_invert_restores_fresh_applies_witness :
    warmScanner.collectDiffs (maturedOnly [applyOf 7 100 1001]) (fetchConst []) =
        some [applyOf 7 100 1001] ∧
      warmScanner.ProcessHeaderConsensusChange (maturedOnly [applyOf 7 100 1001])
        (fetchConst []) = some (growWindowed warmScanner [applyOf 7 100 1001]) ∧
      (growWindowed warmScanner [applyOf 7 100 1001]).collectDiffs
        (maturedOnly [invertDiff (applyOf 7 100 1001)]) (fetchConst []) =
        some ([applyOf 7 100 1001].map invertDiff) ∧
      (∀ d ∈ [applyOf 7 100 1001], d.Direction = DiffApply) ∧
      (∀ d ∈ [applyOf 7 100 1001], warmScanner.siacoinOutputs.lookup d.ID = none) ∧
      ∃ s2, (growWindowed warmScanner [applyOf 7 100 1001]).ProcessHeaderConsensusChange
          (maturedOnly [invertDiff (applyOf 7 100 1001)]) (fetchConst []) = some s2 ∧
        s2.siacoinOutputs = warmScanner.siacoinOutputs :=
  ⟨by decide, rfl, by decide, by decide, by decide, _, rfl,
    apply_then_invert_restores_fresh_applies warmScanner _ _ (maturedOnly [applyOf 7 100 1001])
      (maturedOnly [invertDiff (applyOf 7 100 1001)]) (fetchConst []) (fetchConst [])
      [applyOf 7 100 1001] (by decide) rfl (by decide) rfl (by decide) (by decide)⟩

/-! ### Arithmetic of the gap computation -/

theorem generateKeys_length (seed : Seed) (start n : Nat) :
    (generateKeys seed start n).length = n := by
  simp [generateKeys]

theorem u64_gap_restored (a b g : Nat) (ha : a < uint64Size) (hb : b < uint64Size)
    (hne : a ≠ b) :
    0 < u64sub a b ∧ u64add a (u64sub g (u64sub a b)) = (b + g) % uint64Size := by
  unfold u64add u64sub uint64Size at *
  omega

theorem u64_gap_zero (a : Nat) : ¬ 0 < u64sub a a := by
  unfold u64sub uint64Size
  omega

theorem u64_deficit (a b g : Nat) (ha : a < uint64Size) (hb : b < a) (hg : a - b ≤ g)
    (hg2 : g < uint64Size) :
    u64sub g (u64sub a b) = g - (a - b) := by
  unfold u64sub uint64Size at *
  omega

/-- C3, counterexample: a newly constructed scanner with gap limit 20
processes an empty batch. The call returns with `maximumInternalIndex =
maximumExternalIndex = 0` and no key: the deficit 20 is positive, no key has
been generated, and the difference 0 is below the gap limit. -/
theorem gap_not_restored_when_zero :
    ((newFastSeedScanner sampleSeed 20).ProcessHeaderConsensusChange (maturedOnly [])
        (fetchConst [])).map
      (fun s' => (s'.maximumInternalIndex, s'.maximumExternalIndex, s'.addressGapLimit,
        s'.keysArray)) = some (0, 0, 20, []) ∧
    ((newFastSeedScanner sampleSeed 20).ProcessHeaderConsensusChange (maturedOnly [])
        (fetchConst [])).map
      (fun s' => decide (s'.maximumInternalIndex ≥ s'.maximumExternalIndex ∧
        ¬ s'.maximumInternalIndex - s'.maximumExternalIndex ≥ s'.addressGapLimit)) =
      some true := by
  refine ⟨by decide, by decide⟩

/-- C3, amended: let `maximumInternalIndex` and `addressGapLimit` be below
`2 ^ 64`, and let `gap` be `maximumInternalIndex - maximumExternalIndex` after
the usage update of a call that returns. When `0 < gap ≤ addressGapLimit`,
exactly `addressGapLimit - gap` keys are generated before the call returns,
and afterwards `maximumInternalIndex - maximumExternalIndex ≥
addressGapLimit` whenever `maximumInternalIndex ≥ maximumExternalIndex`, with
equality when `maximumExternalIndex + addressGapLimit` is below `2 ^ 64`.
When `gap = 0`, no key is generated. -/
theorem gap_restored_when_in_range (s s' : seedScanner) (hcc : HeaderConsensusChange)
    (getSiacoinOutputDiff : DiffFetcher)
    (h : s.ProcessHeaderConsensusChange hcc getSiacoinOutputDiff = some s')
    (hint : s.maximumInternalIndex < uint64Size) (hg : s.addressGapLimit < uint64Size) :
    (s'.maximumExternalIndex < s.maximumInternalIndex →
      s.maximumInternalIndex - s'.maximumExternalIndex ≤ s.addressGapLimit →
      s'.keysArray.length = s.keysArray.length +
          (s.addressGapLimit - (s.maximumInternalIndex - s'.maximumExternalIndex)) ∧
      (s'.maximumInternalIndex ≥ s'.maximumExternalIndex →
        s'.maximumInternalIndex - s'.maximumExternalIndex ≥ s.addressGapLimit) ∧
      (s'.maximumExternalIndex + s.addressGapLimit < uint64Size →
        s'.maximumInternalIndex - s'.maximumExternalIndex = s.addressGapLimit)) ∧
    (s.maximumInternalIndex = s'.maximumExternalIndex →
      s'.keysArray = s.keysArray ∧ s'.maximumInternalIndex = s.maximumInternalIndex) := by
  cases hc : s.collectDiffs hcc getSiacoinOutputDiff with
  | none =>
    unfold seedScanner.ProcessHeaderConsensusChange at h
    rw [hc] at h
    cases h
  | some diffs =>
    have hs' := seedScanner.ProcessHeaderConsensusChange_eq_some s s' hcc _ diffs hc h
    obtain ⟨_, _, hka, _, hint2, _, hg2⟩ := seedScanner.usageUpdated_frame s diffs
    have hext2 : (usageUpdated s diffs).maximumExternalIndex = s'.maximumExternalIndex := by
      rw [hs', seedScanner.growWindowed_maximumExternalIndex]
      rfl
    unfold growWindowed at hs'
    rw [hint2, hext2] at hs'
    constructor
    · intro hlt hle
      have hpos : 0 < u64sub s.maximumInternalIndex s'.maximumExternalIndex := by
        unfold u64sub uint64Size at *
        omega
      have hdef : (usageUpdated s diffs).toGrow =
          s.addressGapLimit - (s.maximumInternalIndex - s'.maximumExternalIndex) := by
        unfold seedScanner.toGrow
        rw [hint2, hext2, hg2]
        exact u64_deficit s.maximumInternalIndex s'.maximumExternalIndex
          s.addressGapLimit hint hlt hle hg
      rw [if_pos hpos, hdef] at hs'
      have hmi : s'.maximumInternalIndex =
          (s'.maximumExternalIndex + s.addressGapLimit) % uint64Size := by
        conv_lhs => rw [hs']
        rw [seedScanner.generateKeys_maximumInternalIndex, hint2]
        unfold u64add
        congr 1
        omega
      refine ⟨?_, ?_, ?_⟩
      · conv_lhs => rw [hs']
        rw [seedScanner.generateKeys_keysArray, List.length_append, generateKeys_length, hka]
      · intro hge
        rw [hmi] at hge ⊢
        unfold uint64Size at *
        omega
      · intro hsum
        rw [hmi, Nat.mod_eq_of_lt hsum]
        omega
    · intro heq
      rw [heq, if_neg (u64_gap_zero _)] at hs'
      rw [hs']
      exact ⟨hka, hint2⟩

/-- Instance of `gap_restored_when_in_range`: the warm scanner (gap limit 3,
three keys) sees the address of index 2 used and generates two more keys. -/
theorem gap_restored_when_in_range_witness :
    warmScanner.ProcessHeaderConsensusChange (maturedOnly [applyOf 7 100 1002]) (fetchConst []) =
        some (growWindowed warmScanner [applyOf 7 100 1002]) ∧
      warmScanner.maximumInternalIndex = 3 ∧
      warmScanner.addressGapLimit = 3 ∧
      warmScanner.keysArray.length = 3 ∧
      (growWindowed warmScanner [applyOf 7 100 1002]).maximumExternalIndex = 2 ∧
      (growWindowed warmScanner [applyOf 7 100 1002]).keysArray.length = 3 + (3 - (3 - 2)) ∧
      (growWindowed warmScanner [applyOf 7 100 1002]).maximumInternalIndex -
        (growWindowed warmScanner [applyOf 7 100 1002]).maximumExternalIndex = 3 := by
  have h := gap_restored_when_in_range warmScanner (growWindowed warmScanner [applyOf 7 100 1002])
    (maturedOnly [applyOf 7 100 1002]) (fetchConst []) rfl (by decide) (by decide)
  have h2 : (growWindowed warmScanner [applyOf 7 100 1002]).maximumExternalIndex = 2 := by decide
  obtain ⟨h3, _, h5⟩ := h.1 (by rw [h2]; decide) (by rw [h2]; decide)
  refine ⟨rfl, by decide, by decide, by decide, h2, ?_, ?_⟩
  · rw [h3, h2]; decide
  · exact h5 (by rw [h2]; decide)

/-- C5, the code at the failing input: on a newly constructed scanner,
`generateKeys(maxScanKeys + 1)` reports nothing and extends the key window by
`maxScanKeys + 1` addresses, one more than the cap. -/
theorem generateKeys_ignores_maxScanKeys (r : Release) (seed : Seed) (g : Nat) :
    ((newFastSeedScanner seed g).generateKeys (maxScanKeys r + 1)).keysArray.length =
        maxScanKeys r + 1 ∧
      ((newFastSeedScanner seed g).generateKeys (maxScanKeys r + 1)).maximumInternalIndex =
        maxScanKeys r + 1 ∧
      maxScanKeys r <
        ((newFastSeedScanner seed g).generateKeys (maxScanKeys r + 1)).keysArray.length := by
  have hlen : ((newFastSeedScanner seed g).generateKeys (maxScanKeys r + 1)).keysArray.length =
      maxScanKeys r + 1 := by
    rw [seedScanner.generateKeys_keysArray, List.length_append, generateKeys_length]
    simp [newFastSeedScanner]
  refine ⟨hlen, ?_, by omega⟩
  rw [seedScanner.generateKeys_maximumInternalIndex]
  have h0 : (newFastSeedScanner seed g).maximumInternalIndex = 0 := rfl
  rw [h0]
  cases r <;> decide

/-! ### What the key loop stores -/

namespace seedScanner

theorem generateKeysLoop_lookup_of_not_mem (p : Nat) (a : UnlockHash) (ks : List UnlockHash) :
    ∀ (i : Nat) (s : seedScanner), a ∉ ks →
      (generateKeysLoop p i ks s).keys.lookup a = s.keys.lookup a := by
  induction ks with
  | nil => intro i s _; rfl
  | cons k ks ih =>
    intro i s h
    simp only [generateKeysLoop]
    rw [ih _ _ (fun hm => h (List.mem_cons_of_mem _ hm))]
    exact Finmap.lookup_insert_of_ne _ (fun hak => h (hak ▸ List.mem_cons_self _ _))

/-- After the loop, the address at place `j` of a duplicate-free list is
mapped to the index computed at iteration `i + j`. -/
theorem generateKeysLoop_lookup_get (p : Nat) (ks : List UnlockHash) :
    ∀ (i : Nat) (s : seedScanner), ks.Nodup → ∀ (j : Nat) (a : UnlockHash), ks[j]? = some a →
      (generateKeysLoop p i ks s).keys.lookup a =
        some (u64add (u64add p s.minimumIndex) (i + j)) := by
  induction ks with
  | nil => intro i s _ j a h; simp at h
  | cons k ks ih =>
    intro i s hnd j a h
    obtain ⟨hk, hnd'⟩ := List.nodup_cons.mp hnd
    simp only [generateKeysLoop]
    cases j with
    | zero =>
      simp only [List.getElem?_cons_zero, Option.some.injEq] at h
      subst h
      rw [generateKeysLoop_lookup_of_not_mem _ _ _ _ _ hk]
      exact Finmap.lookup_insert _
    | succ j =>
      simp only [List.getElem?_cons_succ] at h
      rw [ih (i + 1) _ hnd' j a h]
      congr 2
      omega

end seedScanner

theorem generateKeys_getElem? (seed : Seed) (start n j : Nat) (h : j < n) :
    (generateKeys seed start n)[j]? = some (seed.addr (u64add start j)) := by
  simp [generateKeys, List.getElem?_map, List.getElem?_range h]

theorem generateKeys_getElem?_eq_some (seed : Seed) (start n j : Nat) (a : UnlockHash)
    (h : (generateKeys seed start n)[j]? = some a) :
    j < n ∧ a = seed.addr (u64add start j) := by
  have hj : j < n := by
    have := (List.getElem?_eq_some.mp h).1
    rwa [generateKeys_length] at this
  rw [generateKeys_getElem? seed start n j hj] at h
  exact ⟨hj, (Option.some.inj h).symm⟩

/-- The key map after `generateKeys(n)`, address by address, for a
duplicate-free batch of derived addresses. -/
theorem seedScanner.generateKeys_lookup (s : seedScanner) (n : Nat)
    (hnd : (Hyperspace.generateKeys s.seed (u64add s.numKeys s.minimumIndex) n).Nodup)
    (j : Nat) (a : UnlockHash)
    (h : (Hyperspace.generateKeys s.seed (u64add s.numKeys s.minimumIndex) n)[j]? = some a) :
    (s.generateKeys n).keys.lookup a = some (u64add (u64add s.numKeys s.minimumIndex) j) := by
  simp only [seedScanner.generateKeys]
  rw [seedScanner.generateKeysLoop_lookup_get _ _ _ _ hnd j a h, Nat.zero_add]

/-- C6: let `s` hold `c` keys and let the `n` addresses derived by
`generateKeys(n)`, those at the positions `minimumIndex + c, ...,
minimumIndex + c + n - 1` (as `uint64` values), be pairwise distinct. After
the call each of them is mapped by `keys` to its own derivation position,
`keysArray` is the former `keysArray` followed by these addresses in
derivation order, and `maximumInternalIndex` has advanced by `n` (as a
`uint64`; by exactly `n` when the sum is below `2 ^ 64`). On a scanner with
`minimumIndex = 0` and no key, every address of `generateKeys(seed, 0, n)` is
mapped to its index. -/
theorem generateKeys_maps_positions (s : seedScanner) (c n : Nat) (hc : s.numKeys = c)
    (hdistinct : (generateKeys s.seed (u64add c s.minimumIndex) n).Nodup) :
    (generateKeys s.seed (u64add c s.minimumIndex) n).length = n ∧
    (∀ j, j < n → (generateKeys s.seed (u64add c s.minimumIndex) n)[j]? =
      some (s.seed.addr (u64add (u64add c s.minimumIndex) j))) ∧
    (∀ j a, (generateKeys s.seed (u64add c s.minimumIndex) n)[j]? = some a →
      (s.generateKeys n).keys.lookup a = some (u64add (u64add c s.minimumIndex) j)) ∧
    (s.generateKeys n).keysArray =
      s.keysArray ++ generateKeys s.seed (u64add c s.minimumIndex) n ∧
    (s.generateKeys n).maximumInternalIndex = u64add s.maximumInternalIndex n ∧
    (s.minimumIndex + c + n ≤ uint64Size → ∀ j, j < n →
      (s.generateKeys n).keys.lookup (s.seed.addr (s.minimumIndex + c + j)) =
        some (s.minimumIndex + c + j)) ∧
    (s.maximumInternalIndex + n < uint64Size →
      (s.generateKeys n).maximumInternalIndex = s.maximumInternalIndex + n) ∧
    (s.minimumIndex = 0 → c = 0 → n ≤ uint64Size →
      ∀ j a, (generateKeys s.seed 0 n)[j]? = some a →
        (s.generateKeys n).keys.lookup a = some j) := by
  subst hc
  have hpos : ∀ j, j < n → s.minimumIndex + s.numKeys + n ≤ uint64Size →
      u64add (u64add s.numKeys s.minimumIndex) j = s.minimumIndex + s.numKeys + j := by
    intro j hj hle
    unfold u64add uint64Size at *
    omega
  refine ⟨generateKeys_length _ _ _, fun j hj => generateKeys_getElem? _ _ _ _ hj,
    fun j a h => seedScanner.generateKeys_lookup s n hdistinct j a h,
    seedScanner.generateKeys_keysArray s n,
    seedScanner.generateKeys_maximumInternalIndex s n, ?_, ?_, ?_⟩
  · intro hle j hj
    have h := seedScanner.generateKeys_lookup s n hdistinct j _ (generateKeys_getElem? _ _ _ _ hj)
    rw [hpos j hj hle] at h
    exact h
  · intro hlt
    rw [seedScanner.generateKeys_maximumInternalIndex]
    unfold u64add uint64Size at *
    omega
  · intro hmin h0 hn j a h
    have hstart : u64add s.numKeys s.minimumIndex = 0 := by rw [hmin, h0]; rfl
    rw [hstart] at hdistinct
    have hj := (generateKeys_getElem?_eq_some _ _ _ _ _ h).1
    have h' := seedScanner.generateKeys_lookup s n (by rw [hstart]; exact hdistinct) j a
      (by rw [hstart]; exact h)
    rw [h', hstart]
    congr 1
    unfold u64add uint64Size at *
    omega

/-- Instance of `generateKeys_maps_positions`: three keys on a newly
constructed scanner; the addresses `1000, 1001, 1002` are mapped to `0, 1, 2`. -/
theorem generateKeys_maps_positions_witness :
    (newFastSeedScanner sampleSeed 3).numKeys = 0 ∧
      (generateKeys sampleSeed 0 3).Nodup ∧
      generateKeys sampleSeed 0 3 = [1000, 1001, 1002] ∧
      (∀ j a, (generateKeys sampleSeed 0 3)[j]? = some a →
        ((newFastSeedScanner sampleSeed 3).generateKeys 3).keys.lookup a = some j) ∧
      ((newFastSeedScanner sampleSeed 3).generateKeys 3).maximumInternalIndex = 3 := by
  have h := generateKeys_maps_positions (newFastSeedScanner sampleSeed 3) 0 3 (by decide)
    (by decide)
  obtain ⟨_, _, _, _, _, _, h7, h8⟩ := h
  exact ⟨by decide, by decide, by decide, h8 rfl rfl (by decide), h7 (by decide)⟩

/-! ### Lock-step of `keys` and `keysArray` -/

theorem extendKeys_mem_iff (base : Nat) (a : UnlockHash) (ks : List UnlockHash) :
    ∀ (i : Nat) (m : KeyMap), a ∈ extendKeys base i ks m ↔ a ∈ m ∨ a ∈ ks := by
  induction ks with
  | nil => intro i m; simp [extendKeys]
  | cons k ks ih =>
    intro i m
    simp only [extendKeys, ih, Finmap.mem_insert, List.mem_cons]
    tauto

theorem extendKeys_lookup_of_not_mem (base : Nat) (a : UnlockHash) (ks : List UnlockHash) :
    ∀ (i : Nat) (m : KeyMap), a ∉ ks → (extendKeys base i ks m).lookup a = m.lookup a := by
  induction ks with
  | nil => intro i m _; rfl
  | cons k ks ih =>
    intro i m h
    simp only [extendKeys]
    rw [ih _ _ (fun hm => h (List.mem_cons_of_mem _ hm))]
    exact Finmap.lookup_insert_of_ne _ (fun hak => h (hak ▸ List.mem_cons_self _ _))

theorem extendKeys_lookup_get (base : Nat) (ks : List UnlockHash) :
    ∀ (i : Nat) (m : KeyMap), ks.Nodup → ∀ (j : Nat) (a : UnlockHash), ks[j]? = some a →
      (extendKeys base i ks m).lookup a = some (u64add base (i + j)) := by
  induction ks with
  | nil => intro i m _ j a h; simp at h
  | cons k ks ih =>
    intro i m hnd j a h
    obtain ⟨hk, hnd'⟩ := List.nodup_cons.mp hnd
    simp only [extendKeys]
    cases j with
    | zero =>
      simp only [List.getElem?_cons_zero, Option.some.injEq] at h
      subst h
      rw [extendKeys_lookup_of_not_mem _ _ _ _ _ hk]
      exact Finmap.lookup_insert _
    | succ j =>
      simp only [List.getElem?_cons_succ] at h
      rw [ih (i + 1) _ hnd' j a h]
      congr 2
      omega

theorem seedScanner.generateKeysLoop_keys (p : Nat) (ks : List UnlockHash) :
    ∀ (i : Nat) (s : seedScanner),
      (seedScanner.generateKeysLoop p i ks s).keys =
        extendKeys (u64add p s.minimumIndex) i ks s.keys := by
  induction ks with
  | nil => intro i s; rfl
  | cons k ks ih => intro i s; simp only [seedScanner.generateKeysLoop, extendKeys, ih]

theorem seedScanner.generateKeys_keys (s : seedScanner) (n : Nat) :
    (s.generateKeys n).keys = extendKeys (u64add s.numKeys s.minimumIndex) 0
      (Hyperspace.generateKeys s.seed (u64add s.numKeys s.minimumIndex) n) s.keys := by
  simp only [seedScanner.generateKeys]
  rw [seedScanner.generateKeysLoop_keys]

theorem slowSeedScanner.generateKeysLoop_fields (p : Nat) (ks : List UnlockHash) :
    ∀ (i : Nat) (s : slowSeedScanner),
      (slowSeedScanner.generateKeysLoop p i ks s).keys = extendKeys p i ks s.keys ∧
      (slowSeedScanner.generateKeysLoop p i ks s).keysArray = s.keysArray ++ ks ∧
      (slowSeedScanner.generateKeysLoop p i ks s).seed = s.seed := by
  induction ks with
  | nil => intro i s; simp [slowSeedScanner.generateKeysLoop, extendKeys]
  | cons k ks ih =>
    intro i s
    obtain ⟨h1, h2, h3⟩ := ih (i + 1)
      { s with keys := s.keys.insert k (u64add p i), keysArray := s.keysArray ++ [k] }
    simp only [slowSeedScanner.generateKeysLoop, extendKeys]
    refine ⟨h1, ?_, h3⟩
    rw [h2]
    simp

/-- In lock-step and without collision, the list has no duplicate and the map
has as many keys as the list has places. -/
theorem KeysInLockstep.nodup_card {seed : Seed} {min : Nat} {keys : KeyMap}
    {arr : List UnlockHash} (h : KeysInLockstep seed min keys arr)
    (hinj : seed.CollisionFreeBelow (min + arr.length)) :
    arr.Nodup ∧ keys.keys.card = arr.length := by
  obtain ⟨h1, h2, h3⟩ := h
  have hnd : arr.Nodup := by
    rw [List.nodup_iff_getElem?_ne_getElem?]
    intro i j hij hj heq
    have hi : i < arr.length := Nat.lt_trans hij hj
    have ei := h1 i arr[i] (List.getElem?_eq_getElem hi)
    have ej := h1 j arr[j] (List.getElem?_eq_getElem hj)
    rw [List.getElem?_eq_getElem hi, List.getElem?_eq_getElem hj] at heq
    have hab : arr[i] = arr[j] := Option.some.inj heq
    rw [ei, ej] at hab
    have := hinj _ _ (by omega) (by omega) hab
    omega
  refine ⟨hnd, ?_⟩
  have hset : keys.keys = arr.toFinset := by
    ext a
    rw [Finmap.mem_keys, List.mem_toFinset]
    constructor
    · exact h3 a
    · intro ha
      obtain ⟨j, hj⟩ := List.mem_iff_getElem?.mp ha
      exact Finmap.mem_of_lookup_eq_some (h2 j a hj)
  rw [hset, List.toFinset_card_of_nodup hnd]

/-- One `generateKeys` call keeps the lock-step: the loop is run on the `n`
addresses derived from `start`, where `start + j` is the position
`minimumIndex + len + j`. -/
theorem KeysInLockstep.extend {seed : Seed} {min : Nat} {keys : KeyMap}
    {arr : List UnlockHash} (h : KeysInLockstep seed min keys arr) (start n : Nat)
    (hstart : ∀ j, j < n → u64add start j = min + arr.length + j)
    (hinj : seed.CollisionFreeBelow (min + arr.length + n)) :
    KeysInLockstep seed min (extendKeys start 0 (generateKeys seed start n) keys)
      (arr ++ generateKeys seed start n) := by
  obtain ⟨h1, h2, h3⟩ := h
  have hks : ∀ j a, (generateKeys seed start n)[j]? = some a →
      j < n ∧ a = seed.addr (min + arr.length + j) := by
    intro j a hja
    obtain ⟨hj, ha⟩ := generateKeys_getElem?_eq_some _ _ _ _ _ hja
    rw [hstart j hj] at ha
    exact ⟨hj, ha⟩
  have hnd : (generateKeys seed start n).Nodup := by
    rw [List.nodup_iff_getElem?_ne_getElem?]
    intro i j hij hj heq
    rw [generateKeys_length] at hj
    rw [generateKeys_getElem? _ _ _ _ (Nat.lt_trans hij hj), generateKeys_getElem? _ _ _ _ hj,
      hstart i (Nat.lt_trans hij hj), hstart j hj] at heq
    have := hinj _ _ (by omega) (by omega) (Option.some.inj heq)
    omega
  have hdisj : ∀ a, a ∈ arr → a ∉ generateKeys seed start n := by
    intro a ha hk
    obtain ⟨j1, hj1⟩ := List.mem_iff_getElem?.mp ha
    obtain ⟨j2, hj2⟩ := List.mem_iff_getElem?.mp hk
    have hlt : j1 < arr.length := (List.getElem?_eq_some.mp hj1).1
    have e1 := h1 j1 a hj1
    obtain ⟨hj2n, e2⟩ := hks j2 a hj2
    rw [e1] at e2
    have := hinj _ _ (by omega) (by omega) e2
    omega
  refine ⟨?_, ?_, ?_⟩
  · intro j a hja
    by_cases hj : j < arr.length
    · rw [List.getElem?_append_left hj] at hja
      exact h1 j a hja
    · rw [List.getElem?_append_right (Nat.le_of_not_lt hj)] at hja
      obtain ⟨_, ha⟩ := hks _ a hja
      rw [ha]
      congr 1
      omega
  · intro j a hja
    by_cases hj : j < arr.length
    · rw [List.getElem?_append_left hj] at hja
      rw [extendKeys_lookup_of_not_mem _ _ _ _ _
        (hdisj a (List.mem_iff_getElem?.mpr ⟨j, hja⟩))]
      exact h2 j a hja
    · rw [List.getElem?_append_right (Nat.le_of_not_lt hj)] at hja
      obtain ⟨hjn, _⟩ := hks _ a hja
      rw [extendKeys_lookup_get _ _ _ _ hnd _ a hja, Nat.zero_add, hstart _ hjn]
      congr 1
      omega
  · intro a ha
    rcases (extendKeys_mem_iff _ _ _ _ _).mp ha with ha | ha
    · exact List.mem_append_left _ (h3 a ha)
    · exact List.mem_append_right _ ha

theorem Seed.CollisionFreeBelow.mono {seed : Seed} {N M : Nat}
    (h : seed.CollisionFreeBelow N) (hMN : M ≤ N) : seed.CollisionFreeBelow M :=
  fun i j hi hj => h i j (Nat.lt_of_lt_of_le hi hMN) (Nat.lt_of_lt_of_le hj hMN)

/-- The fast `generateKeys(n)` keeps the lock-step when the positions stay
below `2 ^ 64` and are collision-free. -/
theorem seedScanner.generateKeys_lockstep (s : seedScanner) (n : Nat)
    (h : KeysInLockstep s.seed s.minimumIndex s.keys s.keysArray)
    (hbound : s.minimumIndex + (s.keysArray.length + n) ≤ uint64Size)
    (hinj : s.seed.CollisionFreeBelow (s.minimumIndex + (s.keysArray.length + n))) :
    KeysInLockstep s.seed s.minimumIndex (s.generateKeys n).keys (s.generateKeys n).keysArray := by
  have hcard := (h.nodup_card (hinj.mono (by omega))).2
  rw [seedScanner.generateKeys_keys, seedScanner.generateKeys_keysArray]
  apply h.extend
  · intro j hj
    have hc : s.numKeys = s.keysArray.length := hcard
    rw [hc]
    unfold u64add uint64Size at *
    omega
  · exact hinj.mono (by omega)

/-! ### Frame of the legacy scanner's loops -/

namespace slowSeedScanner

theorem adjustStep_eq (s : slowSeedScanner) (d : SiacoinOutputDiff) :
    s.adjustStep d = { s with maximumExternalIndex := (s.adjustStep d).maximumExternalIndex } := by
  unfold adjustStep
  split
  · split_ifs <;> rfl
  · rfl

theorem adjustMinimumIndex_eq (ds : List SiacoinOutputDiff) :
    ∀ s : slowSeedScanner, s.adjustMinimumIndex ds =
      { s with maximumExternalIndex := (s.adjustMinimumIndex ds).maximumExternalIndex } := by
  unfold adjustMinimumIndex
  induction ds with
  | nil => intro s; rfl
  | cons d ds ih =>
    intro s
    rw [List.foldl_cons]
    have h1 := ih (s.adjustStep d)
    have h2 := adjustStep_eq s d
    generalize s.adjustStep d = t at h1 h2
    rw [h1, h2]

theorem applyDiff_eq (s : slowSeedScanner) (d : SiacoinOutputDiff) :
    s.applyDiff d = { s with
      siacoinOutputs := ledgerRule s.keys s.dustThreshold s.siacoinOutputs d } := by
  unfold applyDiff ledgerRule
  cases hdir : d.Direction <;> cases hk : s.keys.lookup d.SiacoinOutput.UnlockHash <;>
    simp [hdir, hk]
  split_ifs <;> rfl

theorem foldl_applyDiff_eq (ds : List SiacoinOutputDiff) :
    ∀ s : slowSeedScanner, ds.foldl applyDiff s = { s with
      siacoinOutputs := ds.foldl (ledgerRule s.keys s.dustThreshold) s.siacoinOutputs } := by
  induction ds with
  | nil => intro s; rfl
  | cons d ds ih =>
    intro s
    rw [List.foldl_cons, List.foldl_cons, ih, applyDiff_eq]

/-- What the loop over the applied headers can have changed when it returns
normally or through the height cutoff. -/
theorem appliedLoop_frame (fetch : DiffFetcher) (hs : List ProcessedBlockHeader) :
    ∀ (s : slowSeedScanner) (acc : List SiacoinOutputDiff),
      (∀ t, appliedLoop fetch hs s acc = .cancelled t →
        t = { s with maximumExternalIndex := t.maximumExternalIndex, cancel := .closed }) ∧
      (∀ t ds, appliedLoop fetch hs s acc = .finished t ds →
        t = { s with maximumExternalIndex := t.maximumExternalIndex }) := by
  induction hs with
  | nil =>
    intro s acc
    refine ⟨fun t h => ?_, fun t ds h => ?_⟩
    · simp [appliedLoop] at h
    · simp only [appliedLoop, AppliedOutcome.finished.injEq] at h
      rw [← h.1]
  | cons pbh rest ih =>
    intro s acc
    simp only [appliedLoop]
    split_ifs with hair hmatch
    · refine ⟨fun t h => ?_, fun t ds h => ?_⟩
      · split at h
        · simp only [AppliedOutcome.cancelled.injEq] at h
          rw [← h]
        · cases h
      · split at h <;> cases h
    · cases hf : fetch pbh.BlockHeader.ID DiffApply with
      | none => exact ⟨fun t h => (by cases h), fun t ds h => (by cases h)⟩
      | some bd =>
        simp only []
        obtain ⟨i1, i2⟩ := ih (s.adjustMinimumIndex bd) (acc ++ bd)
        have ha := adjustMinimumIndex_eq bd s
        refine ⟨fun t h => ?_, fun t ds h => ?_⟩
        · have := i1 t h
          rw [this, ha]
        · have := i2 t ds h
          rw [this, ha]
    · exact ih s acc

theorem revertedLoop_frame (fetch : DiffFetcher) (hs : List ProcessedBlockHeader) :
    ∀ (s : slowSeedScanner) (acc : List SiacoinOutputDiff) (t : slowSeedScanner)
      (ds : List SiacoinOutputDiff), revertedLoop fetch hs s acc = some (t, ds) →
        t = { s with maximumExternalIndex := t.maximumExternalIndex } := by
  induction hs with
  | nil =>
    intro s acc t ds h
    simp only [revertedLoop, Option.some.injEq, Prod.mk.injEq] at h
    rw [← h.1]
  | cons pbh rest ih =>
    intro s acc t ds h
    simp only [revertedLoop] at h
    split_ifs at h with hmatch
    · cases hf : fetch pbh.BlockHeader.ID DiffRevert with
      | none => rw [hf] at h; cases h
      | some bd =>
        rw [hf] at h
        simp only [] at h
        have := ih _ _ t ds h
        have ha := adjustMinimumIndex_eq bd s
        rw [this, ha]
    · exact ih s acc t ds h

/-- A processed batch leaves the key map, the address list and the seed of
the legacy scanner as they were. -/
theorem ProcessHeaderConsensusChange_keys (s s' : slowSeedScanner)
    (hcc : HeaderConsensusChange) (fetch : DiffFetcher)
    (h : s.ProcessHeaderConsensusChange hcc fetch = some s') :
    s'.keys = s.keys ∧ s'.keysArray = s.keysArray ∧ s'.seed = s.seed := by
  unfold ProcessHeaderConsensusChange at h
  obtain ⟨i1, i2⟩ := appliedLoop_frame fetch hcc.AppliedBlockHeaders s
    hcc.MaturedSiacoinOutputDiffs
  cases ha : appliedLoop fetch hcc.AppliedBlockHeaders s hcc.MaturedSiacoinOutputDiffs with
  | panicked => rw [ha] at h; cases h
  | cancelled t =>
    rw [ha] at h
    simp only [Option.some.injEq] at h
    have := i1 t ha
    rw [← h, this]
    exact ⟨rfl, rfl, rfl⟩
  | finished t applied =>
    rw [ha] at h
    simp only [] at h
    have ht := i2 t applied ha
    cases hr : revertedLoop fetch hcc.RevertedBlockHeaders t applied with
    | none => rw [hr] at h; cases h
    | some p =>
      obtain ⟨t2, ds⟩ := p
      rw [hr] at h
      simp only [Option.some.injEq] at h
      have ht2 := revertedLoop_frame fetch _ t applied t2 ds hr
      rw [foldl_applyDiff_eq] at h
      rw [← h]
      simp only []
      rw [ht2, ht]
      exact ⟨rfl, rfl, rfl⟩

theorem generateKeys_fields (s : slowSeedScanner) (n : Nat) :
    (s.generateKeys n).keys =
        extendKeys s.numKeys 0 (Hyperspace.generateKeys s.seed s.numKeys n) s.keys ∧
      (s.generateKeys n).keysArray =
        s.keysArray ++ Hyperspace.generateKeys s.seed s.numKeys n ∧
      (s.generateKeys n).seed = s.seed := by
  simp only [generateKeys]
  exact generateKeysLoop_fields _ _ 0 s

end slowSeedScanner

/-- What a processed batch can have done to the key window of the fast
scanner: nothing, or one `generateKeys` call. -/
theorem seedScanner.ProcessHeaderConsensusChange_window (s s' : seedScanner)
    (hcc : HeaderConsensusChange) (fetch : DiffFetcher)
    (h : s.ProcessHeaderConsensusChange hcc fetch = some s') :
    ∃ s2 : seedScanner, s2.keys = s.keys ∧ s2.keysArray = s.keysArray ∧
      s2.minimumIndex = s.minimumIndex ∧ s2.seed = s.seed ∧
      (s' = s2 ∨ ∃ m, s' = s2.generateKeys m) := by
  cases hc : s.collectDiffs hcc fetch with
  | none =>
    unfold seedScanner.ProcessHeaderConsensusChange at h
    rw [hc] at h
    cases h
  | some diffs =>
    have hs' := seedScanner.ProcessHeaderConsensusChange_eq_some s s' hcc fetch diffs hc h
    obtain ⟨f1, _, f3, f4, _, f6, _⟩ := seedScanner.usageUpdated_frame s diffs
    refine ⟨usageUpdated s diffs, f1, f3, f4, f6, ?_⟩
    rw [hs']
    unfold growWindowed
    split_ifs
    · exact Or.inr ⟨_, rfl⟩
    · exact Or.inl rfl

theorem keysInLockstep_empty (seed : Seed) (min : Nat) : KeysInLockstep seed min ∅ [] := by
  refine ⟨fun j a h => ?_, fun j a h => ?_, fun a h => ?_⟩
  · simp at h
  · simp at h
  · exact absurd h (Finmap.not_mem_empty)

/-- Reached states of the fast scanner keep the seed and, as long as the
positions stay below `2 ^ 64` and collision-free, keep `keys` and `keysArray`
in lock-step with the offset `minimumIndex`. -/
theorem seedScanner.Reachable.fast_lockstep {seed : Seed} {g : Nat} {s : seedScanner}
    (hr : seedScanner.Reachable seed g s) :
    s.seed = seed ∧
      (s.minimumIndex + s.keysArray.length ≤ uint64Size →
        seed.CollisionFreeBelow (s.minimumIndex + s.keysArray.length) →
        KeysInLockstep seed s.minimumIndex s.keys s.keysArray) := by
  have step : ∀ (s2 : seedScanner) (n : Nat), s2.seed = seed →
      (s2.minimumIndex + s2.keysArray.length ≤ uint64Size →
        seed.CollisionFreeBelow (s2.minimumIndex + s2.keysArray.length) →
        KeysInLockstep seed s2.minimumIndex s2.keys s2.keysArray) →
      (s2.generateKeys n).minimumIndex + (s2.generateKeys n).keysArray.length ≤ uint64Size →
      seed.CollisionFreeBelow
        ((s2.generateKeys n).minimumIndex + (s2.generateKeys n).keysArray.length) →
      KeysInLockstep seed (s2.generateKeys n).minimumIndex (s2.generateKeys n).keys
        (s2.generateKeys n).keysArray := by
    intro s2 n hseed hl hb hinj
    have hlen : (s2.generateKeys n).keysArray.length = s2.keysArray.length + n := by
      rw [seedScanner.generateKeys_keysArray, List.length_append, generateKeys_length]
    rw [hlen, seedScanner.generateKeys_minimumIndex] at hb hinj
    have h0 := hl (by omega) (hinj.mono (by omega))
    have := seedScanner.generateKeys_lockstep s2 n (by rw [hseed]; exact h0) hb
      (by rw [hseed]; exact hinj)
    rw [hseed] at this
    rw [seedScanner.generateKeys_minimumIndex]
    exact this
  induction hr with
  | new => exact ⟨rfl, fun _ _ => keysInLockstep_empty seed 0⟩
  | seeded X L => exact ⟨rfl, fun _ _ => keysInLockstep_empty seed X⟩
  | generateKeys n _ ih =>
    obtain ⟨hseed, hl⟩ := ih
    exact ⟨by rw [seedScanner.generateKeys_seed, hseed], step _ n hseed hl⟩
  | batch hcc fetch _ hp ih =>
    obtain ⟨hseed, hl⟩ := ih
    obtain ⟨s2, k1, k2, k3, k4, hcase⟩ :=
      seedScanner.ProcessHeaderConsensusChange_window _ _ hcc fetch hp
    have hl2 : s2.minimumIndex + s2.keysArray.length ≤ uint64Size →
        seed.CollisionFreeBelow (s2.minimumIndex + s2.keysArray.length) →
        KeysInLockstep seed s2.minimumIndex s2.keys s2.keysArray := by
      rw [k1, k2, k3]; exact hl
    rcases hcase with rfl | ⟨m, rfl⟩
    · exact ⟨k4.trans hseed, hl2⟩
    · exact ⟨by rw [seedScanner.generateKeys_seed, k4, hseed], step s2 m (k4.trans hseed) hl2⟩

/-- Reached states of the legacy scanner keep the seed and, as long as the
positions stay below `2 ^ 64` and collision-free, keep `keys` and `keysArray`
in lock-step (with offset `0`). -/
theorem slowSeedScanner.Reachable.slow_lockstep {seed : Seed} {g : Nat} {s : slowSeedScanner}
    (hr : slowSeedScanner.Reachable seed g s) :
    s.seed = seed ∧
      (s.keysArray.length ≤ uint64Size → seed.CollisionFreeBelow s.keysArray.length →
        KeysInLockstep seed 0 s.keys s.keysArray) := by
  induction hr with
  | new => exact ⟨rfl, fun _ _ => keysInLockstep_empty seed 0⟩
  | @generateKeys s n _ ih =>
    obtain ⟨hseed, hl⟩ := ih
    obtain ⟨g1, g2, g3⟩ := slowSeedScanner.generateKeys_fields s n
    refine ⟨g3.trans hseed, ?_⟩
    intro hb hinj
    rw [g2, List.length_append, generateKeys_length] at hb hinj
    have h0 := hl (by omega) (hinj.mono (by omega))
    have hcard : s.numKeys = s.keysArray.length :=
      (h0.nodup_card (by rw [Nat.zero_add]; exact hinj.mono (by omega))).2
    rw [g1, g2, hseed, hcard]
    apply h0.extend
    · intro j hj
      unfold u64add uint64Size at *
      omega
    · rw [Nat.zero_add]; exact hinj
  | makeCancel _ ih => exact ih
  | batch hcc fetch _ hp ih =>
    obtain ⟨hseed, hl⟩ := ih
    obtain ⟨k1, k2, k3⟩ := slowSeedScanner.ProcessHeaderConsensusChange_keys _ _ hcc fetch hp
    refine ⟨k3.trans hseed, ?_⟩
    rw [k1, k2]
    exact hl

/-- C7: in every state reached from a newly constructed fast scanner (also
when seeded with a `minimumIndex` as `slowSeedScanner.scan` does), and in every
state reached from a newly constructed legacy scanner, by any sequence of
`generateKeys` calls and processed batches, as long as the derived positions
stay below `2 ^ 64` and the derivation has no collision among them:
`keysArray` has no duplicate, its members are exactly the keys of the key map,
and the address at place `j` of `keysArray` is mapped by `keys` to
`minimumIndex + j` (to `j` for the legacy scanner); the key map has as many
keys as `keysArray` has places. -/
theorem keys_and_keysArray_in_bijection (seed : Seed) (g : Nat) :
    (∀ s : seedScanner, seedScanner.Reachable seed g s →
      s.minimumIndex + s.keysArray.length ≤ uint64Size →
      seed.CollisionFreeBelow (s.minimumIndex + s.keysArray.length) →
      s.keysArray.Nodup ∧ (∀ a, a ∈ s.keysArray ↔ a ∈ s.keys) ∧
      (∀ j a, s.keysArray[j]? = some a → s.keys.lookup a = some (s.minimumIndex + j)) ∧
      s.numKeys = s.keysArray.length) ∧
    (∀ s : slowSeedScanner, slowSeedScanner.Reachable seed g s →
      s.keysArray.length ≤ uint64Size → seed.CollisionFreeBelow s.keysArray.length →
      s.keysArray.Nodup ∧ (∀ a, a ∈ s.keysArray ↔ a ∈ s.keys) ∧
      (∀ j a, s.keysArray[j]? = some a → s.keys.lookup a = some j) ∧
      s.numKeys = s.keysArray.length) := by
  constructor
  · intro s hr hb hinj
    obtain ⟨_, hl⟩ := hr.fast_lockstep
    have h := hl hb hinj
    obtain ⟨hnd, hcard⟩ := h.nodup_card hinj
    refine ⟨hnd, fun a => ⟨fun ha => ?_, h.2.2 a⟩, h.2.1, hcard⟩
    obtain ⟨j, hj⟩ := List.mem_iff_getElem?.mp ha
    exact Finmap.mem_of_lookup_eq_some (h.2.1 j a hj)
  · intro s hr hb hinj
    obtain ⟨_, hl⟩ := hr.slow_lockstep
    have h := hl hb hinj
    obtain ⟨hnd, hcard⟩ := h.nodup_card (by rw [Nat.zero_add]; exact hinj)
    refine ⟨hnd, fun a => ⟨fun ha => ?_, h.2.2 a⟩, ?_, hcard⟩
    · obtain ⟨j, hj⟩ := List.mem_iff_getElem?.mp ha
      exact Finmap.mem_of_lookup_eq_some (h.2.1 j a hj)
    · intro j a hj
      have := h.2.1 j a hj
      rwa [Nat.zero_add] at this

/-- The window after a batch: when the internal index (untouched by the two
loops) differs from the external index after the usage update, it ends at the
external index plus the gap limit, modulo `2 ^ 64`. -/
theorem gap_arith (s : seedScanner) (diffs : List SiacoinOutputDiff) :
    s.maximumInternalIndex < uint64Size →
    (growWindowed s diffs).maximumExternalIndex < uint64Size →
    s.maximumInternalIndex ≠ (growWindowed s diffs).maximumExternalIndex →
    (growWindowed s diffs).maximumInternalIndex =
      ((growWindowed s diffs).maximumExternalIndex + s.addressGapLimit) % uint64Size := by
  intro hint hext hne
  rw [seedScanner.growWindowed_maximumExternalIndex] at hext hne ⊢
  obtain ⟨_, _, _, _, _, f6, _, f8⟩ :=
    seedScanner.foldl_markUsed_frame diffs (diffs.foldl seedScanner.applyDiff s)
  obtain ⟨_, _, e3, _, _, e6⟩ := seedScanner.foldl_applyDiff_frame diffs s
  unfold growWindowed usageUpdated seedScanner.toGrow
  generalize diffs.foldl seedScanner.markUsed (diffs.foldl seedScanner.applyDiff s) = s2
    at hext hne f6 f8 ⊢
  have hint2 : s2.maximumInternalIndex = s.maximumInternalIndex := f6.trans e3
  have hg2 : s2.addressGapLimit = s.addressGapLimit := f8.trans e6
  obtain ⟨hpos, hsum⟩ := u64_gap_restored s.maximumInternalIndex s2.maximumExternalIndex
    s.addressGapLimit hint hext hne
  simp only [hint2, hg2]
  rw [if_pos hpos, seedScanner.generateKeys_maximumInternalIndex, hint2, hsum]

theorem sampleSeed_collisionFree (N : Nat) : sampleSeed.CollisionFreeBelow N := by
  intro i j _ _ h
  have h' : 1000 + i = 1000 + j := h
  omega

/-- Instance of `keys_and_keysArray_in_bijection`: the fast scanner and the
legacy scanner after three derived keys. -/
theorem keys_and_keysArray_in_bijection_witness :
    seedScanner.Reachable sampleSeed 3 warmScanner ∧
      slowSeedScanner.Reachable sampleSeed 3 warmSlowScanner ∧
      warmScanner.keysArray = [1000, 1001, 1002] ∧
      warmSlowScanner.keysArray = [1000, 1001, 1002] ∧
      (warmScanner.keysArray.Nodup ∧ (∀ a, a ∈ warmScanner.keysArray ↔ a ∈ warmScanner.keys) ∧
        (∀ j a, warmScanner.keysArray[j]? = some a →
          warmScanner.keys.lookup a = some (warmScanner.minimumIndex + j)) ∧
        warmScanner.numKeys = warmScanner.keysArray.length) ∧
      (warmSlowScanner.keysArray.Nodup ∧
        (∀ a, a ∈ warmSlowScanner.keysArray ↔ a ∈ warmSlowScanner.keys) ∧
        (∀ j a, warmSlowScanner.keysArray[j]? = some a →
          warmSlowScanner.keys.lookup a = some j) ∧
        warmSlowScanner.numKeys = warmSlowScanner.keysArray.length) := by
  have hf : seedScanner.Reachable sampleSeed 3 warmScanner :=
    seedScanner.Reachable.generateKeys 3 seedScanner.Reachable.new
  have hs : slowSeedScanner.Reachable sampleSeed 3 warmSlowScanner :=
    slowSeedScanner.Reachable.makeCancel
      (slowSeedScanner.Reachable.generateKeys 3 slowSeedScanner.Reachable.new)
  exact ⟨hf, hs, by decide, by decide,
    (keys_and_keysArray_in_bijection sampleSeed 3).1 warmScanner hf (by decide)
      (sampleSeed_collisionFree _),
    (keys_and_keysArray_in_bijection sampleSeed 3).2 warmSlowScanner hs (by decide)
      (sampleSeed_collisionFree _)⟩

/-! ### Scenario A -/

theorem lookup_singleton_ledger (id k : SiacoinOutputID) (e : scannedOutput) :
    (Finmap.singleton id e : Ledger).lookup k = if k = id then some e else none := by
  split_ifs with h
  · rw [h]; exact Finmap.lookup_singleton_eq
  · exact Finmap.lookup_eq_none.mpr (fun hm => h ((Finmap.mem_singleton _ _ _).mp hm))

theorem insert_empty_ledger (id : SiacoinOutputID) (e : scannedOutput) :
    (Finmap.insert id e (∅ : Ledger)) = Finmap.singleton id e := by
  apply Finmap.ext_lookup
  intro k
  rw [lookup_singleton_ledger]
  split_ifs with h
  · rw [h]; exact Finmap.lookup_insert _
  · rw [Finmap.lookup_insert_of_ne _ h]; exact Finmap.lookup_empty _

/-- The scanner after the warm-up: its fields, and the index of the address
derived at a position of the window. -/
theorem warmedUp_fields (seed : Seed) (g : Nat) (d : Currency) (hg : g ≤ uint64Size)
    (hinj : seed.CollisionFreeBelow g) :
    (warmedUp seed g d).dustThreshold = d ∧
    (warmedUp seed g d).keysArray = generateKeys seed 0 g ∧
    (warmedUp seed g d).minimumIndex = 0 ∧
    (warmedUp seed g d).maximumInternalIndex = g % uint64Size ∧
    (warmedUp seed g d).maximumExternalIndex = 0 ∧
    (warmedUp seed g d).addressGapLimit = g ∧
    (warmedUp seed g d).siacoinOutputs = ∅ ∧
    (∀ i, i < g → (warmedUp seed g d).keys.lookup (seed.addr i) = some i) := by
  have hka : (warmedUp seed g d).keysArray = generateKeys seed 0 g := by
    unfold warmedUp
    rw [seedScanner.generateKeys_keysArray]
    rfl
  refine ⟨by simp [warmedUp, seedScanner.setDustThreshold], hka, by simp [warmedUp]; rfl,
    ?_, by simp [warmedUp]; rfl, by simp [warmedUp]; rfl, by simp [warmedUp]; rfl, ?_⟩
  · unfold warmedUp
    rw [seedScanner.generateKeys_maximumInternalIndex]
    simp [u64add, seedScanner.setDustThreshold, newFastSeedScanner]
  · intro i hi
    have hl := seedScanner.generateKeys_lockstep
      ((newFastSeedScanner seed g).setDustThreshold d) g (keysInLockstep_empty seed 0)
      (by simpa [seedScanner.setDustThreshold, newFastSeedScanner] using hg)
      (by simpa [seedScanner.setDustThreshold, newFastSeedScanner] using hinj)
    have hget : (warmedUp seed g d).keysArray[i]? = some (seed.addr i) := by
      rw [hka, generateKeys_getElem? _ _ _ _ hi]
      congr 2
      unfold u64add uint64Size at *
      omega
    have := hl.2.1 i (seed.addr i) hget
    simpa [seedScanner.setDustThreshold, newFastSeedScanner] using this

/-- C8 (Scenario A): a scanner built by `newFastSeedScanner` with gap limit
`g > 0` and dust threshold `d`, after the warm-up `generateKeys(g)`, processes
one batch holding a single applied header whose filter matches and whose
fetched diffs are a single `Apply` diff of value `v > d` to the address
derived at index `i < g`. The call returns; the ledger has exactly one entry,
for that output, with `seedIndex = i` and `value = v`; `maximumExternalIndex
= i`; `maximumInternalIndex = i + g`, hence at least `i + g`. The index
arithmetic is assumed to stay below `2 ^ 64` and the derivation to have no
collision among the `g` positions of the window; `g > 0` follows from
`i < g`. -/
theorem scenario_A (seed : Seed) (g i : Nat) (d v : Currency) (id : SiacoinOutputID)
    (B : ProcessedBlockHeader) (fetch : DiffFetcher)
    (hi : i < g) (hv : d < v) (hrange : i + g < uint64Size)
    (hinj : seed.CollisionFreeBelow g)
    (hmatch : B.GCSFilter.MatchUnlockHash B.BlockHeader.ID (warmedUp seed g d).keysArray = true)
    (hfetch : fetch B.BlockHeader.ID DiffApply =
      some [{ Direction := DiffApply, ID := id,
              SiacoinOutput := { Value := v, UnlockHash := seed.addr i } }]) :
    ∃ s', (warmedUp seed g d).ProcessHeaderConsensusChange (singleApplied B) fetch = some s' ∧
      s'.siacoinOutputs = Finmap.singleton id { id := id, value := v, seedIndex := i } ∧
      s'.siacoinOutputs.keys.card = 1 ∧
      s'.maximumExternalIndex = i ∧
      s'.maximumInternalIndex = i + g ∧
      s'.maximumInternalIndex ≥ i + g := by
  obtain ⟨w1, _, _, w4, w5, w6, w7, w8⟩ :=
    warmedUp_fields seed g d (by unfold uint64Size at *; omega) hinj
  have hcollect : (warmedUp seed g d).collectDiffs (singleApplied B) fetch =
      some [{ Direction := DiffApply, ID := id,
              SiacoinOutput := { Value := v, UnlockHash := seed.addr i } }] := by
    simp [seedScanner.collectDiffs, seedScanner.fetchMatched, singleApplied, hmatch, hfetch]
  have hledger : (growWindowed (warmedUp seed g d)
      [{ Direction := DiffApply, ID := id,
         SiacoinOutput := { Value := v, UnlockHash := seed.addr i } }]).siacoinOutputs =
      Finmap.singleton id { id := id, value := v, seedIndex := i } := by
    rw [seedScanner.growWindowed_siacoinOutputs, w1, w7, List.foldl_cons, List.foldl_nil]
    simp only [ledgerRule, w8 i hi, if_pos hv]
    exact insert_empty_ledger _ _
  have hext : (growWindowed (warmedUp seed g d)
      [{ Direction := DiffApply, ID := id,
         SiacoinOutput := { Value := v, UnlockHash := seed.addr i } }]).maximumExternalIndex =
      i := by
    rw [seedScanner.growWindowed_maximumExternalIndex, List.foldl_cons, List.foldl_nil]
    have hk := (seedScanner.foldl_applyDiff_keys
      [{ Direction := DiffApply, ID := id,
         SiacoinOutput := { Value := v, UnlockHash := seed.addr i } }] (warmedUp seed g d))
    have hm := (seedScanner.foldl_applyDiff_frame
      [{ Direction := DiffApply, ID := id,
         SiacoinOutput := { Value := v, UnlockHash := seed.addr i } }]
      (warmedUp seed g d)).2.2.2.1
    rw [seedScanner.markUsed_of_some _ _ i (by rw [hk]; exact w8 i hi), hm, w5]
    exact Nat.zero_max _
  have hint : (growWindowed (warmedUp seed g d)
      [{ Direction := DiffApply, ID := id,
         SiacoinOutput := { Value := v, UnlockHash := seed.addr i } }]).maximumInternalIndex =
      i + g := by
    have h3 := gap_arith (warmedUp seed g d)
      [{ Direction := DiffApply, ID := id,
         SiacoinOutput := { Value := v, UnlockHash := seed.addr i } }]
    rw [hext, w4, w6] at h3
    have hgm : g % uint64Size = g := Nat.mod_eq_of_lt (by omega)
    rw [hgm] at h3
    rw [h3 (by omega) (by omega) (by omega)]
    exact Nat.mod_eq_of_lt hrange
  have hfit : (usageUpdated (warmedUp seed g d)
      [{ Direction := DiffApply, ID := id,
         SiacoinOutput := { Value := v, UnlockHash := seed.addr i } }]).toGrow ≤ maxSliceLen := by
    obtain ⟨_, _, _, _, u5, _, u7⟩ := seedScanner.usageUpdated_frame (warmedUp seed g d)
      [{ Direction := DiffApply, ID := id,
         SiacoinOutput := { Value := v, UnlockHash := seed.addr i } }]
    have u6 : (usageUpdated (warmedUp seed g d)
        [{ Direction := DiffApply, ID := id,
           SiacoinOutput := { Value := v, UnlockHash := seed.addr i } }]).maximumExternalIndex =
        i :=
      (seedScanner.growWindowed_maximumExternalIndex _ _).symm.trans hext
    unfold seedScanner.toGrow
    rw [u5, u6, u7, w4, w6]
    unfold u64sub maxSliceLen uint64Size at *
    omega
  refine ⟨_, seedScanner.ProcessHeaderConsensusChange_eq_of_collectDiffs _ _ _ _ hcollect
    (Or.inr hfit), hledger, ?_, hext, hint, Nat.le_of_eq hint.symm⟩
  rw [hledger, Finmap.keys_singleton]
  rfl

/-- Scenario A itself, as an instance of `scenario_A`: gap limit 20, dust
threshold 0, one applied block with an output of value 100 for the address
derived at index 5. -/
theorem scenario_A_witness :
    (5 < 20 ∧ (0 : Currency) < 100 ∧ 5 + 20 < uint64Size ∧ sampleSeed.CollisionFreeBelow 20) ∧
      ∃ s', (warmedUp sampleSeed 20 0).ProcessHeaderConsensusChange
          (singleApplied (sampleHeader 1 1)) (fetchConst [applyOf 7 100 1005]) = some s' ∧
        s'.siacoinOutputs = Finmap.singleton 7 { id := 7, value := 100, seedIndex := 5 } ∧
        s'.siacoinOutputs.keys.card = 1 ∧
        s'.maximumExternalIndex = 5 ∧
        s'.maximumInternalIndex = 5 + 20 ∧
        s'.maximumInternalIndex ≥ 5 + 20 :=
  ⟨⟨by decide, by decide, by decide, sampleSeed_collisionFree 20⟩,
    scenario_A sampleSeed 20 5 0 100 7 (sampleHeader 1 1) (fetchConst [applyOf 7 100 1005])
      (by decide) (by decide) (by decide) (sampleSeed_collisionFree 20) rfl rfl⟩

/-! ### Filter safety -/

theorem seedScanner.fetchMatched_acc_subset (K : List UnlockHash) (fetch : DiffFetcher)
    (dir : DiffDirection) (hs : List ProcessedBlockHeader) :
    ∀ (acc out : List SiacoinOutputDiff),
      seedScanner.fetchMatched K fetch dir hs acc = some out → ∀ d ∈ acc, d ∈ out := by
  induction hs with
  | nil =>
    intro acc out h d hd
    simp only [seedScanner.fetchMatched, Option.some.injEq] at h
    rw [← h]
    exact hd
  | cons pbh rest ih =>
    intro acc out h d hd
    simp only [seedScanner.fetchMatched] at h
    split_ifs at h with hm
    · cases hf : fetch pbh.BlockHeader.ID dir with
      | none => rw [hf] at h; cases h
      | some bd =>
        rw [hf] at h
        exact ih _ out h d (List.mem_append_left _ hd)
    · exact ih acc out h d hd

/-- The diffs fetched for a header whose filter matches are part of the
collected sequence. -/
theorem seedScanner.fetchMatched_mem (K : List UnlockHash) (fetch : DiffFetcher)
    (dir : DiffDirection) (B : ProcessedBlockHeader) (ds : List SiacoinOutputDiff)
    (hmatch : B.GCSFilter.MatchUnlockHash B.BlockHeader.ID K = true)
    (hfetch : fetch B.BlockHeader.ID dir = some ds) (hs : List ProcessedBlockHeader) :
    ∀ (acc out : List SiacoinOutputDiff), B ∈ hs →
      seedScanner.fetchMatched K fetch dir hs acc = some out → ∀ d ∈ ds, d ∈ out := by
  induction hs with
  | nil => intro acc out hB; cases hB
  | cons pbh rest ih =>
    intro acc out hB h d hd
    simp only [seedScanner.fetchMatched] at h
    rcases List.mem_cons.mp hB with heq | hB
    · subst heq
      rw [if_pos hmatch, hfetch] at h
      exact seedScanner.fetchMatched_acc_subset K fetch dir rest _ out h d
        (List.mem_append_right _ hd)
    · split_ifs at h with hm
      · cases hf : fetch pbh.BlockHeader.ID dir with
        | none => rw [hf] at h; cases h
        | some bd =>
          rw [hf] at h
          exact ih _ out hB h d hd
      · exact ih acc out hB h d hd

/-- An entry written for an output id survives a run of the rule in which
every diff naming that id is an `Apply` diff carrying the same output. -/
theorem foldl_ledgerRule_keeps (K : KeyMap) (dust : Currency) (x : SiacoinOutputID)
    (o : SiacoinOutput) (i : Nat) (hk : K.lookup o.UnlockHash = some i) (hv : dust < o.Value)
    (post : List SiacoinOutputDiff) :
    ∀ L : Ledger, L.lookup x = some { id := x, value := o.Value, seedIndex := i } →
      (∀ d' ∈ post, d'.ID = x → d'.Direction = DiffApply ∧ d'.SiacoinOutput = o) →
      (post.foldl (ledgerRule K dust) L).lookup x =
        some { id := x, value := o.Value, seedIndex := i } := by
  induction post with
  | nil => intro L hL _; exact hL
  | cons d' post ih =>
    intro L hL hall
    rw [List.foldl_cons]
    apply ih _ _ (fun e he => hall e (List.mem_cons_of_mem _ he))
    by_cases hx : d'.ID = x
    · obtain ⟨hdir, hout⟩ := hall d' (List.mem_cons_self _ _) hx
      have hr : ledgerRule K dust L d' =
          L.insert x { id := x, value := o.Value, seedIndex := i } := by
        unfold ledgerRule
        rw [hdir, hout, hk, hx]
        simp only [if_pos hv]
      rw [hr]
      exact Finmap.lookup_insert L
    · rw [ledgerRule_lookup_of_ne K dust L d' x hx]
      exact hL

/-- The ledger entry of an applied output at the end of a run of the rule. -/
theorem foldl_ledgerRule_applied (K : KeyMap) (dust : Currency) (L : Ledger)
    (d : SiacoinOutputDiff) (i : Nat) (pre post : List SiacoinOutputDiff)
    (hdir : d.Direction = DiffApply)
    (hk : K.lookup d.SiacoinOutput.UnlockHash = some i)
    (hv : dust < d.SiacoinOutput.Value)
    (hpost : ∀ d' ∈ post, d'.ID = d.ID →
      d'.Direction = DiffApply ∧ d'.SiacoinOutput = d.SiacoinOutput) :
    ((pre ++ d :: post).foldl (ledgerRule K dust) L).lookup d.ID =
      some { id := d.ID, value := d.SiacoinOutput.Value, seedIndex := i } := by
  rw [List.foldl_append, List.foldl_cons]
  apply foldl_ledgerRule_keeps K dust d.ID d.SiacoinOutput i hk hv post _ _ hpost
  generalize List.foldl (ledgerRule K dust) L pre = L1
  have hr : ledgerRule K dust L1 d =
      L1.insert d.ID { id := d.ID, value := d.SiacoinOutput.Value, seedIndex := i } := by
    unfold ledgerRule
    rw [hdir, hk]
    simp only [if_pos hv]
  rw [hr]
  exact Finmap.lookup_insert L1

/-- C9, counterexample: the warm scanner (addresses 1000, 1001, 1002 at the
indices 0, 1, 2, dust threshold 0) receives one applied header whose filter
matches and whose fetched diffs are two `Apply` diffs for output 7 to the
tracked address 1001, of value 100 and then of value 200. The first diff is
followed by no `Revert` diff, yet after the call the ledger holds output 7
with value 200, not 100. -/
theorem reapplied_output_overrides_matched_diff :
    (sampleHeader 1 1).GCSFilter.MatchUnlockHash 1 warmScanner.keysArray = true ∧
    warmScanner.keys.lookup 1001 = some 1 ∧
    warmScanner.dustThreshold < 100 ∧
    warmScanner.collectDiffs oneApplied (fetchConst [applyOf 7 100 1001, applyOf 7 200 1001]) =
      some [applyOf 7 100 1001, applyOf 7 200 1001] ∧
    (∀ d' ∈ [applyOf 7 200 1001], d'.Direction ≠ DiffRevert) ∧
    (warmScanner.ProcessHeaderConsensusChange oneApplied
        (fetchConst [applyOf 7 100 1001, applyOf 7 200 1001])).map
      (fun s' => s'.siacoinOutputs.lookup 7) =
      some (some { id := 7, value := 200, seedIndex := 1 }) ∧
    (warmScanner.ProcessHeaderConsensusChange oneApplied
        (fetchConst [applyOf 7 100 1001, applyOf 7 200 1001])).map
      (fun s' => s'.siacoinOutputs.lookup 7) ≠
      some (some { id := 7, value := 100, seedIndex := 1 }) := by
  refine ⟨by decide, by decide, by decide, by decide, by decide, by decide, by decide⟩

/-- C9, amended: let an applied header `B` of the batch have a filter that
matches `keysArray`, let `fetch(B, Apply)` return the diffs `ds`, and let `d`
be one of them, an `Apply` diff to an address tracked at the start of the call
with index `i` and with a value above the dust threshold; let every fetch of
the batch succeed, the combined sequence being `diffs`. Then `d` is in
`diffs`, and for every place of `d` in `diffs` after which every diff naming
the same output id is an `Apply` diff carrying the same output (so that none
reverts it and none applies it with another value or address), the scanner
the call returns holds in its ledger that output id with the value of `d` and
the index `i`. -/
theorem fast_filter_safety (s : seedScanner) (hcc : HeaderConsensusChange)
    (fetch : DiffFetcher) (B : ProcessedBlockHeader) (ds diffs : List SiacoinOutputDiff)
    (d : SiacoinOutputDiff) (i : Nat)
    (hB : B ∈ hcc.AppliedBlockHeaders)
    (hmatch : B.GCSFilter.MatchUnlockHash B.BlockHeader.ID s.keysArray = true)
    (hfetch : fetch B.BlockHeader.ID DiffApply = some ds)
    (hd : d ∈ ds)
    (hcollect : s.collectDiffs hcc fetch = some diffs)
    (hdir : d.Direction = DiffApply)
    (htracked : s.keys.lookup d.SiacoinOutput.UnlockHash = some i)
    (hval : d.SiacoinOutput.Value > s.dustThreshold) :
    d ∈ diffs ∧
    ∀ pre post, diffs = pre ++ d :: post →
      (∀ d' ∈ post, d'.ID = d.ID →
        d'.Direction = DiffApply ∧ d'.SiacoinOutput = d.SiacoinOutput) →
      ∀ s', s.ProcessHeaderConsensusChange hcc fetch = some s' →
        s'.siacoinOutputs.lookup d.ID =
          some { id := d.ID, value := d.SiacoinOutput.Value, seedIndex := i } := by
  constructor
  · unfold seedScanner.collectDiffs at hcollect
    cases ha : seedScanner.fetchMatched s.keysArray fetch DiffApply hcc.AppliedBlockHeaders
        hcc.MaturedSiacoinOutputDiffs with
    | none => rw [ha] at hcollect; cases hcollect
    | some applied =>
      rw [ha] at hcollect
      apply seedScanner.fetchMatched_acc_subset _ _ _ _ _ _ hcollect
      exact seedScanner.fetchMatched_mem _ _ _ B ds hmatch hfetch _ _ _ hB ha d hd
  · intro pre post hsplit hpost s' hp
    rw [seedScanner.ProcessHeaderConsensusChange_eq_some s s' hcc fetch diffs hcollect hp,
      seedScanner.growWindowed_siacoinOutputs, hsplit]
    exact foldl_ledgerRule_applied _ _ _ d i pre post hdir htracked hval hpost

/-- Instance of `fast_filter_safety`: the warm scanner receives one applied
header with a single `Apply` diff for output 7 to the address of index 1. -/
theorem fast_filter_safety_witness :
    sampleHeader 1 1 ∈ oneApplied.AppliedBlockHeaders ∧
      (sampleHeader 1 1).GCSFilter.MatchUnlockHash 1 warmScanner.keysArray = true ∧
      warmScanner.collectDiffs oneApplied (fetchConst [applyOf 7 100 1001]) =
        some [applyOf 7 100 1001] ∧
      warmScanner.keys.lookup 1001 = some 1 ∧
      (100 : Currency) > warmScanner.dustThreshold ∧
      ∃ s', warmScanner.ProcessHeaderConsensusChange oneApplied
          (fetchConst [applyOf 7 100 1001]) = some s' ∧
        s'.siacoinOutputs.lookup 7 = some { id := 7, value := 100, seedIndex := 1 } :=
  ⟨List.mem_singleton.mpr rfl, by decide, by decide, by decide, by decide,
    growWindowed warmScanner [applyOf 7 100 1001], rfl,
    (fast_filter_safety warmScanner oneApplied (fetchConst [applyOf 7 100 1001])
      (sampleHeader 1 1) [applyOf 7 100 1001] [applyOf 7 100 1001] (applyOf 7 100 1001) 1
      (List.mem_singleton.mpr rfl) (by decide) rfl (by decide) (by decide) rfl (by decide)
      (by decide)).2 [] [] rfl (by decide) _ rfl⟩

/-! ### The legacy scanner on a batch without a header above the cutoff -/

namespace slowSeedScanner

/-- When no applied header exceeds the airdrop height, the loop over the
applied headers collects what `fetchMatched` collects and changes at most
`maximumExternalIndex`. -/
theorem appliedLoop_of_airdrop (fetch : DiffFetcher) (hs : List ProcessedBlockHeader) :
    ∀ (s : slowSeedScanner) (acc out : List SiacoinOutputDiff),
      (∀ pbh ∈ hs, pbh.Height ≤ 7) →
      seedScanner.fetchMatched s.keysArray fetch DiffApply hs acc = some out →
      ∃ m, appliedLoop fetch hs s acc = .finished { s with maximumExternalIndex := m } out := by
  induction hs with
  | nil =>
    intro s acc out _ h
    simp only [seedScanner.fetchMatched, Option.some.injEq] at h
    exact ⟨s.maximumExternalIndex, by rw [← h]; rfl⟩
  | cons pbh rest ih =>
    intro s acc out hair h
    have h7 : isAirdrop pbh.Height = true := by
      simp [isAirdrop, hair pbh (List.mem_cons_self _ _)]
    have hrest : ∀ p ∈ rest, p.Height ≤ 7 := fun p hp => hair p (List.mem_cons_of_mem _ hp)
    simp only [seedScanner.fetchMatched] at h
    simp only [appliedLoop, h7, Bool.not_true, Bool.false_eq_true, if_false]
    split_ifs at h ⊢ with hm
    · cases hf : fetch pbh.BlockHeader.ID DiffApply with
      | none => rw [hf] at h; cases h
      | some bd =>
        rw [hf] at h
        simp only [] at h ⊢
        have ha := adjustMinimumIndex_eq bd s
        obtain ⟨m, hm2⟩ := ih (s.adjustMinimumIndex bd) (acc ++ bd) out hrest
          (by rw [ha]; exact h)
        refine ⟨m, ?_⟩
        rw [hm2, ha]
    · exact ih s acc out hrest h

theorem revertedLoop_of_fetchMatched (fetch : DiffFetcher) (hs : List ProcessedBlockHeader) :
    ∀ (s : slowSeedScanner) (acc out : List SiacoinOutputDiff),
      seedScanner.fetchMatched s.keysArray fetch DiffRevert hs acc = some out →
      ∃ m, revertedLoop fetch hs s acc = some ({ s with maximumExternalIndex := m }, out) := by
  induction hs with
  | nil =>
    intro s acc out h
    simp only [seedScanner.fetchMatched, Option.some.injEq] at h
    exact ⟨s.maximumExternalIndex, by rw [← h]; rfl⟩
  | cons pbh rest ih =>
    intro s acc out h
    simp only [seedScanner.fetchMatched] at h
    simp only [revertedLoop]
    split_ifs at h ⊢ with hm
    · cases hf : fetch pbh.BlockHeader.ID DiffRevert with
      | none => rw [hf] at h; cases h
      | some bd =>
        rw [hf] at h
        simp only [] at h ⊢
        have ha := adjustMinimumIndex_eq bd s
        obtain ⟨m, hm2⟩ := ih (s.adjustMinimumIndex bd) (acc ++ bd) out (by rw [ha]; exact h)
        refine ⟨m, ?_⟩
        rw [hm2, ha]
    · exact ih s acc out h

/-- On a batch without a header above the cutoff and whose fetches succeed,
the legacy scanner returns, and its ledger is the fold of the ledger rule over
the combined diff sequence. -/
theorem ProcessHeaderConsensusChange_of_airdrop (s : slowSeedScanner)
    (hcc : HeaderConsensusChange) (fetch : DiffFetcher)
    (applied diffs : List SiacoinOutputDiff)
    (hair : ∀ pbh ∈ hcc.AppliedBlockHeaders, pbh.Height ≤ 7)
    (h1 : seedScanner.fetchMatched s.keysArray fetch DiffApply hcc.AppliedBlockHeaders
      hcc.MaturedSiacoinOutputDiffs = some applied)
    (h2 : seedScanner.fetchMatched s.keysArray fetch DiffRevert hcc.RevertedBlockHeaders
      applied = some diffs) :
    ∃ s', s.ProcessHeaderConsensusChange hcc fetch = some s' ∧
      s'.siacoinOutputs = diffs.foldl (ledgerRule s.keys s.dustThreshold) s.siacoinOutputs ∧
      s'.lastConsensusChange = hcc.ID := by
  obtain ⟨m1, e1⟩ := appliedLoop_of_airdrop fetch _ s _ applied hair h1
  obtain ⟨m2, e2⟩ := revertedLoop_of_fetchMatched fetch hcc.RevertedBlockHeaders
    { s with maximumExternalIndex := m1 } applied diffs h2
  unfold ProcessHeaderConsensusChange
  rw [e1]
  simp only []
  rw [e2]
  simp only []
  rw [foldl_applyDiff_eq]
  exact ⟨_, rfl, rfl, rfl⟩

end slowSeedScanner

/-- C10, counterexample: the legacy scanner (addresses 1000, 1001, 1002 at
the indices 0, 1, 2, dust threshold 0, `cancel` made) receives a batch with an
applied header of height 7, whose filter matches and whose fetched diffs are
one `Apply` diff of value 100 for output 7 to the tracked address 1001,
followed by an applied header of height 8. The call closes `cancel` and
returns, and the ledger does not hold output 7. -/
theorem cutoff_discards_matched_block :
    (sampleHeader 1 7).Height ≤ 7 ∧
    (sampleHeader 1 7).GCSFilter.MatchUnlockHash 1 warmSlowScanner.keysArray = true ∧
    fetchConst [applyOf 7 100 1001] 1 DiffApply = some [applyOf 7 100 1001] ∧
    warmSlowScanner.keys.lookup 1001 = some 1 ∧
    warmSlowScanner.dustThreshold < 100 ∧
    (warmSlowScanner.ProcessHeaderConsensusChange cutoffBatch
        (fetchConst [applyOf 7 100 1001])).map
      (fun s' => (s'.siacoinOutputs.lookup 7, s'.cancel)) = some (none, Chan.closed) := by
  refine ⟨by decide, by decide, by decide, by decide, by decide, by decide⟩

/-- C10, amended: let no applied header of the batch be above height 7, let
an applied header `B` have a filter that matches `keysArray`, let
`fetch(B, Apply)` return the diffs `ds`, and let `d` be one of them, an
`Apply` diff to a tracked address of index `i` with a value above the dust
threshold; let every fetch of the batch succeed, the combined sequence being
`diffs`. Then `d` is in `diffs`, and for every place of `d` in `diffs` after
which every diff naming the same output id is an `Apply` diff carrying the
same output, the call returns a legacy scanner whose ledger holds that output
id with the value of `d` and the index `i`. -/
theorem slow_filter_safety (s : slowSeedScanner) (hcc : HeaderConsensusChange)
    (fetch : DiffFetcher) (B : ProcessedBlockHeader)
    (ds applied diffs : List SiacoinOutputDiff) (d : SiacoinOutputDiff) (i : Nat)
    (hair : ∀ pbh ∈ hcc.AppliedBlockHeaders, pbh.Height ≤ 7)
    (hB : B ∈ hcc.AppliedBlockHeaders)
    (hmatch : B.GCSFilter.MatchUnlockHash B.BlockHeader.ID s.keysArray = true)
    (hfetch : fetch B.BlockHeader.ID DiffApply = some ds)
    (hd : d ∈ ds)
    (h1 : seedScanner.fetchMatched s.keysArray fetch DiffApply hcc.AppliedBlockHeaders
      hcc.MaturedSiacoinOutputDiffs = some applied)
    (h2 : seedScanner.fetchMatched s.keysArray fetch DiffRevert hcc.RevertedBlockHeaders
      applied = some diffs)
    (hdir : d.Direction = DiffApply)
    (htracked : s.keys.lookup d.SiacoinOutput.UnlockHash = some i)
    (hval : d.SiacoinOutput.Value > s.dustThreshold) :
    d ∈ diffs ∧
    ∀ pre post, diffs = pre ++ d :: post →
      (∀ d' ∈ post, d'.ID = d.ID →
        d'.Direction = DiffApply ∧ d'.SiacoinOutput = d.SiacoinOutput) →
      ∃ s', s.ProcessHeaderConsensusChange hcc fetch = some s' ∧
        s'.siacoinOutputs.lookup d.ID =
          some { id := d.ID, value := d.SiacoinOutput.Value, seedIndex := i } := by
  constructor
  · apply seedScanner.fetchMatched_acc_subset _ _ _ _ _ _ h2
    exact seedScanner.fetchMatched_mem _ _ _ B ds hmatch hfetch _ _ _ hB h1 d hd
  · intro pre post hsplit hpost
    obtain ⟨s', hs', hl, _⟩ :=
      slowSeedScanner.ProcessHeaderConsensusChange_of_airdrop s hcc fetch applied diffs hair h1 h2
    refine ⟨s', hs', ?_⟩
    rw [hl, hsplit]
    exact foldl_ledgerRule_applied _ _ _ d i pre post hdir htracked hval hpost

/-- Instance of `slow_filter_safety`: the legacy scanner receives one applied
header of height 1 with a single `Apply` diff for output 7 to the address of
index 1. -/
theorem slow_filter_safety_witness :
    (∀ pbh ∈ oneApplied.AppliedBlockHeaders, pbh.Height ≤ 7) ∧
      (sampleHeader 1 1).GCSFilter.MatchUnlockHash 1 warmSlowScanner.keysArray = true ∧
      warmSlowScanner.keys.lookup 1001 = some 1 ∧
      (100 : Currency) > warmSlowScanner.dustThreshold ∧
      ∃ s', warmSlowScanner.ProcessHeaderConsensusChange oneApplied
          (fetchConst [applyOf 7 100 1001]) = some s' ∧
        s'.siacoinOutputs.lookup 7 = some { id := 7, value := 100, seedIndex := 1 } := by
  have hair : ∀ pbh ∈ oneApplied.AppliedBlockHeaders, pbh.Height ≤ 7 := by
    intro pbh hp
    rw [List.mem_singleton.mp hp]
    decide
  exact ⟨hair, by decide, by decide, by decide,
    (slow_filter_safety warmSlowScanner oneApplied (fetchConst [applyOf 7 100 1001])
      (sampleHeader 1 1) [applyOf 7 100 1001] [applyOf 7 100 1001] [applyOf 7 100 1001]
      (applyOf 7 100 1001) 1 hair (List.mem_singleton.mpr rfl) (by decide) rfl
      (by decide) (by decide) (by decide) rfl (by decide) (by decide)).2 [] [] rfl (by decide)⟩

/-! ### The height cutoff of the legacy scanner -/

namespace slowSeedScanner

theorem adjustStep_le (s : slowSeedScanner) (d : SiacoinOutputDiff) :
    s.maximumExternalIndex ≤ (s.adjustStep d).maximumExternalIndex := by
  unfold adjustStep
  split
  · split_ifs with h
    · exact Nat.le_of_lt h
    · exact Nat.le_refl _
  · exact Nat.le_refl _

theorem adjustMinimumIndex_le (ds : List SiacoinOutputDiff) :
    ∀ s : slowSeedScanner, s.maximumExternalIndex ≤ (s.adjustMinimumIndex ds).maximumExternalIndex := by
  unfold adjustMinimumIndex
  induction ds with
  | nil => intro s; exact Nat.le_refl _
  | cons d ds ih =>
    intro s
    rw [List.foldl_cons]
    exact Nat.le_trans (adjustStep_le s d) (ih _)

/-- The loop over the applied headers, run over a first part without a header
above the airdrop height whose fetches succeed, continues on the rest with at
most `maximumExternalIndex` raised. -/
theorem appliedLoop_append_of_airdrop (fetch : DiffFetcher) (pre : List ProcessedBlockHeader) :
    ∀ (s : slowSeedScanner) (acc out : List SiacoinOutputDiff),
      (∀ pbh ∈ pre, pbh.Height ≤ 7) →
      seedScanner.fetchMatched s.keysArray fetch DiffApply pre acc = some out →
      ∃ m, s.maximumExternalIndex ≤ m ∧ ∀ rest,
        appliedLoop fetch (pre ++ rest) s acc =
          appliedLoop fetch rest { s with maximumExternalIndex := m } out := by
  induction pre with
  | nil =>
    intro s acc out _ h
    simp only [seedScanner.fetchMatched, Option.some.injEq] at h
    exact ⟨s.maximumExternalIndex, Nat.le_refl _, fun rest => by rw [← h]; rfl⟩
  | cons pbh pre ih =>
    intro s acc out hair h
    have h7 : isAirdrop pbh.Height = true := by
      simp [isAirdrop, hair pbh (List.mem_cons_self _ _)]
    have hrest : ∀ p ∈ pre, p.Height ≤ 7 := fun p hp => hair p (List.mem_cons_of_mem _ hp)
    simp only [seedScanner.fetchMatched] at h
    by_cases hm : pbh.GCSFilter.MatchUnlockHash pbh.BlockHeader.ID s.keysArray = true
    · rw [if_pos hm] at h
      cases hf : fetch pbh.BlockHeader.ID DiffApply with
      | none => rw [hf] at h; cases h
      | some bd =>
        rw [hf] at h
        simp only [] at h
        have ha := adjustMinimumIndex_eq bd s
        obtain ⟨m, hle, hm2⟩ := ih (s.adjustMinimumIndex bd) (acc ++ bd) out hrest
          (by rw [ha]; exact h)
        refine ⟨m, Nat.le_trans (adjustMinimumIndex_le bd s) hle, fun rest => ?_⟩
        have e : ({ s.adjustMinimumIndex bd with maximumExternalIndex := m } : slowSeedScanner) =
            { s with maximumExternalIndex := m } := by rw [ha]
        rw [e] at hm2
        simp only [List.cons_append, appliedLoop, h7, Bool.not_true, Bool.false_eq_true,
          if_false, if_pos hm, hf]
        exact hm2 rest
    · rw [if_neg hm] at h
      obtain ⟨m, hle, hm2⟩ := ih s acc out hrest h
      refine ⟨m, hle, fun rest => ?_⟩
      simp only [List.cons_append, appliedLoop, h7, Bool.not_true, Bool.false_eq_true,
        if_false, if_neg hm]
      exact hm2 rest

/-- Up to the first header above the airdrop height, the loop over the applied
headers reads the fetch callback only at the matched headers before it. -/
theorem appliedLoop_congr_until_cutoff (fetch fetch' : DiffFetcher) (B : ProcessedBlockHeader)
    (post : List ProcessedBlockHeader) (hB : 7 < B.Height) (pre : List ProcessedBlockHeader) :
    ∀ (s : slowSeedScanner) (acc : List SiacoinOutputDiff),
      (∀ pbh ∈ pre, pbh.GCSFilter.MatchUnlockHash pbh.BlockHeader.ID s.keysArray = true →
        fetch' pbh.BlockHeader.ID DiffApply = fetch pbh.BlockHeader.ID DiffApply) →
      appliedLoop fetch' (pre ++ B :: post) s acc = appliedLoop fetch (pre ++ B :: post) s acc := by
  have hnB : isAirdrop B.Height = false := by
    simp only [isAirdrop, decide_eq_false_iff_not]
    exact Nat.not_le.mpr hB
  induction pre with
  | nil =>
    intro s acc _
    simp only [List.nil_append, appliedLoop, hnB, Bool.not_false, if_true]
  | cons pbh pre ih =>
    intro s acc hagree
    have hrest := fun p (hp : p ∈ pre) => hagree p (List.mem_cons_of_mem _ hp)
    simp only [List.cons_append, appliedLoop]
    split_ifs with hair hm
    · rfl
    · rw [hagree pbh (List.mem_cons_self _ _) hm]
      cases hf : fetch pbh.BlockHeader.ID DiffApply with
      | none => rfl
      | some bd =>
        simp only []
        apply ih
        intro p hp hmp
        have hk : (s.adjustMinimumIndex bd).keysArray = s.keysArray := by
          rw [adjustMinimumIndex_eq bd s]
        rw [hk] at hmp
        exact hrest p hp hmp
    · exact ih s acc hrest

end slowSeedScanner

/-- C11, counterexample: two calls of the legacy `ProcessHeaderConsensusChange`
on the batch with applied headers of heights 7 and 8 that do not return.
On the scanner whose `cancel` channel has not been made, the header of height
8 closes a nil channel; on the scanner with an open `cancel`, the fetch for
the matched header of height 7 fails before the header of height 8 is
reached. Both calls panic. -/
theorem cutoff_call_can_panic :
    unpreparedSlowScanner.cancel = Chan.nilChan ∧
    (unpreparedSlowScanner.ProcessHeaderConsensusChange cutoffBatch
      (fetchConst [applyOf 7 100 1001])).isSome = false ∧
    warmSlowScanner.cancel = Chan.opened ∧
    (warmSlowScanner.ProcessHeaderConsensusChange cutoffBatch fetchFails).isSome = false := by
  refine ⟨by decide, by decide, by decide, by decide⟩

/-- C11, amended: let the `cancel` channel of the legacy scanner be open, let
the applied headers of the batch be `pre ++ B :: post` with `B` the first
header above height 7, and let the fetches for the matched headers of `pre`
succeed. Then `ProcessHeaderConsensusChange` closes `cancel` and returns a
scanner whose ledger, key map, address list and bookmark
`lastConsensusChange` are those before the call (it is the scanner before the
call with `cancel` closed and `maximumExternalIndex` possibly raised); and no
fetch is made for `B` or a later header: a callback that agrees with `fetch`
on the matched headers of `pre` gives the same result. -/
theorem slow_cutoff_returns_before_fetch (s : slowSeedScanner) (hcc : HeaderConsensusChange)
    (fetch : DiffFetcher) (pre post : List ProcessedBlockHeader) (B : ProcessedBlockHeader)
    (ds : List SiacoinOutputDiff)
    (hsplit : hcc.AppliedBlockHeaders = pre ++ B :: post)
    (hpre : ∀ pbh ∈ pre, pbh.Height ≤ 7)
    (hB : 7 < B.Height)
    (hopen : s.cancel = Chan.opened)
    (hfetch : seedScanner.fetchMatched s.keysArray fetch DiffApply pre
      hcc.MaturedSiacoinOutputDiffs = some ds) :
    (∃ s', s.ProcessHeaderConsensusChange hcc fetch = some s' ∧
      s' = { s with maximumExternalIndex := s'.maximumExternalIndex, cancel := Chan.closed } ∧
      s.maximumExternalIndex ≤ s'.maximumExternalIndex ∧
      s'.siacoinOutputs = s.siacoinOutputs ∧ s'.keys = s.keys ∧
      s'.keysArray = s.keysArray ∧ s'.lastConsensusChange = s.lastConsensusChange ∧
      s'.cancel = Chan.closed) ∧
    (∀ fetch' : DiffFetcher,
      (∀ pbh ∈ pre, pbh.GCSFilter.MatchUnlockHash pbh.BlockHeader.ID s.keysArray = true →
        fetch' pbh.BlockHeader.ID DiffApply = fetch pbh.BlockHeader.ID DiffApply) →
      s.ProcessHeaderConsensusChange hcc fetch' = s.ProcessHeaderConsensusChange hcc fetch) := by
  have hnB : isAirdrop B.Height = false := by
    simp only [isAirdrop, decide_eq_false_iff_not]
    exact Nat.not_le.mpr hB
  constructor
  · obtain ⟨m, hle, hm⟩ :=
      slowSeedScanner.appliedLoop_append_of_airdrop fetch pre s _ ds hpre hfetch
    have hloop : slowSeedScanner.appliedLoop fetch hcc.AppliedBlockHeaders s
        hcc.MaturedSiacoinOutputDiffs =
        .cancelled { s with maximumExternalIndex := m, cancel := Chan.closed } := by
      rw [hsplit, hm (B :: post)]
      simp only [slowSeedScanner.appliedLoop, hnB, Bool.not_false, if_true, hopen]
    refine ⟨{ s with maximumExternalIndex := m, cancel := Chan.closed }, ?_, rfl, hle, rfl, rfl,
      rfl, rfl, rfl⟩
    unfold slowSeedScanner.ProcessHeaderConsensusChange
    rw [hloop]
  · intro fetch' hagree
    unfold slowSeedScanner.ProcessHeaderConsensusChange
    rw [hsplit, slowSeedScanner.appliedLoop_congr_until_cutoff fetch fetch' B post hB pre s _
      hagree]
    obtain ⟨m, _, hm⟩ :=
      slowSeedScanner.appliedLoop_append_of_airdrop fetch pre s _ ds hpre hfetch
    rw [hm (B :: post)]
    simp only [slowSeedScanner.appliedLoop, hnB, Bool.not_false, if_true, hopen]

/-- Instance of `slow_cutoff_returns_before_fetch`: the legacy scanner with an
open `cancel` receives applied headers of heights 7 and 8; the output applied
by the first raises `maximumExternalIndex` to 1, the ledger stays empty. -/
theorem slow_cutoff_returns_before_fetch_witness :
    cutoffBatch.AppliedBlockHeaders = [sampleHeader 1 7] ++ sampleHeader 2 8 :: [] ∧
      (∀ pbh ∈ [sampleHeader 1 7], pbh.Height ≤ 7) ∧
      7 < (sampleHeader 2 8).Height ∧
      warmSlowScanner.cancel = Chan.opened ∧
      seedScanner.fetchMatched warmSlowScanner.keysArray (fetchConst [applyOf 7 100 1001])
        DiffApply [sampleHeader 1 7] cutoffBatch.MaturedSiacoinOutputDiffs =
        some [applyOf 7 100 1001] ∧
      ∃ s', warmSlowScanner.ProcessHeaderConsensusChange cutoffBatch
          (fetchConst [applyOf 7 100 1001]) = some s' ∧
        s'.siacoinOutputs = warmSlowScanner.siacoinOutputs ∧
        s'.lastConsensusChange = warmSlowScanner.lastConsensusChange ∧
        s'.cancel = Chan.closed := by
  have hpre : ∀ pbh ∈ [sampleHeader 1 7], pbh.Height ≤ 7 := by
    intro pbh hp
    rw [List.mem_singleton.mp hp]
    decide
  obtain ⟨⟨s', h1, _, _, h4, _, _, h7, h8⟩, _⟩ :=
    slow_cutoff_returns_before_fetch warmSlowScanner cutoffBatch (fetchConst [applyOf 7 100 1001])
      [sampleHeader 1 7] [] (sampleHeader 2 8) [applyOf 7 100 1001] rfl hpre (by decide)
      (by decide) (by decide)
  exact ⟨rfl, hpre, by decide, by decide, by decide, s', h1, h4, h7, h8⟩

/-! ### The legacy phase of `scan` and the handoff -/

namespace slowSeedScanner

theorem generateKeysLoop_frame (p : Nat) (ks : List UnlockHash) :
    ∀ (i : Nat) (s : slowSeedScanner),
      (generateKeysLoop p i ks s).gapScanner = s.gapScanner ∧
      (generateKeysLoop p i ks s).addressGapLimit = s.addressGapLimit ∧
      (generateKeysLoop p i ks s).dustThreshold = s.dustThreshold ∧
      (generateKeysLoop p i ks s).maximumExternalIndex = s.maximumExternalIndex ∧
      (generateKeysLoop p i ks s).siacoinOutputs = s.siacoinOutputs ∧
      (generateKeysLoop p i ks s).lastConsensusChange = s.lastConsensusChange ∧
      (generateKeysLoop p i ks s).cancel = s.cancel := by
  induction ks with
  | nil => intro i s; simp [generateKeysLoop]
  | cons k ks ih =>
    intro i s
    simp only [generateKeysLoop]
    exact ih (i + 1) _

/-- What a processed batch leaves untouched in the legacy scanner. -/
theorem ProcessHeaderConsensusChange_frame (s s' : slowSeedScanner)
    (hcc : HeaderConsensusChange) (fetch : DiffFetcher)
    (h : s.ProcessHeaderConsensusChange hcc fetch = some s') :
    s'.gapScanner = s.gapScanner ∧ s'.seed = s.seed ∧
      s'.addressGapLimit = s.addressGapLimit ∧ s'.dustThreshold = s.dustThreshold ∧
      s'.keys = s.keys ∧ s'.keysArray = s.keysArray := by
  unfold ProcessHeaderConsensusChange at h
  obtain ⟨i1, i2⟩ := appliedLoop_frame fetch hcc.AppliedBlockHeaders s
    hcc.MaturedSiacoinOutputDiffs
  cases ha : appliedLoop fetch hcc.AppliedBlockHeaders s hcc.MaturedSiacoinOutputDiffs with
  | panicked => rw [ha] at h; cases h
  | cancelled t =>
    rw [ha] at h
    simp only [Option.some.injEq] at h
    have := i1 t ha
    rw [← h, this]
    exact ⟨rfl, rfl, rfl, rfl, rfl, rfl⟩
  | finished t applied =>
    rw [ha] at h
    simp only [] at h
    have ht := i2 t applied ha
    cases hr : revertedLoop fetch hcc.RevertedBlockHeaders t applied with
    | none => rw [hr] at h; cases h
    | some p =>
      obtain ⟨t2, ds⟩ := p
      rw [hr] at h
      simp only [Option.some.injEq] at h
      have ht2 := revertedLoop_frame fetch _ t applied t2 ds hr
      rw [foldl_applyDiff_eq] at h
      rw [← h]
      simp only []
      rw [ht2, ht]
      exact ⟨rfl, rfl, rfl, rfl, rfl, rfl⟩

end slowSeedScanner

/-- The legacy subscription leaves the embedded scanner, the seed, the gap
limit, the dust threshold and the keys of the legacy scanner untouched. -/
theorem ConsensusSet.deliverSlow_frame (cs : ConsensusSet) (failsAfter : Option Nat)
    (batches : List HeaderConsensusChange) :
    ∀ (k : Nat) (s s1 : slowSeedScanner) (err : Option SubscribeError),
      cs.deliverSlow failsAfter k batches s = some (s1, err) →
      s1.gapScanner = s.gapScanner ∧ s1.seed = s.seed ∧
        s1.addressGapLimit = s.addressGapLimit ∧ s1.dustThreshold = s.dustThreshold ∧
        s1.keys = s.keys ∧ s1.keysArray = s.keysArray := by
  induction batches with
  | nil =>
    intro k s s1 err h
    simp only [ConsensusSet.deliverSlow] at h
    split_ifs at h <;>
      (simp only [Option.some.injEq, Prod.mk.injEq] at h
       rw [← h.1]
       exact ⟨rfl, rfl, rfl, rfl, rfl, rfl⟩)
  | cons hcc rest ih =>
    intro k s s1 err h
    simp only [ConsensusSet.deliverSlow] at h
    split_ifs at h
    · simp only [Option.some.injEq, Prod.mk.injEq] at h
      rw [← h.1]
      exact ⟨rfl, rfl, rfl, rfl, rfl, rfl⟩
    · simp only [Option.some.injEq, Prod.mk.injEq] at h
      rw [← h.1]
      exact ⟨rfl, rfl, rfl, rfl, rfl, rfl⟩
    · cases hp : s.ProcessHeaderConsensusChange hcc cs.getSiacoinOutputDiff with
      | none => rw [hp] at h; cases h
      | some s' =>
        rw [hp] at h
        obtain ⟨a1, a2, a3, a4, a5, a6⟩ := ih (k + 1) s' s1 err h
        obtain ⟨b1, b2, b3, b4, b5, b6⟩ :=
          slowSeedScanner.ProcessHeaderConsensusChange_frame s s' hcc _ hp
        exact ⟨a1.trans b1, a2.trans b2, a3.trans b3, a4.trans b4, a5.trans b5, a6.trans b6⟩

/-- The scanner prepared by `scan`: its embedded scanner is new, its seed, gap
limit and dust threshold are those of the scanner `scan` was called on. -/
theorem slowSeedScanner.prepare_fields (s : slowSeedScanner) (release : Release) :
    (s.prepare release).gapScanner = some (newFastSeedScanner s.seed s.addressGapLimit) ∧
      (s.prepare release).seed = s.seed ∧
      (s.prepare release).addressGapLimit = s.addressGapLimit ∧
      (s.prepare release).dustThreshold = s.dustThreshold ∧
      (s.prepare release).cancel = Chan.opened ∧
      (s.prepare release).maximumExternalIndex = s.maximumExternalIndex ∧
      (s.prepare release).siacoinOutputs = s.siacoinOutputs ∧
      (s.prepare release).lastConsensusChange = s.lastConsensusChange := by
  unfold slowSeedScanner.prepare slowSeedScanner.generateKeys
  simp only []
  obtain ⟨f1, f2, f3, f4, f5, f6, _⟩ := slowSeedScanner.generateKeysLoop_frame
    (slowSeedScanner.numKeys
      { s with gapScanner := some (newFastSeedScanner s.seed s.addressGapLimit) }) 
    (Hyperspace.generateKeys s.seed (slowSeedScanner.numKeys
      { s with gapScanner := some (newFastSeedScanner s.seed s.addressGapLimit) })
      (numInitialKeys release)) 0
    { s with gapScanner := some (newFastSeedScanner s.seed s.addressGapLimit) }
  obtain ⟨_, _, g3⟩ := slowSeedScanner.generateKeysLoop_fields
    (slowSeedScanner.numKeys
      { s with gapScanner := some (newFastSeedScanner s.seed s.addressGapLimit) }) 
    (Hyperspace.generateKeys s.seed (slowSeedScanner.numKeys
      { s with gapScanner := some (newFastSeedScanner s.seed s.addressGapLimit) })
      (numInitialKeys release)) 0
    { s with gapScanner := some (newFastSeedScanner s.seed s.addressGapLimit) }
  exact ⟨f1, g3, f2, f3, trivial, f4, f5, f6⟩

/-- The embedded scanner after the seeding and the warm-up of the handoff. -/
theorem handoff_fields (seed : Seed) (g X : Nat) (L : Ledger)
    (hrange : X + g < uint64Size) (hinj : seed.CollisionFreeBelow (X + g)) :
    (seedScanner.generateKeys
        { newFastSeedScanner seed g with
          minimumIndex := X
          maximumInternalIndex := X
          maximumExternalIndex := X
          siacoinOutputs := L } g).minimumIndex = X ∧
    (seedScanner.generateKeys
        { newFastSeedScanner seed g with
          minimumIndex := X
          maximumInternalIndex := X
          maximumExternalIndex := X
          siacoinOutputs := L } g).maximumExternalIndex = X ∧
    (seedScanner.generateKeys
        { newFastSeedScanner seed g with
          minimumIndex := X
          maximumInternalIndex := X
          maximumExternalIndex := X
          siacoinOutputs := L } g).maximumInternalIndex = X + g ∧
    (seedScanner.generateKeys
        { newFastSeedScanner seed g with
          minimumIndex := X
          maximumInternalIndex := X
          maximumExternalIndex := X
          siacoinOutputs := L } g).siacoinOutputs = L ∧
    (seedScanner.generateKeys
        { newFastSeedScanner seed g with
          minimumIndex := X
          maximumInternalIndex := X
          maximumExternalIndex := X
          siacoinOutputs := L } g).keysArray.length = g ∧
    KeysInLockstep seed X
      (seedScanner.generateKeys
        { newFastSeedScanner seed g with
          minimumIndex := X
          maximumInternalIndex := X
          maximumExternalIndex := X
          siacoinOutputs := L } g).keys
      (seedScanner.generateKeys
        { newFastSeedScanner seed g with
          minimumIndex := X
          maximumInternalIndex := X
          maximumExternalIndex := X
          siacoinOutputs := L } g).keysArray := by
  refine ⟨by simp [newFastSeedScanner], by simp [newFastSeedScanner], ?_,
    by simp [newFastSeedScanner], ?_, ?_⟩
  · rw [seedScanner.generateKeys_maximumInternalIndex]
    simp only [u64add]
    exact Nat.mod_eq_of_lt hrange
  · rw [seedScanner.generateKeys_keysArray, List.length_append, generateKeys_length]
    simp [newFastSeedScanner]
  · have hl := seedScanner.generateKeys_lockstep
      { newFastSeedScanner seed g with
        minimumIndex := X
        maximumInternalIndex := X
        maximumExternalIndex := X
        siacoinOutputs := L } g (keysInLockstep_empty seed X)
      (by simp only [newFastSeedScanner, List.length_nil, Nat.zero_add]; omega)
      (by simpa [newFastSeedScanner] using hinj)
    exact hl

/-- A batch whose first applied header is above the airdrop height, on a
scanner with an open `cancel`: the call closes `cancel` and changes nothing
else. -/
theorem slowSeedScanner.ProcessHeaderConsensusChange_cutoff_first (s : slowSeedScanner)
    (hcc : HeaderConsensusChange) (fetch : DiffFetcher) (B : ProcessedBlockHeader)
    (post : List ProcessedBlockHeader) (hsplit : hcc.AppliedBlockHeaders = B :: post)
    (hB : 7 < B.Height) (hopen : s.cancel = Chan.opened) :
    s.ProcessHeaderConsensusChange hcc fetch = some { s with cancel := Chan.closed } := by
  have hnB : isAirdrop B.Height = false := by
    simp only [isAirdrop, decide_eq_false_iff_not]
    exact Nat.not_le.mpr hB
  unfold slowSeedScanner.ProcessHeaderConsensusChange
  rw [hsplit]
  simp only [slowSeedScanner.appliedLoop, hnB, Bool.not_false, if_true, hopen]

/-- The legacy subscription on a feed of one batch whose first applied header
is above the airdrop height: the batch closes `cancel`, the feed observes it
and returns the stopped indication. -/
theorem ConsensusSet.subscribeSlow_cutoff_single (cs : ConsensusSet) (s : slowSeedScanner)
    (start : ConsensusChangeID) (hcc : HeaderConsensusChange) (B : ProcessedBlockHeader)
    (post : List ProcessedBlockHeader) (hfeed : cs.changesAfter start = [hcc])
    (hnofail : cs.failsAfter start = none)
    (hsplit : hcc.AppliedBlockHeaders = B :: post) (hB : 7 < B.Height)
    (hopen : s.cancel = Chan.opened) :
    cs.subscribeSlow s start =
      some ({ s with cancel := Chan.closed }, some SubscribeError.ErrStopped) := by
  unfold ConsensusSet.subscribeSlow
  rw [hfeed, hnofail]
  simp only [ConsensusSet.deliverSlow, hopen,
    slowSeedScanner.ProcessHeaderConsensusChange_cutoff_first s hcc _ B post hsplit hB hopen]
  simp

/-- C12, amended: when the legacy subscription of `slowSeedScanner.scan`
returns the stopped indication with the legacy scanner in state `s1`, `X` being its
`maximumExternalIndex` and `L` its ledger, the handoff gives the embedded fast
scanner `minimumIndex = maximumExternalIndex = X` and the ledger `L`; after
the warm-up `generateKeys(addressGapLimit)` its key map holds exactly the
addresses derived at the positions `X, ..., X + addressGapLimit - 1`, each
mapped to its position, `keysArray` holds them in order, and
`maximumInternalIndex = X + addressGapLimit`; `scan` then subscribes this
scanner from the bookmark `s1.lastConsensusChange`. The positions are assumed
to stay below `2 ^ 64` and the derivation to have no collision among them. -/
theorem handoff_seeds_embedded_scanner (s s1 : slowSeedScanner) (cs : ConsensusSet)
    (release : Release) (cancel : Option Nat)
    (hleg : cs.subscribeSlow (s.prepare release) ConsensusChangeBeginning =
      some (s1, some SubscribeError.ErrStopped))
    (hrange : s1.maximumExternalIndex + s.addressGapLimit < uint64Size)
    (hinj : s.seed.CollisionFreeBelow (s1.maximumExternalIndex + s.addressGapLimit)) :
    ∃ gs, s1.handoff = some gs ∧
      gs.minimumIndex = s1.maximumExternalIndex ∧
      gs.maximumExternalIndex = s1.maximumExternalIndex ∧
      gs.maximumInternalIndex = s1.maximumExternalIndex + s.addressGapLimit ∧
      gs.siacoinOutputs = s1.siacoinOutputs ∧
      (∀ a i, gs.keys.lookup a = some i ↔
        ∃ j, j < s.addressGapLimit ∧ a = s.seed.addr (s1.maximumExternalIndex + j) ∧
          i = s1.maximumExternalIndex + j) ∧
      (∀ j, j < s.addressGapLimit →
        gs.keysArray[j]? = some (s.seed.addr (s1.maximumExternalIndex + j))) ∧
      gs.keysArray.length = s.addressGapLimit ∧
      s.scan cs release cancel =
        s1.finishScan (cs.subscribeFast gs s1.lastConsensusChange cancel) := by
  obtain ⟨p1, p2, p3, _, _⟩ := slowSeedScanner.prepare_fields s release
  obtain ⟨d1, d2, d3, _, _, _⟩ := cs.deliverSlow_frame _ _ _ _ _ _ hleg
  have hgap : s1.gapScanner = some (newFastSeedScanner s.seed s.addressGapLimit) :=
    d1.trans p1
  have hlim : s1.addressGapLimit = s.addressGapLimit := d3.trans p3
  obtain ⟨f1, f2, f3, f4, f5, f6⟩ := handoff_fields s.seed s.addressGapLimit
    s1.maximumExternalIndex s1.siacoinOutputs hrange hinj
  have hhand : s1.handoff = some (seedScanner.generateKeys
      { newFastSeedScanner s.seed s.addressGapLimit with
        minimumIndex := s1.maximumExternalIndex
        maximumInternalIndex := s1.maximumExternalIndex
        maximumExternalIndex := s1.maximumExternalIndex
        siacoinOutputs := s1.siacoinOutputs } s.addressGapLimit) := by
    unfold slowSeedScanner.handoff
    rw [hgap, hlim]
  refine ⟨_, hhand, f1, f2, f3, f4, ?_, ?_, f5, ?_⟩
  · intro a i
    constructor
    · intro hl
      obtain ⟨j, hj⟩ := List.mem_iff_getElem?.mp (f6.2.2 a (Finmap.mem_of_lookup_eq_some hl))
      have hjl : j < s.addressGapLimit := by
        have := (List.getElem?_eq_some.mp hj).1
        rwa [f5] at this
      have h2 := f6.2.1 j a hj
      rw [hl] at h2
      exact ⟨j, hjl, f6.1 j a hj, Option.some.inj h2⟩
    · rintro ⟨j, hj, rfl, rfl⟩
      have hjl : j < (seedScanner.generateKeys
          { newFastSeedScanner s.seed s.addressGapLimit with
            minimumIndex := s1.maximumExternalIndex
            maximumInternalIndex := s1.maximumExternalIndex
            maximumExternalIndex := s1.maximumExternalIndex
            siacoinOutputs := s1.siacoinOutputs } s.addressGapLimit).keysArray.length := by
        rw [f5]; exact hj
      have hget := List.getElem?_eq_getElem hjl
      have ha := f6.1 j _ hget
      have hk := f6.2.1 j _ hget
      rw [ha] at hk
      exact hk
  · intro j hj
    have hjl : j < (seedScanner.generateKeys
        { newFastSeedScanner s.seed s.addressGapLimit with
          minimumIndex := s1.maximumExternalIndex
          maximumInternalIndex := s1.maximumExternalIndex
          maximumExternalIndex := s1.maximumExternalIndex
          siacoinOutputs := s1.siacoinOutputs } s.addressGapLimit).keysArray.length := by
      rw [f5]; exact hj
    have hget := List.getElem?_eq_getElem hjl
    rw [hget, f6.1 j _ hget]
  · unfold slowSeedScanner.scan
    simp only [hleg, ne_eq, not_true_eq_false, if_false, hhand]

/-! ### `scan` of the legacy scanner when the feed ends -/

/-- When the legacy subscription returns `nil`, `scan` returns `nil` at once:
its only call to the consensus set is the first subscription. -/
theorem slowSeedScanner.scan_of_nil (s s1 : slowSeedScanner) (cs : ConsensusSet)
    (release : Release) (cancel : Option Nat)
    (hleg : cs.subscribeSlow (s.prepare release) ConsensusChangeBeginning = some (s1, none)) :
    s.scan cs release cancel =
      some { scanner := s1, err := none,
             calls := [CsCall.HeaderConsensusSetSubscribe Subscriber.slowScanner
               ConsensusChangeBeginning] } := by
  unfold slowSeedScanner.scan
  simp only [hleg]
  rfl

/-- C13, the code at the failing input: on a feed that ends without a block
above the cutoff (here the empty feed), the legacy subscription returns `nil`
and `scan` returns `nil` right away. Its only call to the consensus set is the
first subscription: it does not unsubscribe, and it performs no handoff, the
embedded scanner being left as `newFastSeedScanner` built it. -/
theorem scan_skips_handoff_when_feed_ends (s : slowSeedScanner) (release : Release)
    (cancel : Option Nat) :
    ∃ o : SlowScanOutcome, s.scan emptyChain release cancel = some o ∧
      o.err = none ∧
      o.calls = [CsCall.HeaderConsensusSetSubscribe Subscriber.slowScanner
        ConsensusChangeBeginning] ∧
      CsCall.HeaderUnsubscribe Subscriber.slowScanner ∉ o.calls ∧
      o.scanner.gapScanner = some (newFastSeedScanner s.seed s.addressGapLimit) := by
  obtain ⟨p1, _, _, _, p5, _⟩ := slowSeedScanner.prepare_fields s release
  have hleg : emptyChain.subscribeSlow (s.prepare release) ConsensusChangeBeginning =
      some (s.prepare release, none) := by
    unfold ConsensusSet.subscribeSlow
    simp [emptyChain, ConsensusSet.deliverSlow, p5]
  refine ⟨_, slowSeedScanner.scan_of_nil s _ emptyChain release cancel hleg, rfl, rfl, ?_, p1⟩
  simp

/-- C14, the code at the failing input: the legacy scanner (addresses 1000,
1001, 1002 at the indices 0, 1, 2, `maximumExternalIndex = 0`) processes a
batch without headers whose matured diffs name the tracked address 1002. The
call returns and records the output, but `maximumExternalIndex` is still 0,
not 2; the fast scanner on the same batch raises it to 2. -/
theorem slow_usage_ignores_matured_diffs :
    warmSlowScanner.keys.lookup 1002 = some 2 ∧
    warmSlowScanner.maximumExternalIndex = 0 ∧
    (warmSlowScanner.ProcessHeaderConsensusChange (maturedOnly [applyOf 7 100 1002])
        (fetchConst [])).map
      (fun s' => (s'.maximumExternalIndex, s'.siacoinOutputs.lookup 7)) =
      some (0, some { id := 7, value := 100, seedIndex := 2 }) ∧
    (warmScanner.ProcessHeaderConsensusChange (maturedOnly [applyOf 7 100 1002])
        (fetchConst [])).map (fun s' => s'.maximumExternalIndex) = some 2 := by
  refine ⟨by decide, by decide, by decide, by decide⟩

/-! ### Filter gating -/

theorem matchedHeaders_cons_pos (K : List UnlockHash) (pbh : ProcessedBlockHeader)
    (rest : List ProcessedBlockHeader)
    (hm : pbh.GCSFilter.MatchUnlockHash pbh.BlockHeader.ID K = true) :
    matchedHeaders K (pbh :: rest) = pbh :: matchedHeaders K rest := by
  simp [matchedHeaders, List.filter_cons, hm]

theorem matchedHeaders_cons_neg (K : List UnlockHash) (pbh : ProcessedBlockHeader)
    (rest : List ProcessedBlockHeader)
    (hm : ¬ pbh.GCSFilter.MatchUnlockHash pbh.BlockHeader.ID K = true) :
    matchedHeaders K (pbh :: rest) = matchedHeaders K rest := by
  simp [matchedHeaders, List.filter_cons, hm]

theorem fetchMatched_eq_fetchAll (K : List UnlockHash) (fetch : DiffFetcher)
    (dir : DiffDirection) (hs : List ProcessedBlockHeader) :
    ∀ acc : List SiacoinOutputDiff,
      seedScanner.fetchMatched K fetch dir hs acc =
        (fetchAll fetch dir (matchedHeaders K hs)).map (fun more => acc ++ more) := by
  induction hs with
  | nil => intro acc; simp [seedScanner.fetchMatched, matchedHeaders, fetchAll]
  | cons pbh rest ih =>
    intro acc
    simp only [seedScanner.fetchMatched]
    by_cases hm : pbh.GCSFilter.MatchUnlockHash pbh.BlockHeader.ID K = true
    · rw [if_pos hm, matchedHeaders_cons_pos K pbh rest hm]
      simp only [fetchAll]
      cases hf : fetch pbh.BlockHeader.ID dir with
      | none => rfl
      | some ds =>
        simp only []
        rw [ih]
        cases fetchAll fetch dir (matchedHeaders K rest) with
        | none => rfl
        | some more => simp
    · rw [if_neg hm, matchedHeaders_cons_neg K pbh rest hm]
      exact ih acc

/-- The slice built by the code is the combined sequence of the
specification. -/
theorem seedScanner.collectDiffs_eq_combinedDiffs (s : seedScanner)
    (hcc : HeaderConsensusChange) (fetch : DiffFetcher) :
    s.collectDiffs hcc fetch = combinedDiffs s.keysArray hcc fetch := by
  unfold seedScanner.collectDiffs combinedDiffs
  rw [fetchMatched_eq_fetchAll]
  cases fetchAll fetch DiffApply (matchedHeaders s.keysArray hcc.AppliedBlockHeaders) with
  | none => rfl
  | some applied =>
    simp only [Option.map_some']
    rw [fetchMatched_eq_fetchAll]
    cases fetchAll fetch DiffRevert (matchedHeaders s.keysArray hcc.RevertedBlockHeaders) with
    | none => rfl
    | some reverted => rfl

theorem fetchAll_congr (fetch fetch' : DiffFetcher) (dir : DiffDirection)
    (hs : List ProcessedBlockHeader)
    (h : ∀ pbh ∈ hs, fetch' pbh.BlockHeader.ID dir = fetch pbh.BlockHeader.ID dir) :
    fetchAll fetch' dir hs = fetchAll fetch dir hs := by
  induction hs with
  | nil => rfl
  | cons pbh rest ih =>
    simp only [fetchAll]
    rw [h pbh (List.mem_cons_self _ _), ih (fun p hp => h p (List.mem_cons_of_mem _ hp))]

theorem matchedHeaders_idem (K : List UnlockHash) (hs : List ProcessedBlockHeader) :
    matchedHeaders K (matchedHeaders K hs) = matchedHeaders K hs := by
  unfold matchedHeaders
  rw [List.filter_filter]
  simp

theorem mem_matchedHeaders (K : List UnlockHash) (hs : List ProcessedBlockHeader)
    (pbh : ProcessedBlockHeader) :
    pbh ∈ matchedHeaders K hs ↔
      pbh ∈ hs ∧ pbh.GCSFilter.MatchUnlockHash pbh.BlockHeader.ID K = true := by
  unfold matchedHeaders
  exact List.mem_filter

/-- The method reads the batch and the callback through the collected slice
only. -/
theorem seedScanner.ProcessHeaderConsensusChange_congr (s : seedScanner)
    (hcc hcc' : HeaderConsensusChange) (fetch fetch' : DiffFetcher)
    (h : s.collectDiffs hcc' fetch' = s.collectDiffs hcc fetch) :
    s.ProcessHeaderConsensusChange hcc' fetch' = s.ProcessHeaderConsensusChange hcc fetch := by
  unfold seedScanner.ProcessHeaderConsensusChange
  rw [h]

/-- C15: in `seedScanner.ProcessHeaderConsensusChange` the collected slice is
the combined sequence of the specification: the matured diffs, always taken,
then the diffs of the applied headers whose filter matches `keysArray`,
fetched with direction `Apply`, then those of the reverted headers whose
filter matches, fetched with direction `Revert`. A header without a match is
never fetched: two callbacks that agree on the matched headers give equal
results (equal scanner states, or a panic for both), and the result is that
for the batch with the unmatched headers removed. -/
theorem filter_gating (s : seedScanner) (hcc : HeaderConsensusChange) (fetch : DiffFetcher) :
    s.collectDiffs hcc fetch = combinedDiffs s.keysArray hcc fetch ∧
    (∀ fetch' : DiffFetcher,
      (∀ pbh ∈ hcc.AppliedBlockHeaders,
        pbh.GCSFilter.MatchUnlockHash pbh.BlockHeader.ID s.keysArray = true →
        fetch' pbh.BlockHeader.ID DiffApply = fetch pbh.BlockHeader.ID DiffApply) →
      (∀ pbh ∈ hcc.RevertedBlockHeaders,
        pbh.GCSFilter.MatchUnlockHash pbh.BlockHeader.ID s.keysArray = true →
        fetch' pbh.BlockHeader.ID DiffRevert = fetch pbh.BlockHeader.ID DiffRevert) →
      s.ProcessHeaderConsensusChange hcc fetch' = s.ProcessHeaderConsensusChange hcc fetch) ∧
    s.ProcessHeaderConsensusChange
        { hcc with
          AppliedBlockHeaders := matchedHeaders s.keysArray hcc.AppliedBlockHeaders
          RevertedBlockHeaders := matchedHeaders s.keysArray hcc.RevertedBlockHeaders } fetch =
      s.ProcessHeaderConsensusChange hcc fetch := by
  refine ⟨seedScanner.collectDiffs_eq_combinedDiffs s hcc fetch, ?_, ?_⟩
  · intro fetch' ha hr
    apply seedScanner.ProcessHeaderConsensusChange_congr
    rw [seedScanner.collectDiffs_eq_combinedDiffs, seedScanner.collectDiffs_eq_combinedDiffs]
    unfold combinedDiffs
    rw [fetchAll_congr fetch fetch' DiffApply _
        (fun p hp => ha p ((mem_matchedHeaders _ _ p).mp hp).1 ((mem_matchedHeaders _ _ p).mp hp).2),
      fetchAll_congr fetch fetch' DiffRevert _
        (fun p hp => hr p ((mem_matchedHeaders _ _ p).mp hp).1 ((mem_matchedHeaders _ _ p).mp hp).2)]
  · apply seedScanner.ProcessHeaderConsensusChange_congr
    rw [seedScanner.collectDiffs_eq_combinedDiffs, seedScanner.collectDiffs_eq_combinedDiffs]
    unfold combinedDiffs
    simp only [matchedHeaders_idem]

/-- Instance of `filter_gating`: a batch with a matured diff, a matched header
and an unmatched one, and a callback that fails for the unmatched header. The
call returns all the same, with the matured diff and the diff of the matched
header collected, as with a callback that never fails. -/
theorem filter_gating_witness :
    warmScanner.collectDiffs gatedBatch fetchOnlyBlock1 =
        some [applyOf 9 50 1000, applyOf 7 100 1001] ∧
      fetchOnlyBlock1 2 DiffApply = none ∧
      warmScanner.ProcessHeaderConsensusChange gatedBatch (fetchConst [applyOf 7 100 1001]) =
        warmScanner.ProcessHeaderConsensusChange gatedBatch fetchOnlyBlock1 := by
  refine ⟨by decide, by decide, ?_⟩
  apply (filter_gating warmScanner gatedBatch fetchOnlyBlock1).2.1
  · intro pbh hp hm
    simp only [gatedBatch, List.mem_cons, List.mem_singleton, List.not_mem_nil, or_false] at hp
    rcases hp with rfl | rfl
    · rfl
    · simp [matchNone] at hm
  · intro pbh hp
    simp [gatedBatch] at hp

/-! ### Abort on a failed fetch -/

theorem fetchAll_eq_none_iff (fetch : DiffFetcher) (dir : DiffDirection)
    (hs : List ProcessedBlockHeader) :
    fetchAll fetch dir hs = none ↔ ∃ pbh ∈ hs, fetch pbh.BlockHeader.ID dir = none := by
  induction hs with
  | nil => simp [fetchAll]
  | cons pbh rest ih =>
    simp only [fetchAll, List.mem_cons]
    cases hf : fetch pbh.BlockHeader.ID dir with
    | none => simp [hf]
    | some ds =>
      simp only [Option.map_eq_none', ih]
      constructor
      · rintro ⟨p, hp, hn⟩
        exact ⟨p, Or.inr hp, hn⟩
      · rintro ⟨p, hp | hp, hn⟩
        · rw [hp, hf] at hn; cases hn
        · exact ⟨p, hp, hn⟩

theorem combinedDiffs_eq_none_iff (K : List UnlockHash) (hcc : HeaderConsensusChange)
    (fetch : DiffFetcher) :
    combinedDiffs K hcc fetch = none ↔
      (∃ pbh ∈ hcc.AppliedBlockHeaders,
        pbh.GCSFilter.MatchUnlockHash pbh.BlockHeader.ID K = true ∧
        fetch pbh.BlockHeader.ID DiffApply = none) ∨
      (∃ pbh ∈ hcc.RevertedBlockHeaders,
        pbh.GCSFilter.MatchUnlockHash pbh.BlockHeader.ID K = true ∧
        fetch pbh.BlockHeader.ID DiffRevert = none) := by
  have ha := fetchAll_eq_none_iff fetch DiffApply (matchedHeaders K hcc.AppliedBlockHeaders)
  have hr := fetchAll_eq_none_iff fetch DiffRevert (matchedHeaders K hcc.RevertedBlockHeaders)
  have e1 : (∃ pbh ∈ matchedHeaders K hcc.AppliedBlockHeaders,
      fetch pbh.BlockHeader.ID DiffApply = none) ↔
      ∃ pbh ∈ hcc.AppliedBlockHeaders,
        pbh.GCSFilter.MatchUnlockHash pbh.BlockHeader.ID K = true ∧
        fetch pbh.BlockHeader.ID DiffApply = none := by
    constructor
    · rintro ⟨p, hp, hn⟩
      exact ⟨p, ((mem_matchedHeaders _ _ p).mp hp).1, ((mem_matchedHeaders _ _ p).mp hp).2, hn⟩
    · rintro ⟨p, hp, hm, hn⟩
      exact ⟨p, (mem_matchedHeaders _ _ p).mpr ⟨hp, hm⟩, hn⟩
  have e2 : (∃ pbh ∈ matchedHeaders K hcc.RevertedBlockHeaders,
      fetch pbh.BlockHeader.ID DiffRevert = none) ↔
      ∃ pbh ∈ hcc.RevertedBlockHeaders,
        pbh.GCSFilter.MatchUnlockHash pbh.BlockHeader.ID K = true ∧
        fetch pbh.BlockHeader.ID DiffRevert = none := by
    constructor
    · rintro ⟨p, hp, hn⟩
      exact ⟨p, ((mem_matchedHeaders _ _ p).mp hp).1, ((mem_matchedHeaders _ _ p).mp hp).2, hn⟩
    · rintro ⟨p, hp, hm, hn⟩
      exact ⟨p, (mem_matchedHeaders _ _ p).mpr ⟨hp, hm⟩, hn⟩
  rw [← e1, ← e2, ← ha, ← hr]
  unfold combinedDiffs
  cases fetchAll fetch DiffApply (matchedHeaders K hcc.AppliedBlockHeaders) <;>
    cases fetchAll fetch DiffRevert (matchedHeaders K hcc.RevertedBlockHeaders) <;> simp

theorem seedScanner.ProcessHeaderConsensusChange_eq_none_of_collectDiffs (s : seedScanner)
    (hcc : HeaderConsensusChange) (fetch : DiffFetcher)
    (h : s.collectDiffs hcc fetch = none) :
    s.ProcessHeaderConsensusChange hcc fetch = none := by
  unfold seedScanner.ProcessHeaderConsensusChange
  rw [h]

/-- The two ways a call can end without a result: a failed fetch while the
diffs are collected, or a growth step that asks for more keys than a slice
holds. -/
theorem seedScanner.ProcessHeaderConsensusChange_eq_none_iff (s : seedScanner)
    (hcc : HeaderConsensusChange) (fetch : DiffFetcher) :
    s.ProcessHeaderConsensusChange hcc fetch = none ↔
      s.collectDiffs hcc fetch = none ∨
      ∃ diffs, s.collectDiffs hcc fetch = some diffs ∧
        0 < u64sub (usageUpdated s diffs).maximumInternalIndex
          (usageUpdated s diffs).maximumExternalIndex ∧
        maxSliceLen < (usageUpdated s diffs).toGrow := by
  cases hc : s.collectDiffs hcc fetch with
  | none =>
    rw [seedScanner.ProcessHeaderConsensusChange_eq_none_of_collectDiffs s hcc fetch hc]
    simp
  | some diffs =>
    rw [seedScanner.ProcessHeaderConsensusChange_of_collectDiffs s hcc fetch diffs hc,
      seedScanner.growWindow_eq_none_iff]
    simp

/-- C17 (divergence): `seedScanner.ProcessHeaderConsensusChange` can abort
without any failed fetch. On the state with gap limit 3,
`maximumInternalIndex = 5` and `maximumExternalIndex = 0`, and the batch
without headers and without diffs, no fetch is made; the gap is 5, the
`uint64` difference `addressGapLimit - gap` wraps around to `2 ^ 64 - 2`, and
the call `generateKeys(2 ^ 64 - 2)` panics. In general the call ends without
a result exactly when the fetch fails for a matched applied or reverted
header, or when every such fetch succeeds and the growth step asks for more
keys than a slice holds. -/
theorem abort_without_failed_fetch :
    (maturedOnly []).AppliedBlockHeaders = [] ∧
    (maturedOnly []).RevertedBlockHeaders = [] ∧
    overgrownScanner.collectDiffs (maturedOnly []) (fetchConst []) = some [] ∧
    u64sub overgrownScanner.maximumInternalIndex overgrownScanner.maximumExternalIndex = 5 ∧
    overgrownScanner.toGrow = 2 ^ 64 - 2 ∧
    overgrownScanner.ProcessHeaderConsensusChange (maturedOnly []) (fetchConst []) = none ∧
    ∀ (s : seedScanner) (hcc : HeaderConsensusChange) (fetch : DiffFetcher),
      (s.ProcessHeaderConsensusChange hcc fetch = none ↔
        ((∃ pbh ∈ hcc.AppliedBlockHeaders,
            pbh.GCSFilter.MatchUnlockHash pbh.BlockHeader.ID s.keysArray = true ∧
            fetch pbh.BlockHeader.ID DiffApply = none) ∨
          (∃ pbh ∈ hcc.RevertedBlockHeaders,
            pbh.GCSFilter.MatchUnlockHash pbh.BlockHeader.ID s.keysArray = true ∧
            fetch pbh.BlockHeader.ID DiffRevert = none)) ∨
        ∃ diffs, s.collectDiffs hcc fetch = some diffs ∧
          0 < u64sub (usageUpdated s diffs).maximumInternalIndex
            (usageUpdated s diffs).maximumExternalIndex ∧
          maxSliceLen < (usageUpdated s diffs).toGrow) := by
  refine ⟨rfl, rfl, by decide, by decide, by decide, rfl, ?_⟩
  intro s hcc fetch
  rw [seedScanner.ProcessHeaderConsensusChange_eq_none_iff,
    seedScanner.collectDiffs_eq_combinedDiffs, combinedDiffs_eq_none_iff]

/-! ### Dust threshold -/

/-- C18: `seedScanner.setDustThreshold(d)` changes `dustThreshold` only, so
the ledger is unchanged for every `d`; and an output recorded in the ledger is
still there, unchanged, after the threshold has been set to any `d` (above its
value or not) and a later batch has been processed whose combined diff
sequence holds no diff with that output's id. -/
theorem dust_threshold_not_retroactive (s : seedScanner) (d : Currency)
    (x : SiacoinOutputID) (e : scannedOutput) (hcc : HeaderConsensusChange)
    (fetch : DiffFetcher) (diffs : List SiacoinOutputDiff)
    (hrec : s.siacoinOutputs.lookup x = some e)
    (hcollect : (s.setDustThreshold d).collectDiffs hcc fetch = some diffs)
    (hother : ∀ d' ∈ diffs, d'.ID ≠ x) :
    s.setDustThreshold d = { s with dustThreshold := d } ∧
    (s.setDustThreshold d).siacoinOutputs = s.siacoinOutputs ∧
    (s.setDustThreshold d).siacoinOutputs.lookup x = some e ∧
    ∀ s', (s.setDustThreshold d).ProcessHeaderConsensusChange hcc fetch = some s' →
      s'.siacoinOutputs.lookup x = some e := by
  refine ⟨rfl, rfl, hrec, fun s' hp => ?_⟩
  rw [seedScanner.ProcessHeaderConsensusChange_eq_some _ s' hcc fetch diffs hcollect hp,
    seedScanner.growWindowed_siacoinOutputs,
    foldl_ledgerRule_lookup_of_not_named _ _ _ _ _ hother]
  exact hrec

/-- Instance of `dust_threshold_not_retroactive`: the scanner holds output 7
of value 100; the threshold is raised to 1000 and a batch applies output 8 of
value 2000. Output 7 is still in the ledger. -/
theorem dust_threshold_not_retroactive_witness :
    holdingScanner.siacoinOutputs.lookup 7 = some { id := 7, value := 100, seedIndex := 1 } ∧
      (holdingScanner.setDustThreshold 1000).collectDiffs
        (maturedOnly [applyOf 8 2000 1002]) (fetchConst []) = some [applyOf 8 2000 1002] ∧
      (∀ d' ∈ [applyOf 8 2000 1002], d'.ID ≠ 7) ∧
      ∃ s', (holdingScanner.setDustThreshold 1000).ProcessHeaderConsensusChange
          (maturedOnly [applyOf 8 2000 1002]) (fetchConst []) = some s' ∧
        s'.siacoinOutputs.lookup 7 = some { id := 7, value := 100, seedIndex := 1 } :=
  ⟨by decide, by decide, by decide,
    growWindowed (holdingScanner.setDustThreshold 1000) [applyOf 8 2000 1002], rfl,
    (dust_threshold_not_retroactive holdingScanner 1000 7 _ (maturedOnly [applyOf 8 2000 1002])
      (fetchConst []) [applyOf 8 2000 1002] (by decide) (by decide) (by decide)).2.2.2 _ rfl⟩

/-! ### The ledger invariant -/

theorem lookup_singleton_keys (a b : UnlockHash) (i : Nat) :
    (Finmap.singleton a i : KeyMap).lookup b = if b = a then some i else none := by
  split_ifs with h
  · rw [h]; exact Finmap.lookup_singleton_eq
  · exact Finmap.lookup_eq_none.mpr (fun hm => h ((Finmap.mem_singleton _ _ _).mp hm))

/-- One step of the ledger rule keeps the ledger invariant. -/
theorem ledgerRule_invariant (K : KeyMap) (dust : Currency) (L : Ledger)
    (d : SiacoinOutputDiff) (h : LedgerInvariant dust K L) :
    LedgerInvariant dust K (ledgerRule K dust L d) := by
  intro k e hk
  unfold ledgerRule at hk
  split at hk
  · rename_i i hi
    split_ifs at hk with hv
    · by_cases hkd : k = d.ID
      · rw [hkd, Finmap.lookup_insert] at hk
        have he := Option.some.inj hk
        rw [← he, hkd]
        exact ⟨rfl, hv, d.SiacoinOutput.UnlockHash, hi⟩
      · rw [Finmap.lookup_insert_of_ne _ hkd] at hk
        exact h k e hk
    · exact h k e hk
  · by_cases hkd : k = d.ID
    · rw [hkd, Finmap.lookup_erase] at hk
      cases hk
    · rw [Finmap.lookup_erase_ne hkd] at hk
      exact h k e hk
  · exact h k e hk

theorem foldl_ledgerRule_invariant (K : KeyMap) (dust : Currency)
    (ds : List SiacoinOutputDiff) :
    ∀ L : Ledger, LedgerInvariant dust K L →
      LedgerInvariant dust K (ds.foldl (ledgerRule K dust) L) := by
  induction ds with
  | nil => intro L h; exact h
  | cons d ds ih =>
    intro L h
    rw [List.foldl_cons]
    exact ih _ (ledgerRule_invariant K dust L d h)

/-- The ledger invariant survives a change of the key map that keeps the
index of every key. -/
theorem LedgerInvariant.of_keys_kept {dust : Currency} {K K' : KeyMap} {L : Ledger}
    (h : LedgerInvariant dust K L)
    (hk : ∀ a i, K.lookup a = some i → K'.lookup a = some i) :
    LedgerInvariant dust K' L := by
  intro k e hl
  obtain ⟨h1, h2, a, ha⟩ := h k e hl
  exact ⟨h1, h2, a, hk a _ ha⟩

/-- A `generateKeys` call that derives no address already tracked keeps the
index of every key. -/
theorem seedScanner.generateKeys_keeps_keys (s : seedScanner) (n : Nat)
    (hfresh : ∀ a ∈ Hyperspace.generateKeys s.seed (u64add s.numKeys s.minimumIndex) n,
      a ∉ s.keys)
    (a : UnlockHash) (i : Nat) (h : s.keys.lookup a = some i) :
    (s.generateKeys n).keys.lookup a = some i := by
  rw [seedScanner.generateKeys_keys, extendKeys_lookup_of_not_mem]
  · exact h
  · intro hm
    exact hfresh a hm (Finmap.mem_of_lookup_eq_some h)

/-- C16, counterexample: a state whose ledger satisfies the invariant (output
7 has id field 7, value 100 above the dust threshold 0, and seed index 99, the
index of the tracked address 1001) and which holds one key. `generateKeys(1)`
derives the key of position 1, whose address is 1001, and stores it with the
index 1: afterwards no tracked address has the index 99 of the ledger entry,
and the invariant fails. -/
theorem generateKeys_can_break_ledger_invariant :
    LedgerInvariant strayScanner.dustThreshold strayScanner.keys strayScanner.siacoinOutputs ∧
    (strayScanner.generateKeys 1).keys = Finmap.singleton 1001 1 ∧
    (strayScanner.generateKeys 1).siacoinOutputs.lookup 7 =
      some { id := 7, value := 100, seedIndex := 99 } ∧
    ¬ LedgerInvariant (strayScanner.generateKeys 1).dustThreshold
      (strayScanner.generateKeys 1).keys (strayScanner.generateKeys 1).siacoinOutputs := by
  have hkeys : (strayScanner.generateKeys 1).keys = Finmap.singleton 1001 1 := by decide
  have hl : (strayScanner.generateKeys 1).siacoinOutputs.lookup 7 =
      some { id := 7, value := 100, seedIndex := 99 } := by decide
  refine ⟨?_, hkeys, hl, ?_⟩
  · intro k e hk
    have hs : strayScanner.siacoinOutputs =
        Finmap.singleton 7 { id := 7, value := 100, seedIndex := 99 } := rfl
    rw [hs, lookup_singleton_ledger] at hk
    split_ifs at hk with h7
    · have he := Option.some.inj hk
      rw [← he, h7]
      exact ⟨rfl, by decide, 1001, by decide⟩
  · intro hinv
    obtain ⟨_, _, a, ha⟩ := hinv 7 _ hl
    rw [hkeys, lookup_singleton_keys] at ha
    split_ifs at ha
    · exact absurd (Option.some.inj ha) (by decide)

/-- C16, amended: let every ledger entry stored under an output id `k` have
the id field `k`, a value strictly above `dustThreshold` and the seed index of
some tracked address. The same holds after `generateKeys(n)` when none of the
`n` derived addresses is already a key of the key map, and after
`ProcessHeaderConsensusChange` on any batch when none of the addresses that
the call appends to `keysArray` is already a key of the key map; the dust
threshold is the same before and after. -/
theorem ledger_invariant_kept (s : seedScanner)
    (hinv : LedgerInvariant s.dustThreshold s.keys s.siacoinOutputs) :
    (∀ n : Nat,
      (∀ a ∈ generateKeys s.seed (u64add s.numKeys s.minimumIndex) n, a ∉ s.keys) →
      (s.generateKeys n).dustThreshold = s.dustThreshold ∧
      LedgerInvariant (s.generateKeys n).dustThreshold (s.generateKeys n).keys
        (s.generateKeys n).siacoinOutputs) ∧
    (∀ (hcc : HeaderConsensusChange) (fetch : DiffFetcher) (s' : seedScanner),
      s.ProcessHeaderConsensusChange hcc fetch = some s' →
      (∀ a ∈ s'.keysArray.drop s.keysArray.length, a ∉ s.keys) →
      s'.dustThreshold = s.dustThreshold ∧
      LedgerInvariant s'.dustThreshold s'.keys s'.siacoinOutputs) := by
  constructor
  · intro n hfresh
    refine ⟨seedScanner.generateKeys_dustThreshold s n, ?_⟩
    rw [seedScanner.generateKeys_dustThreshold, seedScanner.generateKeys_siacoinOutputs]
    exact hinv.of_keys_kept (seedScanner.generateKeys_keeps_keys s n hfresh)
  · intro hcc fetch s' hp hfresh
    cases hc : s.collectDiffs hcc fetch with
    | none =>
      rw [seedScanner.ProcessHeaderConsensusChange_eq_none_of_collectDiffs s hcc fetch hc] at hp
      cases hp
    | some diffs =>
      have hs' := seedScanner.ProcessHeaderConsensusChange_eq_some s _ hcc fetch diffs hc hp
      have hd : s'.dustThreshold = s.dustThreshold := by
        rw [hs', seedScanner.growWindowed_dustThreshold]
      have hL : s'.siacoinOutputs =
          diffs.foldl (ledgerRule s.keys s.dustThreshold) s.siacoinOutputs := by
        rw [hs', seedScanner.growWindowed_siacoinOutputs]
      refine ⟨hd, ?_⟩
      rw [hd, hL]
      apply (foldl_ledgerRule_invariant s.keys s.dustThreshold diffs _ hinv).of_keys_kept
      obtain ⟨s2, k1, k2, k3, k4, hcase⟩ :=
        seedScanner.ProcessHeaderConsensusChange_window s s' hcc fetch hp
      intro a i ha
      rcases hcase with h2 | ⟨m, h2⟩
      · rw [h2, k1]; exact ha
      · rw [h2]
        apply seedScanner.generateKeys_keeps_keys s2 m _ a i (by rw [k1]; exact ha)
        intro b hb
        rw [k1]
        apply hfresh b
        rw [h2, seedScanner.generateKeys_keysArray, k2, List.drop_left]
        exact hb

/-- Instance of `ledger_invariant_kept`: the warm scanner holding output 7
(seed index 1) derives two more keys, whose addresses 1003 and 1004 are not
tracked yet. -/
theorem ledger_invariant_kept_witness :
    LedgerInvariant holdingScanner.dustThreshold holdingScanner.keys
        holdingScanner.siacoinOutputs ∧
      (∀ a ∈ generateKeys holdingScanner.seed
          (u64add holdingScanner.numKeys holdingScanner.minimumIndex) 2,
        a ∉ holdingScanner.keys) ∧
      LedgerInvariant (holdingScanner.generateKeys 2).dustThreshold
        (holdingScanner.generateKeys 2).keys (holdingScanner.generateKeys 2).siacoinOutputs := by
  have hinv : LedgerInvariant holdingScanner.dustThreshold holdingScanner.keys
      holdingScanner.siacoinOutputs := by
    intro k e hk
    have hs : holdingScanner.siacoinOutputs =
        Finmap.singleton 7 { id := 7, value := 100, seedIndex := 1 } := rfl
    rw [hs, lookup_singleton_ledger] at hk
    split_ifs at hk with h7
    · have he := Option.some.inj hk
      rw [← he, h7]
      exact ⟨rfl, by decide, 1001, by decide⟩
  have hfresh : ∀ a ∈ generateKeys holdingScanner.seed
      (u64add holdingScanner.numKeys holdingScanner.minimumIndex) 2,
      a ∉ holdingScanner.keys := by decide
  exact ⟨hinv, hfresh, ((ledger_invariant_kept holdingScanner hinv).1 2 hfresh).2⟩

/-! ### The key window during a scan -/

theorem extendKeys_lookup_cases (base : Nat) (ks : List UnlockHash) :
    ∀ (i0 : Nat) (m : KeyMap) (a : UnlockHash) (i : Nat),
      (extendKeys base i0 ks m).lookup a = some i →
      m.lookup a = some i ∨ ∃ j, j < ks.length ∧ i = u64add base (i0 + j) := by
  induction ks with
  | nil => intro i0 m a i h; exact Or.inl h
  | cons k ks ih =>
    intro i0 m a i h
    simp only [extendKeys] at h
    rcases ih (i0 + 1) _ a i h with h1 | ⟨j, hj, hi⟩
    · by_cases hak : a = k
      · rw [hak, Finmap.lookup_insert] at h1
        right
        exact ⟨0, by simp, by rw [← Option.some.inj h1]; rfl⟩
      · rw [Finmap.lookup_insert_of_ne _ hak] at h1
        exact Or.inl h1
    · right
      refine ⟨j + 1, by simp only [List.length_cons]; omega, ?_⟩
      rw [hi]
      congr 1
      omega

theorem keys_card_insert_le (m : KeyMap) (k : UnlockHash) (v : Nat) :
    (m.insert k v).keys.card ≤ m.keys.card + 1 := by
  have hsub : (m.insert k v).keys ⊆ insert k m.keys := by
    intro a ha
    rw [Finmap.mem_keys, Finmap.mem_insert] at ha
    rw [Finset.mem_insert, Finmap.mem_keys]
    exact ha
  exact Nat.le_trans (Finset.card_le_card hsub) (Finset.card_insert_le _ _)

theorem extendKeys_card_le (base : Nat) (ks : List UnlockHash) :
    ∀ (i0 : Nat) (m : KeyMap), (extendKeys base i0 ks m).keys.card ≤ m.keys.card + ks.length := by
  induction ks with
  | nil => intro i0 m; exact Nat.le_refl _
  | cons k ks ih =>
    intro i0 m
    simp only [extendKeys, List.length_cons]
    have h1 := ih (i0 + 1) (m.insert k (u64add base i0))
    have h2 := keys_card_insert_le m k (u64add base i0)
    omega

/-- The indices and the number of keys after `generateKeys(n)`, when the
internal index does not pass `2 ^ 64`. -/
theorem seedScanner.generateKeys_window (s : seedScanner) (n : Nat)
    (hidx : ∀ a i, s.keys.lookup a = some i → i < s.maximumInternalIndex)
    (hcount : s.minimumIndex + s.numKeys ≤ s.maximumInternalIndex)
    (hrange : s.maximumInternalIndex + n < uint64Size) :
    (s.generateKeys n).maximumInternalIndex = s.maximumInternalIndex + n ∧
    (∀ a i, (s.generateKeys n).keys.lookup a = some i →
      i < s.maximumInternalIndex + n) ∧
    (s.generateKeys n).minimumIndex + (s.generateKeys n).numKeys ≤
      s.maximumInternalIndex + n := by
  refine ⟨?_, ?_, ?_⟩
  · rw [seedScanner.generateKeys_maximumInternalIndex]
    exact Nat.mod_eq_of_lt hrange
  · intro a i h
    rw [seedScanner.generateKeys_keys] at h
    rcases extendKeys_lookup_cases _ _ _ _ _ _ h with h1 | ⟨j, hj, hi⟩
    · exact Nat.lt_of_lt_of_le (hidx a i h1) (Nat.le_add_right _ _)
    · rw [generateKeys_length] at hj
      rw [hi]
      unfold u64add uint64Size at *
      omega
  · rw [seedScanner.generateKeys_minimumIndex]
    have hc : (s.generateKeys n).numKeys ≤ s.numKeys + n := by
      unfold seedScanner.numKeys
      rw [seedScanner.generateKeys_keys]
      have := extendKeys_card_le (u64add s.numKeys s.minimumIndex)
        (Hyperspace.generateKeys s.seed (u64add s.numKeys s.minimumIndex) n) 0 s.keys
      rw [generateKeys_length] at this
      exact this
    omega

/-- The usage update of a batch, from a state of the window invariant: the
external index does not decrease and stays below the internal index. -/
theorem seedScanner.WindowInvariant.usage_bounds {g : Nat} {s : seedScanner}
    (hw : s.WindowInvariant g) (hg : 1 ≤ g) (diffs : List SiacoinOutputDiff) :
    s.maximumExternalIndex ≤ (growWindowed s diffs).maximumExternalIndex ∧
    (growWindowed s diffs).maximumExternalIndex < s.maximumInternalIndex := by
  obtain ⟨_, hidx, _, hgap, _⟩ := hw
  rw [seedScanner.growWindowed_maximumExternalIndex]
  obtain ⟨h1, _, h3⟩ :=
    seedScanner.foldl_markUsed_maximumExternalIndex diffs (diffs.foldl seedScanner.applyDiff s)
  rw [seedScanner.foldl_applyDiff_keys] at h3
  rw [(seedScanner.foldl_applyDiff_frame diffs s).2.2.2.1] at h1 h3
  refine ⟨h1, ?_⟩
  rcases h3 with h3 | ⟨d, _, h3⟩
  · rw [h3]; omega
  · exact hidx _ _ h3

/-- A completed batch that leaves the internal index below `2 ^ 64` keeps the
window invariant. -/
theorem seedScanner.WindowInvariant.batch {g : Nat} {s : seedScanner}
    (hw : s.WindowInvariant g) (hg : 1 ≤ g) (diffs : List SiacoinOutputDiff)
    (hrange : (growWindowed s diffs).maximumExternalIndex + g < uint64Size) :
    (growWindowed s diffs).WindowInvariant g := by
  obtain ⟨hle, hlt⟩ := hw.usage_bounds hg diffs
  obtain ⟨hlim, hidx, hint, hgap, hcount⟩ := hw
  have hext := seedScanner.growWindowed_maximumExternalIndex s diffs
  obtain ⟨f1, _, _, _, f5, f6, _, f8⟩ :=
    seedScanner.foldl_markUsed_frame diffs (diffs.foldl seedScanner.applyDiff s)
  obtain ⟨_, e2, e3, _, _, e6⟩ := seedScanner.foldl_applyDiff_frame diffs s
  have ek := seedScanner.foldl_applyDiff_keys diffs s
  rw [hext] at hle hlt hrange
  unfold growWindowed usageUpdated seedScanner.toGrow
  generalize diffs.foldl seedScanner.markUsed (diffs.foldl seedScanner.applyDiff s) = s2
    at hle hlt hrange f1 f5 f6 f8 ⊢
  have k2 : s2.keys = s.keys := f1.trans ek
  have m2 : s2.minimumIndex = s.minimumIndex := f5.trans e2
  have i2 : s2.maximumInternalIndex = s.maximumInternalIndex := f6.trans e3
  have g2 : s2.addressGapLimit = g := (f8.trans e6).trans hlim
  have n2 : s2.numKeys = s.numKeys := by unfold seedScanner.numKeys; rw [k2]
  have hgs : g < uint64Size := by omega
  have hpos : 0 < u64sub s2.maximumInternalIndex s2.maximumExternalIndex := by
    rw [i2]; unfold u64sub uint64Size at *; omega
  have hdef : u64sub s2.addressGapLimit
      (u64sub s2.maximumInternalIndex s2.maximumExternalIndex) =
      g - (s.maximumInternalIndex - s2.maximumExternalIndex) := by
    rw [i2, g2]
    exact u64_deficit _ _ _ hint hlt (by omega) hgs
  rw [if_pos hpos, hdef]
  obtain ⟨w1, w2, w3⟩ := seedScanner.generateKeys_window s2
    (g - (s.maximumInternalIndex - s2.maximumExternalIndex))
    (by rw [k2, i2]; exact hidx) (by rw [m2, n2, i2]; exact hcount) (by rw [i2]; omega)
  rw [i2] at w1 w2 w3
  refine ⟨by rw [seedScanner.generateKeys_addressGapLimit, g2], ?_, ?_, ?_, ?_⟩
  · intro a i h
    rw [w1]
    exact w2 a i h
  · rw [w1]; omega
  · rw [w1, seedScanner.generateKeys_maximumExternalIndex]; omega
  · rw [w1]; exact w3

/-- Every state of a scan satisfies the window invariant. -/
theorem seedScanner.Scanning.windowInvariant {seed : Seed} {g X : Nat} {L : Ledger}
    {s : seedScanner} (hg : 1 ≤ g) (hr : seedScanner.Scanning seed g X L s) :
    s.WindowInvariant g := by
  induction hr with
  | warm d hX =>
    obtain ⟨w1, w2, w3⟩ := seedScanner.generateKeys_window
      { newFastSeedScanner seed g with
        dustThreshold := d
        minimumIndex := X
        maximumInternalIndex := X
        maximumExternalIndex := X
        siacoinOutputs := L } g
      (fun a i h => by simp [newFastSeedScanner, Finmap.lookup_empty] at h)
      (by simp [newFastSeedScanner, seedScanner.numKeys])
      hX
    refine ⟨by simp [newFastSeedScanner], ?_, ?_, ?_, ?_⟩
    · intro a i h
      rw [w1]
      exact w2 a i h
    · rw [w1]; exact hX
    · rw [w1, seedScanner.generateKeys_maximumExternalIndex]
    · rw [w1]; exact w3
  | setDust d _ ih => exact ih
  | batch hcc fetch _ hp hrange ih =>
    cases hc : seedScanner.collectDiffs _ hcc fetch with
    | none =>
      rw [seedScanner.ProcessHeaderConsensusChange_eq_none_of_collectDiffs _ hcc fetch hc] at hp
      cases hp
    | some diffs =>
      have hs' := seedScanner.ProcessHeaderConsensusChange_eq_some _ _ hcc fetch diffs hc hp
      rw [hs'] at hrange ⊢
      exact ih.batch hg diffs hrange

/-- C19: from `newFastSeedScanner` with gap limit `g ≥ 1` (`X = 0`, empty
ledger) or from the handoff seeding `minimumIndex = maximumInternalIndex =
maximumExternalIndex = X`, after the warm-up `generateKeys(g)` and any finite
sequence of completed `ProcessHeaderConsensusChange` calls, as long as
`maximumInternalIndex` stays below `2 ^ 64`: every index stored in `keys` is
below `maximumInternalIndex`, `maximumExternalIndex < maximumInternalIndex`,
and `maximumInternalIndex - maximumExternalIndex = g`. Hence in the next
batch neither unsigned subtraction of the gap computation wraps: the external
index after the usage update is below the internal index, the gap is at most
`g`, and both `uint64` differences are the plain differences. -/
theorem scanning_window_invariant (seed : Seed) (g X : Nat) (L : Ledger) (s : seedScanner)
    (hg : 1 ≤ g) (hr : seedScanner.Scanning seed g X L s) :
    (∀ a i, s.keys.lookup a = some i → i < s.maximumInternalIndex) ∧
    s.maximumExternalIndex < s.maximumInternalIndex ∧
    s.maximumInternalIndex - s.maximumExternalIndex = g ∧
    s.maximumInternalIndex < uint64Size ∧
    (∀ (hcc : HeaderConsensusChange) (fetch : DiffFetcher) (s' : seedScanner),
      s.ProcessHeaderConsensusChange hcc fetch = some s' →
      s'.maximumExternalIndex < s.maximumInternalIndex ∧
      s.maximumInternalIndex - s'.maximumExternalIndex ≤ s.addressGapLimit ∧
      u64sub s.maximumInternalIndex s'.maximumExternalIndex =
        s.maximumInternalIndex - s'.maximumExternalIndex ∧
      u64sub s.addressGapLimit (u64sub s.maximumInternalIndex s'.maximumExternalIndex) =
        s.addressGapLimit - (s.maximumInternalIndex - s'.maximumExternalIndex)) := by
  have hw := hr.windowInvariant hg
  obtain ⟨hlim, hidx, hint, hgap, hcount⟩ := hw
  refine ⟨hidx, by omega, by omega, hint, ?_⟩
  intro hcc fetch s' hp
  cases hc : s.collectDiffs hcc fetch with
  | none =>
    rw [seedScanner.ProcessHeaderConsensusChange_eq_none_of_collectDiffs s hcc fetch hc] at hp
    cases hp
  | some diffs =>
    have hs' := seedScanner.ProcessHeaderConsensusChange_eq_some s _ hcc fetch diffs hc hp
    obtain ⟨hle, hlt⟩ :=
      seedScanner.WindowInvariant.usage_bounds ⟨hlim, hidx, hint, hgap, hcount⟩ hg diffs
    rw [← hs'] at hle hlt
    have hsub : u64sub s.maximumInternalIndex s'.maximumExternalIndex =
        s.maximumInternalIndex - s'.maximumExternalIndex := by
      unfold u64sub uint64Size at *
      omega
    refine ⟨hlt, by omega, hsub, ?_⟩
    rw [hlim]
    exact u64_deficit _ _ _ hint hlt (by omega) (by omega)

/-- Instance of `scanning_window_invariant`: the warm scanner (gap limit 3)
after a batch that uses the address of index 2. -/
theorem scanning_window_invariant_witness :
    seedScanner.Scanning sampleSeed 3 0 ∅ (growWindowed warmScanner [applyOf 7 100 1002]) ∧
      (growWindowed warmScanner [applyOf 7 100 1002]).maximumExternalIndex = 2 ∧
      (growWindowed warmScanner [applyOf 7 100 1002]).maximumInternalIndex -
        (growWindowed warmScanner [applyOf 7 100 1002]).maximumExternalIndex = 3 := by
  have hwarm : seedScanner.Scanning sampleSeed 3 0 ∅ warmScanner :=
    seedScanner.Scanning.warm 0 (by decide)
  have hrun : seedScanner.Scanning sampleSeed 3 0 ∅
      (growWindowed warmScanner [applyOf 7 100 1002]) :=
    seedScanner.Scanning.batch (maturedOnly [applyOf 7 100 1002]) (fetchConst []) hwarm rfl
      (by decide)
  exact ⟨hrun, by decide,
    (scanning_window_invariant sampleSeed 3 0 ∅ _ (by decide) hrun).2.2.1⟩

/-! ### The dust thresholds of the legacy scanner and its embedded scanner -/

/-- The handoff of a scanner whose `cancel` has just been closed, in terms of
its embedded scanner. -/
theorem slowSeedScanner.handoff_of_closed (s0 : slowSeedScanner) (G : seedScanner)
    (hG : s0.gapScanner = some G) :
    ({ s0 with cancel := Chan.closed } : slowSeedScanner).handoff =
      some (seedScanner.generateKeys
        { G with
          minimumIndex := s0.maximumExternalIndex
          maximumInternalIndex := s0.maximumExternalIndex
          maximumExternalIndex := s0.maximumExternalIndex
          siacoinOutputs := s0.siacoinOutputs }
        s0.addressGapLimit) := by
  unfold slowSeedScanner.handoff
  simp only [hG]

/-- C20 (divergence): the legacy scanner and its embedded scanner do not
always share a dust threshold. On a newly constructed legacy scanner
`setDustThreshold(d)` panics, its `gapScanner` being nil. On a scanner that
has an embedded scanner the setter succeeds and sets both thresholds to `d`,
but the next `scan` replaces the embedded scanner by a new one: at the
handoff the legacy scanner still has threshold `d` while the embedded scanner
has threshold `0`. -/
theorem slow_dust_threshold_not_shared (seed : Seed) (g : Nat) (d : Currency)
    (release : Release) (s : slowSeedScanner) (gs0 : seedScanner) :
    (newSlowSeedScanner seed g).setDustThreshold d = none ∧
    ∃ s2 s1 gs,
      ({ s with gapScanner := some gs0 } : slowSeedScanner).setDustThreshold d = some s2 ∧
      s2.dustThreshold = d ∧
      s2.gapScanner = some { gs0 with dustThreshold := d } ∧
      cutoffChain.subscribeSlow (s2.prepare release) ConsensusChangeBeginning =
        some (s1, some SubscribeError.ErrStopped) ∧
      s1.handoff = some gs ∧
      s1.dustThreshold = d ∧
      gs.dustThreshold = 0 := by
  have hp := slowSeedScanner.prepare_fields
    ({ s with dustThreshold := d, gapScanner := some { gs0 with dustThreshold := d } })
    release
  have hleg := cutoffChain.subscribeSlow_cutoff_single
    (slowSeedScanner.prepare
      ({ s with dustThreshold := d, gapScanner := some { gs0 with dustThreshold := d } })
      release)
    ConsensusChangeBeginning
    (singleApplied (sampleHeader 2 8)) (sampleHeader 2 8) [] rfl rfl rfl (by decide)
    hp.2.2.2.2.1
  have hhand := slowSeedScanner.handoff_of_closed
    (slowSeedScanner.prepare
      ({ s with dustThreshold := d, gapScanner := some { gs0 with dustThreshold := d } })
      release) _ hp.1
  refine ⟨rfl, { s with dustThreshold := d, gapScanner := some { gs0 with dustThreshold := d } },
    _, _, rfl, rfl, rfl, hleg, hhand, hp.2.2.2.1, ?_⟩
  rw [seedScanner.generateKeys_dustThreshold]
  rfl

/-! ### The legacy phase on a chain that pays the address of index 2 -/

/-- The key map of the scanner prepared by `scan` from a scanner without keys:
the address derived at a position of the legacy batch is stored with that
position. -/
theorem slowSeedScanner.prepare_lookup (s : slowSeedScanner) (release : Release)
    (hk : s.keys = ∅) (hinj : s.seed.CollisionFreeBelow (numInitialKeys release))
    (j : Nat) (hj : j < numInitialKeys release) :
    (s.prepare release).keys.lookup (s.seed.addr j) = some j := by
  have hn : numInitialKeys release < uint64Size := by
    cases release <;> decide
  have h0 : slowSeedScanner.numKeys
      { s with gapScanner := some (newFastSeedScanner s.seed s.addressGapLimit) } = 0 := by
    simp [slowSeedScanner.numKeys, hk]
  have hkeys : (s.prepare release).keys =
      extendKeys 0 0 (Hyperspace.generateKeys s.seed 0 (numInitialKeys release)) s.keys := by
    have := (slowSeedScanner.generateKeys_fields
      { s with gapScanner := some (newFastSeedScanner s.seed s.addressGapLimit) }
      (numInitialKeys release)).1
    rw [h0] at this
    exact this
  have hl := (keysInLockstep_empty s.seed 0).extend 0 (numInitialKeys release)
    (fun i hi => by unfold u64add uint64Size at *; simp; omega)
    (by simpa using hinj)
  have hget : ([] ++ Hyperspace.generateKeys s.seed 0 (numInitialKeys release))[j]? =
      some (s.seed.addr j) := by
    rw [List.nil_append, generateKeys_getElem? _ _ _ _ hj]
    congr 2
    unfold u64add uint64Size at *
    omega
  have := hl.2.1 j _ hget
  rw [hkeys, hk, this, Nat.zero_add]

/-- The legacy scanner on the batch of the legacy era in which output `7` pays
the address 1002, tracked with index 2: the output is recorded, the external
index is raised to 2 and the bookmark is set. -/
theorem slowSeedScanner.ProcessHeaderConsensusChange_airdropBatch (s0 : slowSeedScanner)
    (hk : s0.keys.lookup 1002 = some 2) (hx : s0.maximumExternalIndex < 2)
    (hd : s0.dustThreshold < 100) :
    s0.ProcessHeaderConsensusChange airdropBatch (fetchConst [applyOf 7 100 1002]) =
      some { s0 with
        maximumExternalIndex := 2
        siacoinOutputs := s0.siacoinOutputs.insert 7 { id := 7, value := 100, seedIndex := 2 }
        lastConsensusChange := 4 } := by
  simp [slowSeedScanner.ProcessHeaderConsensusChange, airdropBatch, slowSeedScanner.appliedLoop,
    slowSeedScanner.revertedLoop, isAirdrop, sampleHeader, matchAll, fetchConst,
    slowSeedScanner.adjustMinimumIndex, slowSeedScanner.adjustStep, slowSeedScanner.applyDiff,
    applyOf, hk, hx, hd]

/-- The legacy subscription on `handoffChain`: the first batch is processed,
the second closes `cancel`, and the feed returns the stopped indication. -/
theorem handoffChain_subscribeSlow (s0 : slowSeedScanner) (start : ConsensusChangeID)
    (hk : s0.keys.lookup 1002 = some 2) (hx : s0.maximumExternalIndex < 2)
    (hd : s0.dustThreshold < 100) (hopen : s0.cancel = Chan.opened) :
    handoffChain.subscribeSlow s0 start =
      some ({ s0 with
          maximumExternalIndex := 2
          siacoinOutputs := s0.siacoinOutputs.insert 7 { id := 7, value := 100, seedIndex := 2 }
          lastConsensusChange := 4
          cancel := Chan.closed },
        some SubscribeError.ErrStopped) := by
  have h1 := slowSeedScanner.ProcessHeaderConsensusChange_airdropBatch s0 hk hx hd
  have h2 := slowSeedScanner.ProcessHeaderConsensusChange_cutoff_first
    { s0 with
      maximumExternalIndex := 2
      siacoinOutputs := s0.siacoinOutputs.insert 7 { id := 7, value := 100, seedIndex := 2 }
      lastConsensusChange := 4
      cancel := Chan.opened }
    (singleApplied (sampleHeader 2 8)) (fetchConst [applyOf 7 100 1002]) (sampleHeader 2 8) []
    rfl (by decide) rfl
  simp [ConsensusSet.subscribeSlow, handoffChain, ConsensusSet.deliverSlow, hopen, h1, h2]

/-- The legacy subscription on a feed made of the batch of the legacy era
alone: the batch is processed, and the subscription returns the failure of
the feed, or `nil` when the feed does not fail. -/
theorem airdropFeed_subscribeSlow (cs : ConsensusSet) (s0 : slowSeedScanner)
    (start : ConsensusChangeID) (hfeed : cs.changesAfter start = [airdropBatch])
    (hfetch : cs.getSiacoinOutputDiff = fetchConst [applyOf 7 100 1002])
    (hk : s0.keys.lookup 1002 = some 2) (hx : s0.maximumExternalIndex < 2)
    (hd : s0.dustThreshold < 100) (hopen : s0.cancel = Chan.opened) :
    (cs.failsAfter start = some 1 →
      cs.subscribeSlow s0 start =
        some ({ s0 with
            maximumExternalIndex := 2
            siacoinOutputs :=
              s0.siacoinOutputs.insert 7 { id := 7, value := 100, seedIndex := 2 }
            lastConsensusChange := 4 },
          some SubscribeError.failure)) ∧
    (cs.failsAfter start = none →
      cs.subscribeSlow s0 start =
        some ({ s0 with
            maximumExternalIndex := 2
            siacoinOutputs :=
              s0.siacoinOutputs.insert 7 { id := 7, value := 100, seedIndex := 2 }
            lastConsensusChange := 4 },
          none)) := by
  have h1 := slowSeedScanner.ProcessHeaderConsensusChange_airdropBatch s0 hk hx hd
  constructor
  · intro hf
    simp [ConsensusSet.subscribeSlow, hfeed, hfetch, hf, ConsensusSet.deliverSlow, hopen, h1]
  · intro hf
    simp [ConsensusSet.subscribeSlow, hfeed, hfetch, hf, ConsensusSet.deliverSlow, hopen, h1]

/-- When the legacy subscription returns an error other than the stopped
indication, `scan` returns that error at once: its only call to the consensus
set is the first subscription. -/
theorem slowSeedScanner.scan_of_failure (s s1 : slowSeedScanner) (cs : ConsensusSet)
    (release : Release) (cancel : Option Nat)
    (hleg : cs.subscribeSlow (s.prepare release) ConsensusChangeBeginning =
      some (s1, some SubscribeError.failure)) :
    s.scan cs release cancel =
      some { scanner := s1, err := some SubscribeError.failure,
             calls := [CsCall.HeaderConsensusSetSubscribe Subscriber.slowScanner
               ConsensusChangeBeginning] } := by
  unfold slowSeedScanner.scan
  simp only [hleg]
  rfl

/-- The scanner prepared by `scan` from a new legacy scanner with the sample
seed tracks the address 1002 with the index 2, and starts with external index
0, dust threshold 0 and an open `cancel`. -/
theorem prepared_sample_fields (g : Nat) (release : Release) :
    ((newSlowSeedScanner sampleSeed g).prepare release).keys.lookup 1002 = some 2 ∧
    ((newSlowSeedScanner sampleSeed g).prepare release).maximumExternalIndex < 2 ∧
    ((newSlowSeedScanner sampleSeed g).prepare release).dustThreshold < 100 ∧
    ((newSlowSeedScanner sampleSeed g).prepare release).cancel = Chan.opened ∧
    ((newSlowSeedScanner sampleSeed g).prepare release).gapScanner =
      some (newFastSeedScanner sampleSeed g) := by
  obtain ⟨p1, _, _, p4, p5, p6, _, _⟩ :=
    slowSeedScanner.prepare_fields (newSlowSeedScanner sampleSeed g) release
  have hk := slowSeedScanner.prepare_lookup (newSlowSeedScanner sampleSeed g) release rfl
    (sampleSeed_collisionFree _) 2 (by cases release <;> decide)
  refine ⟨hk, ?_, ?_, p5, p1⟩
  · rw [p6]; exact Nat.zero_lt_two
  · rw [p4]; exact Nat.succ_pos 99

/-- The fields of the legacy scanner after the batch of the legacy era. -/
theorem airdropBatch_outcome_fields (s0 : slowSeedScanner) (c : Chan) :
    ({ s0 with
        maximumExternalIndex := 2
        siacoinOutputs := s0.siacoinOutputs.insert 7 { id := 7, value := 100, seedIndex := 2 }
        lastConsensusChange := 4
        cancel := c } : slowSeedScanner).maximumExternalIndex = 2 ∧
    ({ s0 with
        maximumExternalIndex := 2
        siacoinOutputs := s0.siacoinOutputs.insert 7 { id := 7, value := 100, seedIndex := 2 }
        lastConsensusChange := 4
        cancel := c } : slowSeedScanner).siacoinOutputs.lookup 7 =
      some { id := 7, value := 100, seedIndex := 2 } ∧
    ({ s0 with
        maximumExternalIndex := 2
        siacoinOutputs := s0.siacoinOutputs.insert 7 { id := 7, value := 100, seedIndex := 2 }
        lastConsensusChange := 4
        cancel := c } : slowSeedScanner).lastConsensusChange = 4 :=
  ⟨rfl, Finmap.lookup_insert s0.siacoinOutputs, rfl⟩

/-- The legacy `scan` on a feed made of the batch of the legacy era alone,
when the subscription then reports a failure and when it returns `nil`: `scan`
returns at once, the embedded scanner being as `newFastSeedScanner` built
it. -/
theorem slowSeedScanner.scan_airdropFeed (s : slowSeedScanner) (cs : ConsensusSet)
    (release : Release) (cancel : Option Nat)
    (hfeed : cs.changesAfter ConsensusChangeBeginning = [airdropBatch])
    (hfetch : cs.getSiacoinOutputDiff = fetchConst [applyOf 7 100 1002])
    (hk : (s.prepare release).keys.lookup 1002 = some 2)
    (hx : (s.prepare release).maximumExternalIndex < 2)
    (hd : (s.prepare release).dustThreshold < 100)
    (herr : cs.failsAfter ConsensusChangeBeginning = some 1 ∨
      cs.failsAfter ConsensusChangeBeginning = none) :
    ∃ o : SlowScanOutcome, s.scan cs release cancel = some o ∧
      (cs.failsAfter ConsensusChangeBeginning = some 1 → o.err = some SubscribeError.failure) ∧
      (cs.failsAfter ConsensusChangeBeginning = none → o.err = none) ∧
      o.scanner.maximumExternalIndex = 2 ∧
      o.scanner.siacoinOutputs.lookup 7 = some { id := 7, value := 100, seedIndex := 2 } ∧
      o.scanner.gapScanner = some (newFastSeedScanner s.seed s.addressGapLimit) := by
  obtain ⟨p1, _, _, _, p5, _⟩ := slowSeedScanner.prepare_fields s release
  obtain ⟨hf, hn⟩ := airdropFeed_subscribeSlow cs (s.prepare release) ConsensusChangeBeginning
    hfeed hfetch hk hx hd p5
  obtain ⟨f1, f2, _⟩ := airdropBatch_outcome_fields (s.prepare release) (s.prepare release).cancel
  rcases herr with he | he
  · exact ⟨_, slowSeedScanner.scan_of_failure s _ cs release cancel (hf he), fun _ => rfl,
      (fun h => by rw [he] at h; cases h), f1, f2, p1⟩
  · exact ⟨_, slowSeedScanner.scan_of_nil s _ cs release cancel (hn he),
      (fun h => by rw [he] at h; cases h), fun _ => rfl, f1, f2, p1⟩

/-- C12, counterexample: the legacy phase of `scan` can end without the
handoff. A new legacy scanner (sample seed, gap limit 3) scans a chain whose
one batch pays the address of index 2 and whose subscription then reports a
failure: `scan` returns the failure, as the guard after the subscription
says. The legacy phase has ended with `maximumExternalIndex = 2` and output 7
in the ledger, and the embedded scanner is as `newFastSeedScanner` built it:
`minimumIndex = maximumInternalIndex = 0`, no key, an empty ledger. The
embedded scanner is left in the same state when the feed ends after that
batch and the subscription returns `nil`. -/
theorem handoff_skipped_without_stop :
    (∃ o : SlowScanOutcome,
      (newSlowSeedScanner sampleSeed 3).scan failingChain Release.testing none = some o ∧
      o.err = some SubscribeError.failure ∧
      o.scanner.maximumExternalIndex = 2 ∧
      o.scanner.siacoinOutputs.lookup 7 = some { id := 7, value := 100, seedIndex := 2 } ∧
      ∃ gs, o.scanner.gapScanner = some gs ∧
        gs.minimumIndex = 0 ∧ gs.maximumInternalIndex = 0 ∧ gs.maximumExternalIndex = 0 ∧
        gs.keysArray = [] ∧ gs.siacoinOutputs.lookup 7 = none) ∧
    (∃ o : SlowScanOutcome,
      (newSlowSeedScanner sampleSeed 3).scan endingChain Release.testing none = some o ∧
      o.err = none ∧
      o.scanner.maximumExternalIndex = 2 ∧
      o.scanner.siacoinOutputs.lookup 7 = some { id := 7, value := 100, seedIndex := 2 } ∧
      ∃ gs, o.scanner.gapScanner = some gs ∧
        gs.minimumIndex = 0 ∧ gs.maximumInternalIndex = 0 ∧ gs.maximumExternalIndex = 0 ∧
        gs.keysArray = [] ∧ gs.siacoinOutputs.lookup 7 = none) := by
  obtain ⟨hk, hx, hd, _, _⟩ := prepared_sample_fields 3 Release.testing
  obtain ⟨o, a1, a2, _, a4, a5, a6⟩ := slowSeedScanner.scan_airdropFeed
    (newSlowSeedScanner sampleSeed 3) failingChain Release.testing none rfl rfl hk hx hd
    (Or.inl rfl)
  obtain ⟨o2, b1, _, b3, b4, b5, b6⟩ := slowSeedScanner.scan_airdropFeed
    (newSlowSeedScanner sampleSeed 3) endingChain Release.testing none rfl rfl hk hx hd
    (Or.inr rfl)
  exact ⟨⟨o, a1, a2 rfl, a4, a5, newFastSeedScanner sampleSeed 3, a6, rfl, rfl, rfl, rfl,
      Finmap.lookup_empty 7⟩,
    ⟨o2, b1, b3 rfl, b4, b5, newFastSeedScanner sampleSeed 3, b6, rfl, rfl, rfl, rfl,
      Finmap.lookup_empty 7⟩⟩

/-- Instance of `handoff_seeds_embedded_scanner`: a new legacy scanner with gap
limit 3 scans `handoffChain`. The legacy phase records output 7 for the
address of index 2 and sets the bookmark 4, then the block of height 8 stops
it: it ends with `maximumExternalIndex = 2` and output 7 in the ledger. The
embedded scanner is seeded with the index 2 and that ledger, tracks the
addresses of the positions 2, 3, 4, and is subscribed from the bookmark 4. -/
theorem handoff_seeds_embedded_scanner_witness :
    ∃ s1 : slowSeedScanner,
      handoffChain.subscribeSlow ((newSlowSeedScanner sampleSeed 3).prepare Release.testing)
          ConsensusChangeBeginning = some (s1, some SubscribeError.ErrStopped) ∧
      s1.maximumExternalIndex = 2 ∧
      s1.siacoinOutputs.lookup 7 = some { id := 7, value := 100, seedIndex := 2 } ∧
      s1.lastConsensusChange = 4 ∧
      ∃ gs, s1.handoff = some gs ∧
        gs.minimumIndex = 2 ∧ gs.maximumExternalIndex = 2 ∧ gs.maximumInternalIndex = 2 + 3 ∧
        gs.siacoinOutputs.lookup 7 = some { id := 7, value := 100, seedIndex := 2 } ∧
        (∀ j, j < 3 → gs.keysArray[j]? = some (sampleSeed.addr (2 + j))) ∧
        gs.keysArray.length = 3 ∧
        (newSlowSeedScanner sampleSeed 3).scan handoffChain Release.testing none =
          s1.finishScan (handoffChain.subscribeFast gs 4 none) := by
  obtain ⟨hk, hx, hd, hopen, _⟩ := prepared_sample_fields 3 Release.testing
  have hleg := handoffChain_subscribeSlow
    ((newSlowSeedScanner sampleSeed 3).prepare Release.testing) ConsensusChangeBeginning
    hk hx hd hopen
  obtain ⟨hX, hL, hB⟩ := airdropBatch_outcome_fields
    ((newSlowSeedScanner sampleSeed 3).prepare Release.testing) Chan.closed
  obtain ⟨gs, h1, h2, h3, h4, h5, _, h7, h8, h9⟩ :=
    handoff_seeds_embedded_scanner (newSlowSeedScanner sampleSeed 3) _ handoffChain
      Release.testing none hleg (by rw [hX]; decide) (sampleSeed_collisionFree _)
  rw [hX] at h2 h3 h4 h7
  rw [hB] at h9
  exact ⟨_, hleg, hX, hL, hB, gs, h1, h2, h3, h4, by rw [h5]; exact hL, h7, h8, h9⟩

end Hyperspace
